import Mathlib

/-!
# schemadiff: unmapped JSON fields

A shallow embedding of `schemadiff.go` (package `schemadiff`): the walker
`getUnmappedFields`, its three handlers `processMap`, `processSlice`,
`processStruct`, and the entry point `UnmappedJSONFields`.

* A `reflect.Type` is a finite tree `GoType`; every node carries the answer of
  `reflect.PtrTo(typ).Implements(jsonUnmarshalerInterface)`.
* A decoded `interface{}` is a `Value`; the list under `Value.map` is the order
  in which `range` happens to visit the Go map.
* A Go `map[string]T` that the code writes to is a `GoMap T`, an association
  list in which `set` overwrites.
* A run-time panic is `none`.
* `data []byte` is the document as text, a `String`: the bytes of a document in
  UTF-8. `json.Unmarshal`, `json.MarshalIndent` and `strconv` are modelled from
  their Go definitions, numbers as exact binary64 values; the exponent of a
  number literal is read as `strconv` reads it, its digits counting only until
  it has reached 10000.
-/

namespace Schemadiff

/-! ## Go maps -/

/-- A Go `map[string]α`: association list, first entry for a key is the entry. -/
abbrev GoMap (α : Type) := List (String × α)

/-- The assignment `m[k] = v`: overwrite the entry of `k`, or add one. -/
def GoMap.set {α : Type} : GoMap α → String → α → GoMap α
  | [], k, v => [(k, v)]
  | (k', v') :: rest, k, v =>
    if k' = k then (k, v) :: rest else (k', v') :: GoMap.set rest k v

/-- The lookup `v, ok := m[k]`. -/
def GoMap.get? {α : Type} : GoMap α → String → Option α
  | [], _ => none
  | (k', v') :: rest, k => if k' = k then some v' else GoMap.get? rest k

/-- The keys of the map. -/
def GoMap.keys {α : Type} (m : GoMap α) : List String := m.map Prod.fst

/-! ## Schema: `reflect.Type` -/

/-- The kinds of `reflect.Kind` that the walker sends to its `default` case. -/
inductive BasicKind
  | Bool
  | Int | Int8 | Int16 | Int32 | Int64
  | Uint | Uint8 | Uint16 | Uint32 | Uint64 | Uintptr
  | Float32 | Float64
  | Complex64 | Complex128
  | String
  | UnsafePointer
  deriving DecidableEq, Repr

mutual
/-- A `reflect.Type`. The first argument of every node is
`reflect.PtrTo(typ).Implements(jsonUnmarshalerInterface)`. -/
inductive GoType
  | basic (unmarshaler : Bool) (kind : BasicKind)
  | chan (unmarshaler : Bool) (elem : GoType)
  | func (unmarshaler : Bool)
  | iface (unmarshaler : Bool)
  | map (unmarshaler : Bool) (key : GoType) (elem : GoType)
  | ptr (unmarshaler : Bool) (elem : GoType)
  | array (unmarshaler : Bool) (len : Nat) (elem : GoType)
  | slice (unmarshaler : Bool) (elem : GoType)
  | struct (unmarshaler : Bool) (fields : List StructField)
/-- A `reflect.StructField`: `Name`, the value of `Tag.Get("json")`, and `Type`. -/
inductive StructField
  | mk (Name : String) (jsonTag : String) (Typ : GoType)
end

/-- Go `field.Name`. -/
def StructField.Name : StructField → String
  | .mk n _ _ => n

/-- Go `field.Tag.Get("json")`: the empty string when the tag has no json key. -/
def StructField.jsonTag : StructField → String
  | .mk _ t _ => t

/-- Go `field.Type`. -/
def StructField.Typ : StructField → GoType
  | .mk _ _ t => t

/-- Go `reflect.PtrTo(typ).Implements(jsonUnmarshalerInterface)`. -/
def GoType.implementsUnmarshaler : GoType → Bool
  | .basic um _ => um
  | .chan um _ => um
  | .func um => um
  | .iface um => um
  | .map um _ _ => um
  | .ptr um _ => um
  | .array um _ _ => um
  | .slice um _ => um
  | .struct um _ => um

/-- Go `typ.Elem()`: panics unless the kind is Array, Chan, Map, Ptr or Slice. -/
def GoType.Elem : GoType → Option GoType
  | .chan _ e => some e
  | .map _ _ e => some e
  | .ptr _ e => some e
  | .array _ _ e => some e
  | .slice _ e => some e
  | _ => none

/-- Go `keyType.ConvertibleTo(reflect.TypeOf(string("")))` (`reflect.convertOp`
with destination kind String): the integer kinds convert through
`cvtIntString` / `cvtUintString`, a string kind has the same underlying type.
A slice of bytes or runes also converts but is not a map key type. -/
def GoType.convertibleToString : GoType → Bool
  | .basic _ k =>
    match k with
    | .Int | .Int8 | .Int16 | .Int32 | .Int64 => true
    | .Uint | .Uint8 | .Uint16 | .Uint32 | .Uint64 | .Uintptr => true
    | .String => true
    | _ => false
  | _ => false

/-! ## Decoded values: `interface{}` -/

/-- An IEEE-754 binary64 that is finite: `(-1)^neg * mant * 2^exp`. -/
structure Float64 where
  neg : Bool
  mant : Nat
  exp : Int
  deriving DecidableEq, Repr

/-- What `json.Unmarshal` stores in an `interface{}`, and the nil map that
`UnmappedJSONFields` passes when the document is `null`. -/
inductive Value
  | nil
  | bool (b : Bool)
  | float64 (f : Float64)
  | string (s : String)
  | slice (xs : List Value)
  | map (kvs : List (String × Value))
  | nilMap

/-- The type assertion `val.(map[string]interface{})`. -/
def Value.asMap : Value → Option (List (String × Value))
  | .map kvs => some kvs
  | .nilMap => some []
  | _ => none

/-- The type assertion `val.([]interface{})`. -/
def Value.asSlice : Value → Option (List Value)
  | .slice xs => some xs
  | _ => none

/-- Go `reflect.TypeOf(val).ConvertibleTo(typ)` for `typ` of a basic kind.
`reflect.TypeOf(nil)` is the nil `reflect.Type`, on which the method call
panics: `none`. A float64 converts to every integer and float kind, a string
or bool only to its own kind, a slice or map to no basic kind. -/
def Value.convertibleTo : Value → BasicKind → Option Bool
  | .nil, _ => none
  | .bool _, k => some (k = .Bool)
  | .float64 _, k =>
    match k with
    | .Int | .Int8 | .Int16 | .Int32 | .Int64 => some true
    | .Uint | .Uint8 | .Uint16 | .Uint32 | .Uint64 | .Uintptr => some true
    | .Float32 | .Float64 => some true
    | _ => some false
  | .string _, k => some (k = .String)
  | .slice _, _ => some false
  | .map _, _ => some false
  | .nilMap, _ => some false

/-! ## float64: `strconv.ParseFloat` and the float encoder of encoding/json

Exact arithmetic on fractions `num / den` of natural numbers. -/

/-- The number of binary digits of `n`, in at most `fuel` steps: a step drops
64 digits from a number of more than 64, one digit otherwise. -/
def bitLenAux : Nat → Nat → Nat
  | 0, _ => 0
  | fuel + 1, n =>
    if n = 0 then 0
    else if n < 2 ^ 64 then bitLenAux fuel (n / 2) + 1
    else bitLenAux fuel (n / 2 ^ 64) + 64

/-- The number of binary digits of `n`. -/
def bitLen (n : Nat) : Nat := bitLenAux n n

/-- The fraction `num / den` divided by `2^e`. -/
def scale2 (num den : Nat) (e : Int) : Nat × Nat :=
  if 0 ≤ e then (num, den * 2 ^ e.toNat) else (num * 2 ^ (-e).toNat, den)

/-- The integer nearest to `num / den`, a tie going to the even one. -/
def roundHalfEven (num den : Nat) : Nat :=
  let q := num / den
  let r := num % den
  if 2 * r < den then q
  else if den < 2 * r then q + 1
  else if q % 2 = 0 then q else q + 1

/-- The binary64 nearest to `num / den`, a tie going to the even mantissa;
`none` when the result is beyond the largest float. The mantissa has 53 bits
down to the exponent -1074 of the subnormal numbers. -/
def roundToFloat64 (neg : Bool) (num den : Nat) : Option Float64 :=
  if num = 0 then some ⟨neg, 0, -1074⟩
  else
    let l : Int := (bitLen num : Int) - (bitLen den : Int)
    let s := scale2 num den l
    let fl : Int := if s.2 ≤ s.1 then l else l - 1
    let e : Int := max (fl - 52) (-1074)
    let t := scale2 num den e
    let m := roundHalfEven t.1 t.2
    let r : Float64 := if m = 2 ^ 53 then ⟨neg, 2 ^ 52, e + 1⟩ else ⟨neg, m, e⟩
    if 971 < r.exp then none else some r

/-- Go `strconv.ParseFloat(s, 64)` for a literal that it reads as
`digits * 10^e10` with sign `neg`: the binary64 nearest to that number, a tie
going to the even mantissa; `none` is the range error. The exponent `e10` is
the one that `strconv` reads, which is not the written one when the written
exponent part is 100000 or more (see `parseExpDigits`). -/
def ParseFloat (neg : Bool) (digits : Nat) (e10 : Int) : Option Float64 :=
  if 0 ≤ e10 then roundToFloat64 neg (digits * 10 ^ e10.toNat) 1
  else roundToFloat64 neg digits (10 ^ (-e10).toNat)

/-- The absolute value of a float as a fraction. -/
def Float64.frac (f : Float64) : Nat × Nat :=
  if 0 ≤ f.exp then (f.mant * 2 ^ f.exp.toNat, 1) else (f.mant, 2 ^ (-f.exp).toNat)

/-- The first `dp` from `dp` upwards, in at most `fuel` steps, with
`num / den < 10^dp`. -/
def decPointAux (num den : Nat) : Nat → Int → Int
  | 0, dp => dp
  | fuel + 1, dp =>
    let below : Bool :=
      if 0 ≤ dp then decide (num < den * 10 ^ dp.toNat)
      else decide (num * 10 ^ (-dp).toNat < den)
    if below then dp else decPointAux num den fuel (dp + 1)

/-- The decimal point of a float that is not zero: `10^(dp-1) ≤ f < 10^dp`.
The search starts below it, at an estimate from the binary digits. -/
def Float64.decPoint (f : Float64) : Int :=
  let l : Int := (bitLen f.frac.1 : Int) - (bitLen f.frac.2 : Int)
  decPointAux f.frac.1 f.frac.2 8 ((l - 1) * 30103 / 100000 - 1)

/-- The float cut after `n` decimal digits: `(lo, rem, unit)` with
`f = (lo + rem / unit) * 10^(dp - n)` and `rem < unit`. -/
def Float64.truncAt (f : Float64) (dp : Int) (n : Nat) : Nat × Nat × Nat :=
  let s : Int := dp - n
  let num := if 0 ≤ s then f.frac.1 else f.frac.1 * 10 ^ (-s).toNat
  let den := if 0 ≤ s then f.frac.2 * 10 ^ s.toNat else f.frac.2
  (num / den, num % den, den)

/-- The shortest decimal that parses back to `f`: with `n`, `n + 1`, ...
digits, `f` rounded down or up to that many digits, the nearer one when both
parse back. The result is `(c, n)` for the decimal `c * 10^(dp - n)`. -/
def shortestAux (f : Float64) (dp : Int) : Nat → Nat → Option (Nat × Nat)
  | 0, _ => none
  | fuel + 1, n =>
    let t := f.truncAt dp n
    let lo := t.1
    let rem := t.2.1
    let unit := t.2.2
    if rem = 0 then some (lo, n)
    else
      let okdown : Bool := decide (ParseFloat f.neg lo (dp - n) = some f)
      let okup : Bool := decide (ParseFloat f.neg (lo + 1) (dp - n) = some f)
      if okdown && okup then
        (if 2 * rem < unit then some (lo, n)
         else if unit < 2 * rem then some (lo + 1, n)
         else if lo % 2 = 0 then some (lo, n) else some (lo + 1, n))
      else if okdown then some (lo, n)
      else if okup then some (lo + 1, n)
      else shortestAux f dp fuel (n + 1)

/-- A digit list without the zeros at its end. -/
def dropTrailingZeros (ds : List Char) : List Char :=
  (ds.reverse.dropWhile (fun c => c = '0')).reverse

/-- The shortest digits `d` of a float and its decimal point `dp`, as
strconv computes them for precision -1: the float is `0.d * 10^dp`. -/
def Float64.shortest (f : Float64) : List Char × Int :=
  if f.mant = 0 then ([], 0)
  else
    let dp := f.decPoint
    match shortestAux f dp 17 1 with
    | none => ([], 0)
    | some (c, n) =>
      let ds := Nat.toDigits 10 c
      (dropTrailingZeros ds, dp + ((ds.length : Int) - (n : Int)))

/-- The format `'f'` of strconv with the shortest digits. -/
def fmtF (neg : Bool) (d : List Char) (dp : Int) : List Char :=
  (if neg then ['-'] else []) ++
  (if 0 < dp then d.take dp.toNat ++ List.replicate (dp.toNat - d.length) '0' else ['0']) ++
  (if dp < d.length then '.' :: (List.replicate (-dp).toNat '0' ++ d.drop dp.toNat) else [])

/-- The format `'e'` of strconv with the shortest digits, the exponent
written as encoding/json leaves it: `e-09` is cleaned up to `e-9`. -/
def fmtE (neg : Bool) (d : List Char) (dp : Int) : List Char :=
  let exp : Int := if d.length = 0 then 0 else dp - 1
  (if neg then ['-'] else []) ++
  [d.headD '0'] ++
  (if 1 < d.length then '.' :: d.drop 1 else []) ++
  ['e', if exp < 0 then '-' else '+'] ++
  Nat.toDigits 10 exp.natAbs

/-- The comparison `math.Abs(f) < math.Abs(g)`. -/
def Float64.absLt (f g : Float64) : Bool :=
  decide (f.frac.1 * g.frac.2 < g.frac.1 * f.frac.2)

/-- The float encoder of encoding/json for a float64: format `'e'` when the
absolute value is not zero and is below the float `1e-6` or not below the
float `1e21`, format `'f'` otherwise. -/
def FormatFloat (f : Float64) : List Char :=
  let s := f.shortest
  let tiny : Bool :=
    match ParseFloat false 1 (-6) with
    | some t => f.absLt t
    | none => false
  let huge : Bool :=
    match ParseFloat false 1 21 with
    | some t => !f.absLt t
    | none => false
  if decide (f.mant ≠ 0) && (tiny || huge) then fmtE f.neg s.1 s.2 else fmtF f.neg s.1 s.2

/-! ## JSON text: the scanner of encoding/json -/

/-- The syntax tree of a JSON text. A number keeps its literal as
`strconv.ParseFloat` reads it: sign, the digits of the integer and fraction
parts read as one natural number, and the decimal exponent that goes with
them, which is the exponent part as `parseExponent` reads it less the number
of fraction digits. -/
inductive JSON
  | null
  | bool (b : Bool)
  | number (neg : Bool) (digits : Nat) (e10 : Int)
  | string (s : String)
  | array (elems : List JSON)
  | object (members : List (String × JSON))

/-- Skip JSON white space: space, tab, carriage return, line feed. -/
def skipSpace : List Char → List Char
  | [] => []
  | c :: cs => if c = ' ' ∨ c = '\t' ∨ c = '\r' ∨ c = '\n' then skipSpace cs else c :: cs

/-- The value of a hexadecimal digit. -/
def hexVal (c : Char) : Option Nat :=
  if '0' ≤ c ∧ c ≤ '9' then some (c.toNat - '0'.toNat)
  else if 'a' ≤ c ∧ c ≤ 'f' then some (c.toNat - 'a'.toNat + 10)
  else if 'A' ≤ c ∧ c ≤ 'F' then some (c.toNat - 'A'.toNat + 10)
  else none

/-- Go `getu4` on the four characters after a backslash and u. -/
def getu4 (a b c d : Char) : Option Nat :=
  match hexVal a, hexVal b, hexVal c, hexVal d with
  | some x, some y, some z, some w => some (((x * 16 + y) * 16 + z) * 16 + w)
  | _, _, _, _ => none

/-- The second half of a surrogate pair, when the text goes on with one. -/
def lowSurrogate : List Char → Option Nat
  | '\\' :: 'u' :: a :: b :: c :: d :: _ =>
    match getu4 a b c d with
    | some r => if 0xDC00 ≤ r ∧ r < 0xE000 then some r else none
    | none => none
  | _ => none

/-- The characters of a string literal after its opening quote, unquoted as
Go `unquote` does, and the text after the closing quote. The first argument
bounds the number of steps. -/
def parseString : Nat → List Char → List Char → Option (String × List Char)
  | 0, _, _ => none
  | _ + 1, [], _ => none
  | fuel + 1, c :: rest, acc =>
    if c = '"' then some (String.mk acc.reverse, rest)
    else if c = '\\' then
      match rest with
      | [] => none
      | e :: rest1 =>
        if e = '"' then parseString fuel rest1 ('"' :: acc)
        else if e = '\\' then parseString fuel rest1 ('\\' :: acc)
        else if e = '/' then parseString fuel rest1 ('/' :: acc)
        else if e = 'b' then parseString fuel rest1 (Char.ofNat 8 :: acc)
        else if e = 'f' then parseString fuel rest1 (Char.ofNat 12 :: acc)
        else if e = 'n' then parseString fuel rest1 ('\n' :: acc)
        else if e = 'r' then parseString fuel rest1 ('\r' :: acc)
        else if e = 't' then parseString fuel rest1 ('\t' :: acc)
        else if e = 'u' then
          match rest1 with
          | a :: b :: c :: d :: rest2 =>
            match getu4 a b c d with
            | none => none
            | some r =>
              if 0xD800 ≤ r ∧ r < 0xE000 then
                match lowSurrogate rest2 with
                | some r1 =>
                  if r < 0xDC00 then
                    parseString fuel (rest2.drop 6)
                      (Char.ofNat ((r - 0xD800) * 0x400 + (r1 - 0xDC00) + 0x10000) :: acc)
                  else parseString fuel rest2 (Char.ofNat 0xFFFD :: acc)
                | none => parseString fuel rest2 (Char.ofNat 0xFFFD :: acc)
              else parseString fuel rest2 (Char.ofNat r :: acc)
          | _ => none
        else none
    else if c.toNat < 0x20 then none
    else parseString fuel rest (c :: acc)

/-- The digits at the head of the text, read as one number after `acc`, how
many there are, and the text after them. -/
def parseDigits : List Char → Nat → Nat → Nat × Nat × List Char
  | [], acc, n => (acc, n, [])
  | c :: cs, acc, n =>
    if '0' ≤ c ∧ c ≤ '9' then parseDigits cs (acc * 10 + (c.toNat - '0'.toNat)) (n + 1)
    else (acc, n, c :: cs)

/-- The digits of an exponent at the head of the text, read as
`strconv.ParseFloat` reads them (`readFloat`, and `decimal.set` alike): a digit
is added to `acc` only while `acc` is below 10000,
`if e < 10000 { e = e*10 + int(s[i]) - '0' }`, so once `acc` has reached
10000 the digits that follow count for nothing; how many digits there are,
and the text after them. -/
def parseExpDigits : List Char → Nat → Nat → Nat × Nat × List Char
  | [], acc, n => (acc, n, [])
  | c :: cs, acc, n =>
    if '0' ≤ c ∧ c ≤ '9' then
      parseExpDigits cs (if acc < 10000 then acc * 10 + (c.toNat - '0'.toNat) else acc) (n + 1)
    else (acc, n, c :: cs)

/-- The exponent part of a number literal, when there is one: the exponent
that `strconv.ParseFloat` adds to the decimal point, `e * esign` with the `e`
of `parseExpDigits`. -/
def parseExponent (input : List Char) : Option (Int × List Char) :=
  match input with
  | c :: rest =>
    if c = 'e' ∨ c = 'E' then
      match rest with
      | s :: rest1 =>
        if s = '+' ∨ s = '-' then
          match parseExpDigits rest1 0 0 with
          | (_, 0, _) => none
          | (e, _, rest2) => some (if s = '-' then -(e : Int) else (e : Int), rest2)
        else
          match parseExpDigits rest 0 0 with
          | (_, 0, _) => none
          | (e, _, rest2) => some ((e : Int), rest2)
      | [] => none
    else some (0, input)
  | [] => some (0, input)

/-- The fraction part of a number literal, when there is one: the digits
after `int`, and how many were added. -/
def parseFraction (int : Nat) (input : List Char) : Option (Nat × Nat × List Char) :=
  match input with
  | c :: rest =>
    if c = '.' then
      match parseDigits rest int 0 with
      | (_, 0, _) => none
      | r => some r
    else some (int, 0, input)
  | [] => some (int, 0, input)

/-- A number literal whose sign is read: `0` or a digit from 1 to 9 and more
digits, then a fraction, then an exponent. -/
def parseNumber (neg : Bool) (input : List Char) : Option (JSON × List Char) :=
  match input with
  | c :: rest =>
    let int : Option (Nat × List Char) :=
      if c = '0' then some (0, rest)
      else if '1' ≤ c ∧ c ≤ '9' then
        let r := parseDigits input 0 0
        some (r.1, r.2.2)
      else none
    match int with
    | none => none
    | some (i, rest1) =>
      match parseFraction i rest1 with
      | none => none
      | some (digits, nfrac, rest2) =>
        match parseExponent rest2 with
        | none => none
        | some (e, rest3) => some (.number neg digits (e - (nfrac : Int)), rest3)
  | [] => none

/-- The nesting depth up to which the scanner of encoding/json goes. -/
def maxNestingDepth : Nat := 10000

mutual
/-- One JSON value at the head of the text (after white space), and the text
after it. `depth` counts the arrays and objects that are open. -/
def parseValue : Nat → Nat → List Char → Option (JSON × List Char)
  | 0, _, _ => none
  | fuel + 1, depth, input =>
    match skipSpace input with
    | [] => none
    | c :: rest =>
      if c = '{' then
        if maxNestingDepth ≤ depth then none
        else
          match skipSpace rest with
          | '}' :: rest1 => some (.object [], rest1)
          | rest1 => parseMembers fuel (depth + 1) rest1 []
      else if c = '[' then
        if maxNestingDepth ≤ depth then none
        else
          match skipSpace rest with
          | ']' :: rest1 => some (.array [], rest1)
          | rest1 => parseElements fuel (depth + 1) rest1 []
      else if c = '"' then
        match parseString rest.length rest [] with
        | some (s, rest1) => some (.string s, rest1)
        | none => none
      else if c = '-' then parseNumber true rest
      else if '0' ≤ c ∧ c ≤ '9' then parseNumber false (c :: rest)
      else
        match c :: rest with
        | 't' :: 'r' :: 'u' :: 'e' :: rest1 => some (.bool true, rest1)
        | 'f' :: 'a' :: 'l' :: 's' :: 'e' :: rest1 => some (.bool false, rest1)
        | 'n' :: 'u' :: 'l' :: 'l' :: rest1 => some (.null, rest1)
        | _ => none
/-- The elements of an array that is not empty, up to its closing bracket;
`acc` holds the elements read so far, last first. -/
def parseElements : Nat → Nat → List Char → List JSON → Option (JSON × List Char)
  | 0, _, _, _ => none
  | fuel + 1, depth, input, acc =>
    match parseValue fuel depth input with
    | none => none
    | some (v, rest) =>
      match skipSpace rest with
      | c :: rest1 =>
        if c = ',' then parseElements fuel depth rest1 (v :: acc)
        else if c = ']' then some (.array (v :: acc).reverse, rest1)
        else none
      | [] => none
/-- The members of an object that is not empty, up to its closing brace. -/
def parseMembers : Nat → Nat → List Char → List (String × JSON) → Option (JSON × List Char)
  | 0, _, _, _ => none
  | fuel + 1, depth, input, acc =>
    match skipSpace input with
    | '"' :: rest =>
      match parseString rest.length rest [] with
      | none => none
      | some (k, rest1) =>
        match skipSpace rest1 with
        | ':' :: rest2 =>
          match parseValue fuel depth rest2 with
          | none => none
          | some (v, rest3) =>
            match skipSpace rest3 with
            | c :: rest4 =>
              if c = ',' then parseMembers fuel depth rest4 ((k, v) :: acc)
              else if c = '}' then some (.object ((k, v) :: acc).reverse, rest4)
              else none
            | [] => none
        | _ => none
    | _ => none
end

/-- The syntax tree of a whole JSON text; `none` is a syntax error. -/
def parseJSON (data : String) : Option JSON :=
  match parseValue (2 * data.length + 2) 0 data.data with
  | none => none
  | some (v, rest) =>
    match skipSpace rest with
    | [] => some v
    | _ => none

/-! ## `json.Unmarshal` into a `map[string]interface{}` -/

/-- The errors of `json.Unmarshal`. -/
inductive UnmarshalError
  | SyntaxError
  | UnmarshalTypeError
  deriving DecidableEq, Repr

mutual
/-- What the decoder stores in an `interface{}` for a syntax tree
(`valueInterface`): `none` when a number is out of the float64 range, the
`UnmarshalTypeError` that `convertNumber` gives. -/
def JSON.decode : JSON → Option Value
  | .null => some .nil
  | .bool b => some (.bool b)
  | .number neg digits e10 =>
    match ParseFloat neg digits e10 with
    | none => none
    | some f => some (.float64 f)
  | .string s => some (.string s)
  | .array elems =>
    match decodeElems elems with
    | none => none
    | some xs => some (.slice xs)
  | .object members =>
    match decodeMembers members [] with
    | none => none
    | some m => some (.map m)
/-- The elements of an array, decoded in order. -/
def decodeElems : List JSON → Option (List Value)
  | [] => some []
  | j :: rest =>
    match j.decode with
    | none => none
    | some v =>
      match decodeElems rest with
      | none => none
      | some vs => some (v :: vs)
/-- The members of an object, assigned to the map `m` in order: `m[key] = value`. -/
def decodeMembers : List (String × JSON) → GoMap Value → Option (GoMap Value)
  | [], m => some m
  | (k, j) :: rest, m =>
    match j.decode with
    | none => none
    | some v => decodeMembers rest (m.set k v)
end

/-- Go `json.Unmarshal(data, &val)` for `var val map[string]interface{}`:
the value of `val` afterwards, or the error. A text that is not valid JSON is
a syntax error; `null` leaves `val` the nil map; an object fills a map; any
other top-level value cannot be stored in a map. -/
def Unmarshal (data : String) : Except UnmarshalError Value :=
  match parseJSON data with
  | none => .error .SyntaxError
  | some .null => .ok .nilMap
  | some (.object members) =>
    match decodeMembers members [] with
    | none => .error .UnmarshalTypeError
    | some m => .ok (.map m)
  | some _ => .error .UnmarshalTypeError

/-! ## `json.MarshalIndent(v, "", " ")` -/

/-- The hexadecimal digit of a number below 16. -/
def hexDigit (n : Nat) : Char :=
  if n < 10 then Char.ofNat ('0'.toNat + n) else Char.ofNat ('a'.toNat + (n - 10))

/-- One character of a string as encoding/json writes it, with HTML escaping. -/
def escapeChar (c : Char) : List Char :=
  if c = '"' then ['\\', '"']
  else if c = '\\' then ['\\', '\\']
  else if c.toNat = 8 then ['\\', 'b']
  else if c.toNat = 12 then ['\\', 'f']
  else if c = '\n' then ['\\', 'n']
  else if c = '\r' then ['\\', 'r']
  else if c = '\t' then ['\\', 't']
  else if c.toNat < 0x20 ∨ c = '<' ∨ c = '>' ∨ c = '&' then
    ['\\', 'u', '0', '0', hexDigit (c.toNat / 16), hexDigit (c.toNat % 16)]
  else if c.toNat = 0x2028 then ['\\', 'u', '2', '0', '2', '8']
  else if c.toNat = 0x2029 then ['\\', 'u', '2', '0', '2', '9']
  else [c]

/-- A string as encoding/json writes it: quoted and escaped. -/
def encodeString (s : String) : List Char :=
  '"' :: (s.data.flatMap escapeChar ++ ['"'])

/-- A new line and the indentation of `depth`: one space per level. -/
def newline (depth : Nat) : List Char :=
  '\n' :: List.replicate depth ' '

/-- The items of an array or object, one per line at `depth`. -/
def joinItems (depth : Nat) : List (List Char) → List Char
  | [] => []
  | [x] => x
  | x :: xs => x ++ (',' :: newline depth) ++ joinItems depth xs

/-- Insert a rendered member into a list sorted by key. -/
def insertByKey (kv : String × List Char) : List (String × List Char) → List (String × List Char)
  | [] => [kv]
  | x :: xs => if kv.1 < x.1 then kv :: x :: xs else x :: insertByKey kv xs

/-- Sort rendered members by key, as encoding/json sorts the keys of a map. -/
def sortByKey : List (String × List Char) → List (String × List Char)
  | [] => []
  | x :: xs => insertByKey x (sortByKey xs)

mutual
/-- The text of a value inside `depth` open arrays and objects. -/
def marshalAt : Nat → Value → List Char
  | _, .nil => "null".data
  | _, .nilMap => "null".data
  | _, .bool b => if b then "true".data else "false".data
  | _, .float64 f => FormatFloat f
  | _, .string s => encodeString s
  | depth, .slice xs =>
    match marshalElems (depth + 1) xs with
    | [] => ['[', ']']
    | items => '[' :: (newline (depth + 1) ++ joinItems (depth + 1) items ++ newline depth ++ [']'])
  | depth, .map kvs =>
    match sortByKey (marshalMembers (depth + 1) kvs) with
    | [] => ['\x7b', '\x7d']
    | items =>
      '\x7b' :: (newline (depth + 1) ++
        joinItems (depth + 1) (items.map (fun kv => encodeString kv.1 ++ (':' :: ' ' :: kv.2))) ++
        newline depth ++ ['\x7d'])
/-- The texts of the elements of a slice. -/
def marshalElems : Nat → List Value → List (List Char)
  | _, [] => []
  | depth, x :: xs => marshalAt depth x :: marshalElems depth xs
/-- The texts of the values of a map, each with its key. -/
def marshalMembers : Nat → List (String × Value) → List (String × List Char)
  | _, [] => []
  | depth, (k, x) :: xs => (k, marshalAt depth x) :: marshalMembers depth xs
end

/-- Go `string(b)` for `b, _ := json.MarshalIndent(v, "", " ")`. -/
def MarshalIndent (v : Value) : String :=
  String.mk (marshalAt 0 v)

/-! ## The known fields of a struct -/

/-- Go `strings.Split(s, ",")` on the characters of `s`. -/
def splitComma : List Char → List (List Char)
  | [] => [[]]
  | c :: cs =>
    if c = ',' then [] :: splitComma cs
    else
      match splitComma cs with
      | [] => [[c]]
      | p :: ps => (c :: p) :: ps

/-- The serialized name of a field: `parts[0]` of the json tag when it is not
empty, the Go field name otherwise. -/
def jsonFieldName (field : StructField) : String :=
  match splitComma field.jsonTag.data with
  | [] => field.Name
  | p :: _ => if p.length > 0 then String.mk p else field.Name

/-- The body of the first loop of `processStruct`: a field goes into
`knownFields` under its serialized name, unless that name is `-`. -/
def addKnownField (known : GoMap StructField) (field : StructField) : GoMap StructField :=
  if jsonFieldName field = "-" then known else known.set (jsonFieldName field) field

/-- The first loop of `processStruct`: `knownFields`, filled field by field. -/
def knownFields (fields : List StructField) : GoMap StructField :=
  fields.foldl addKnownField []

/-- The path of a struct key: `prefix`, a dot unless `prefix` is empty, the key. -/
def childKey (pfx : String) (k : String) : String :=
  (if pfx ≠ "" then pfx ++ "." else pfx) ++ k

/-- The path of a map key: `prefix + fmt.Sprintf("[\"%s\"]", k)`. -/
def mapKey (pfx : String) (k : String) : String :=
  pfx ++ ("[\"" ++ k ++ "\"]")

/-- The path of a slice index: `prefix + fmt.Sprintf("[%d]", i)`. -/
def indexKey (pfx : String) (i : Nat) : String :=
  pfx ++ ("[" ++ toString i ++ "]")

/-! ## Termination of the walker: the type gets smaller -/

theorem GoMap.mem_of_get? {α : Type} (m : GoMap α) (k : String) (v : α)
    (h : m.get? k = some v) : (k, v) ∈ m := by
  induction m with
  | nil => simp [GoMap.get?] at h
  | cons hd rest ih =>
    obtain ⟨k0, v0⟩ := hd
    simp only [GoMap.get?] at h
    split at h
    · rename_i hk
      cases h
      subst hk
      exact List.mem_cons_self _ _
    · exact List.mem_cons_of_mem _ (ih h)

theorem GoMap.forall_set {α : Type} (P : α → Prop) (m : GoMap α) (k : String) (v : α)
    (hv : P v) (hm : ∀ a ∈ m, P a.2) : ∀ a ∈ m.set k v, P a.2 := by
  induction m with
  | nil =>
    intro a ha
    simp only [GoMap.set, List.mem_singleton] at ha
    subst ha
    exact hv
  | cons hd rest ih =>
    obtain ⟨k0, v0⟩ := hd
    intro a ha
    simp only [GoMap.set] at ha
    split at ha
    · rcases List.mem_cons.1 ha with rfl | ha
      · exact hv
      · exact hm a (List.mem_cons_of_mem _ ha)
    · rcases List.mem_cons.1 ha with rfl | ha
      · exact hm _ (List.mem_cons_self _ _)
      · exact ih (fun b hb => hm b (List.mem_cons_of_mem _ hb)) a ha

theorem knownFields_foldl_mem (fields fs : List StructField) (init : GoMap StructField)
    (hinit : ∀ a ∈ init, a.2 ∈ fields) (hfs : ∀ f ∈ fs, f ∈ fields) :
    ∀ a ∈ fs.foldl addKnownField init, a.2 ∈ fields := by
  induction fs generalizing init with
  | nil => simpa using hinit
  | cons f fs ih =>
    simp only [List.foldl_cons]
    apply ih
    · unfold addKnownField
      split
      · exact hinit
      · exact GoMap.forall_set (fun x => x ∈ fields) _ _ _ (hfs f (List.mem_cons_self _ _)) hinit
    · intro g hg
      exact hfs g (List.mem_cons_of_mem _ hg)

theorem knownFields_mem (fields : List StructField) (k : String) (f : StructField)
    (h : (knownFields fields).get? k = some f) : f ∈ fields :=
  knownFields_foldl_mem fields fields [] (by simp) (fun _ hf => hf) (k, f)
    (GoMap.mem_of_get? _ _ _ h)

theorem sizeOf_field_lt (um : Bool) (fields : List StructField) (f : StructField)
    (h : f ∈ fields) : sizeOf f.Typ < sizeOf (GoType.struct um fields) := by
  have := List.sizeOf_lt_of_mem h
  cases f
  simp only [StructField.Typ, GoType.struct.sizeOf_spec, StructField.mk.sizeOf_spec] at *
  omega

theorem sizeOf_Elem_lt (typ e : GoType) (h : typ.Elem = some e) : sizeOf e < sizeOf typ := by
  cases typ <;> simp only [GoType.Elem, Option.some.injEq] at h <;> try contradiction
  all_goals subst h
  all_goals simp

/-! ## The walker -/

mutual
/-- Go `getUnmappedFields(typ, val, prefix, unknown)`; the result is `unknown`
after the call, `none` when the call panics. -/
def getUnmappedFields (typ : GoType) (val : Value) (pfx : String) (unknown : GoMap Value) :
    Option (GoMap Value) :=
  if typ.implementsUnmarshaler then
    some unknown
  else
    match typ with
    | .chan _ _ => some (unknown.set pfx val)
    | .func _ => some (unknown.set pfx val)
    | .iface _ => some unknown
    | .map _ keyType valType => processMap keyType valType val pfx unknown
    | .ptr _ elem => getUnmappedFields elem val pfx unknown
    | .array um n elem => processSlice (.array um n elem) val pfx unknown
    | .slice um elem => processSlice (.slice um elem) val pfx unknown
    | .struct um fields => processStruct (.struct um fields) val pfx unknown
    | .basic _ kind =>
      match val.convertibleTo kind with
      | none => none
      | some true => some unknown
      | some false => some (unknown.set pfx val)
termination_by (sizeOf typ, 1)
decreasing_by
  · exact Prod.Lex.left _ _ (by simp only [GoType.map.sizeOf_spec]; omega)
  · exact Prod.Lex.left _ _ (by simp only [GoType.ptr.sizeOf_spec]; omega)
  · exact Prod.Lex.right _ (by decide)
  · exact Prod.Lex.right _ (by decide)
  · exact Prod.Lex.right _ (by decide)

/-- Go `processMap(keyType, valType, val, prefix, unknown)`. -/
def processMap (keyType : GoType) (valType : GoType) (val : Value) (pfx : String)
    (unknown : GoMap Value) : Option (GoMap Value) :=
  if !keyType.convertibleToString then
    some (unknown.set pfx val)
  else
    match val.asMap with
    | none => some (unknown.set pfx val)
    | some valMap =>
      valMap.foldlM
        (fun unknown kv => getUnmappedFields valType kv.2 (mapKey pfx kv.1) unknown)
        unknown
termination_by (sizeOf valType, 2)
decreasing_by
  exact Prod.Lex.right _ (by decide)

/-- Go `processSlice(typ, val, prefix, unknown)`. -/
def processSlice (typ : GoType) (val : Value) (pfx : String) (unknown : GoMap Value) :
    Option (GoMap Value) :=
  match val.asSlice with
  | none => some (unknown.set pfx val)
  | some valSlice =>
    match h : typ.Elem with
    | none => none
    | some sliceType =>
      valSlice.enum.foldlM
        (fun unknown iv => getUnmappedFields sliceType iv.2 (indexKey pfx iv.1) unknown)
        unknown
termination_by (sizeOf typ, 0)
decreasing_by
  exact Prod.Lex.left _ _ (sizeOf_Elem_lt _ _ h)

/-- Go `processStruct(typ, val, prefix, unknown)`. -/
def processStruct (typ : GoType) (val : Value) (pfx : String) (unknown : GoMap Value) :
    Option (GoMap Value) :=
  match val.asMap with
  | none => some (unknown.set pfx val)
  | some valMap =>
    match typ with
    | .struct um fields =>
      valMap.foldlM
        (fun unknown kv =>
          match h : (knownFields fields).get? kv.1 with
          | none => some (unknown.set (childKey pfx kv.1) kv.2)
          | some structField =>
            have : sizeOf structField.Typ < sizeOf (GoType.struct um fields) :=
              sizeOf_field_lt um fields structField (knownFields_mem fields _ _ h)
            getUnmappedFields structField.Typ kv.2 (childKey pfx kv.1) unknown)
        unknown
    | _ => none
termination_by (sizeOf typ, 0)
decreasing_by
  exact Prod.Lex.left _ _ this
end

/-! ## The assignments of a walk

The walker only writes to `unknown`, it never reads it. The functions below
follow it step for step and return the assignments `unknown[k] = v` that the
call executes, in the order in which it executes them. -/

/-- The assignments of a loop: those of the first element, then those of the
rest; a panic anywhere is a panic. -/
def collectWrites {α : Type} (f : α → Option (List (String × Value))) :
    List α → Option (List (String × Value))
  | [] => some []
  | a :: rest =>
    match f a with
    | none => none
    | some w =>
      match collectWrites f rest with
      | none => none
      | some ws => some (w ++ ws)

/-- The report after the assignments `ws`, made in order. -/
def applyWrites (unknown : GoMap Value) (ws : List (String × Value)) : GoMap Value :=
  ws.foldl (fun m kv => m.set kv.1 kv.2) unknown

mutual
/-- The assignments that `getUnmappedFields(typ, val, prefix, unknown)`
executes; `none` when the call panics. -/
def getUnmappedWrites (typ : GoType) (val : Value) (pfx : String) :
    Option (List (String × Value)) :=
  if typ.implementsUnmarshaler then
    some []
  else
    match typ with
    | .chan _ _ => some [(pfx, val)]
    | .func _ => some [(pfx, val)]
    | .iface _ => some []
    | .map _ keyType valType => processMapWrites keyType valType val pfx
    | .ptr _ elem => getUnmappedWrites elem val pfx
    | .array um n elem => processSliceWrites (.array um n elem) val pfx
    | .slice um elem => processSliceWrites (.slice um elem) val pfx
    | .struct um fields => processStructWrites (.struct um fields) val pfx
    | .basic _ kind =>
      match val.convertibleTo kind with
      | none => none
      | some true => some []
      | some false => some [(pfx, val)]
termination_by (sizeOf typ, 1)
decreasing_by
  · exact Prod.Lex.left _ _ (by simp only [GoType.map.sizeOf_spec]; omega)
  · exact Prod.Lex.left _ _ (by simp only [GoType.ptr.sizeOf_spec]; omega)
  · exact Prod.Lex.right _ (by decide)
  · exact Prod.Lex.right _ (by decide)
  · exact Prod.Lex.right _ (by decide)

/-- The assignments that `processMap` executes. -/
def processMapWrites (keyType : GoType) (valType : GoType) (val : Value) (pfx : String) :
    Option (List (String × Value)) :=
  if !keyType.convertibleToString then
    some [(pfx, val)]
  else
    match val.asMap with
    | none => some [(pfx, val)]
    | some valMap =>
      collectWrites (fun kv => getUnmappedWrites valType kv.2 (mapKey pfx kv.1)) valMap
termination_by (sizeOf valType, 2)
decreasing_by
  exact Prod.Lex.right _ (by decide)

/-- The assignments that `processSlice` executes. -/
def processSliceWrites (typ : GoType) (val : Value) (pfx : String) :
    Option (List (String × Value)) :=
  match val.asSlice with
  | none => some [(pfx, val)]
  | some valSlice =>
    match h : typ.Elem with
    | none => none
    | some sliceType =>
      collectWrites (fun iv => getUnmappedWrites sliceType iv.2 (indexKey pfx iv.1))
        valSlice.enum
termination_by (sizeOf typ, 0)
decreasing_by
  exact Prod.Lex.left _ _ (sizeOf_Elem_lt _ _ h)

/-- The assignments that `processStruct` executes. -/
def processStructWrites (typ : GoType) (val : Value) (pfx : String) :
    Option (List (String × Value)) :=
  match val.asMap with
  | none => some [(pfx, val)]
  | some valMap =>
    match typ with
    | .struct um fields =>
      collectWrites
        (fun kv =>
          match h : (knownFields fields).get? kv.1 with
          | none => some [(childKey pfx kv.1, kv.2)]
          | some structField =>
            have : sizeOf structField.Typ < sizeOf (GoType.struct um fields) :=
              sizeOf_field_lt um fields structField (knownFields_mem fields _ _ h)
            getUnmappedWrites structField.Typ kv.2 (childKey pfx kv.1))
        valMap
    | _ => none
termination_by (sizeOf typ, 0)
decreasing_by
  exact Prod.Lex.left _ _ this
end

/-! ## The entry point -/

/-- What a call of `UnmappedJSONFields` does: it returns `(out, nil)`, it
returns `(nil, err)`, or it panics. -/
inductive Outcome
  | report (out : GoMap String)
  | error (err : UnmarshalError)
  | panic
  deriving DecidableEq, Repr

/-- The last loop of `UnmappedJSONFields`: `out[k] = string(b)` for every entry. -/
def serialize (unknown : GoMap Value) : GoMap String :=
  unknown.foldl (fun out kv => out.set kv.1 (MarshalIndent kv.2)) []

/-- Go `UnmappedJSONFields(typ, data)`. -/
def UnmappedJSONFields (typ : GoType) (data : String) : Outcome :=
  match Unmarshal data with
  | .error err => .error err
  | .ok val =>
    match getUnmappedFields typ val "" [] with
    | none => .panic
    | some unknown => .report (serialize unknown)

/-! ## The loop bodies -/

/-- The body of the `range valMap` loop of `processStruct`, for one key. -/
def structStep (fields : List StructField) (pfx : String) (unknown : GoMap Value)
    (kv : String × Value) : Option (GoMap Value) :=
  match (knownFields fields).get? kv.1 with
  | none => some (unknown.set (childKey pfx kv.1) kv.2)
  | some structField => getUnmappedFields structField.Typ kv.2 (childKey pfx kv.1) unknown

/-- The body of the `range valMap` loop of `processMap`, for one key. -/
def mapStep (valType : GoType) (pfx : String) (unknown : GoMap Value)
    (kv : String × Value) : Option (GoMap Value) :=
  getUnmappedFields valType kv.2 (mapKey pfx kv.1) unknown

/-- The body of the `range valSlice` loop of `processSlice`, for one index. -/
def sliceStep (sliceType : GoType) (pfx : String) (unknown : GoMap Value)
    (iv : Nat × Value) : Option (GoMap Value) :=
  getUnmappedFields sliceType iv.2 (indexKey pfx iv.1) unknown

/-- The assignments of the `range valMap` loop of `processStruct`, for one key. -/
def structStepWrites (fields : List StructField) (pfx : String) (kv : String × Value) :
    Option (List (String × Value)) :=
  match (knownFields fields).get? kv.1 with
  | none => some [(childKey pfx kv.1, kv.2)]
  | some structField => getUnmappedWrites structField.Typ kv.2 (childKey pfx kv.1)

/-- The assignments of the `range valMap` loop of `processMap`, for one key. -/
def mapStepWrites (valType : GoType) (pfx : String) (kv : String × Value) :
    Option (List (String × Value)) :=
  getUnmappedWrites valType kv.2 (mapKey pfx kv.1)

/-- The assignments of the `range valSlice` loop of `processSlice`, for one index. -/
def sliceStepWrites (sliceType : GoType) (pfx : String) (iv : Nat × Value) :
    Option (List (String × Value)) :=
  getUnmappedWrites sliceType iv.2 (indexKey pfx iv.1)

/-! ## Definitions for the statements -/

/-- The type `s` under `n` pointers, none of which decodes itself. -/
def wrapPtr : Nat → GoType → GoType
  | 0, s => s
  | n + 1, s => .ptr false (wrapPtr n s)

/-- The schema `{String:string, B:{String:string, D:[]{String:string,Int:int}}}`. -/
def scenarioSchema : GoType :=
  .struct false
    [StructField.mk "String" "" (.basic false .String),
     StructField.mk "B" ""
      (.struct false
        [StructField.mk "String" "" (.basic false .String),
         StructField.mk "D" ""
          (.slice false
            (.struct false
              [StructField.mk "String" "" (.basic false .String),
               StructField.mk "Int" "" (.basic false .Int)]))])]

/-- The document
`{"String":"x","B":{"String":"y","MissingKey":"v","D":[{"String":"z","Int":"oops"}]}}`. -/
def scenarioDocument : String :=
  "\x7b\"String\":\"x\",\"B\":\x7b\"String\":\"y\",\"MissingKey\":\"v\"," ++
    "\"D\":[\x7b\"String\":\"z\",\"Int\":\"oops\"\x7d]\x7d\x7d"

/-- The document of the scenario, decoded. -/
def scenarioValue : Value :=
  .map
    [("String", .string "x"),
     ("B", .map
      [("String", .string "y"), ("MissingKey", .string "v"),
       ("D", .slice [.map [("String", .string "z"), ("Int", .string "oops")]])])]

/-- A decoded value that is valid for a schema, in the words of the claim:
any value for a node that decodes itself or for an `interface{}`; for a
pointer, a value valid for the element type; for a primitive kind, a value
whose type converts to it; for an array or slice, a list of valid elements;
for a map, when the key type converts to string, a keyed collection of valid
values; for a struct, a keyed collection whose every key is a known
serialized field name with a value valid for that field's type. No rule makes
a value valid for a channel or a function. -/
inductive Valid : GoType → Value → Prop
  | selfDecoding (typ : GoType) (val : Value) :
      typ.implementsUnmarshaler = true → Valid typ val
  | any (um : Bool) (val : Value) : Valid (.iface um) val
  | wrapper (um : Bool) (elem : GoType) (val : Value) :
      Valid elem val → Valid (.ptr um elem) val
  | primitive (um : Bool) (kind : BasicKind) (val : Value) :
      val.convertibleTo kind = some true → Valid (.basic um kind) val
  | slice (um : Bool) (elem : GoType) (xs : List Value) :
      (∀ x ∈ xs, Valid elem x) → Valid (.slice um elem) (.slice xs)
  | array (um : Bool) (n : Nat) (elem : GoType) (xs : List Value) :
      (∀ x ∈ xs, Valid elem x) → Valid (.array um n elem) (.slice xs)
  | map (um : Bool) (keyType valType : GoType) (val : Value) (kvs : List (String × Value)) :
      keyType.convertibleToString = true → val.asMap = some kvs →
      (∀ kv ∈ kvs, Valid valType kv.2) → Valid (.map um keyType valType) val
  | record (um : Bool) (fields : List StructField) (val : Value)
      (kvs : List (String × Value)) :
      val.asMap = some kvs →
      (∀ kv ∈ kvs, (knownFields fields).get? kv.1 ≠ none) →
      (∀ kv ∈ kvs, ∀ f, (knownFields fields).get? kv.1 = some f → Valid f.Typ kv.2) →
      Valid (.struct um fields) val

/-- The paths a walk at the path `q` can write: `q` itself and `q` followed by
a dot or an opening bracket; every path when `q` is empty, where a struct key
is its own path. -/
def Under (q p : String) : Prop :=
  q = "" ∨ p = q ∨ ∃ s : String, p = q ++ "." ++ s ∨ p = q ++ "[" ++ s

/-- The struct of the witness of C4: `String string` and
`UnexportedString string` tagged `json:"-"`, as in the test. -/
def excludedFields : List StructField :=
  [StructField.mk "String" "" (.basic false .String),
   StructField.mk "UnexportedString" "-" (.basic false .String)]

/-- The integer kinds of `reflect.Kind`: `Int` to `Uintptr`. -/
def integerKinds : List BasicKind :=
  [.Int, .Int8, .Int16, .Int32, .Int64, .Uint, .Uint8, .Uint16, .Uint32, .Uint64, .Uintptr]

/-- The floating-point kinds of `reflect.Kind`. -/
def floatKinds : List BasicKind := [.Float32, .Float64]

/-- The schema of the null example: `struct { StringPtr *string }`. -/
def stringPtrSchema : GoType :=
  .struct false [StructField.mk "StringPtr" "" (.ptr false (.basic false .String))]

/-- The document `{"StringPtr": null}`. -/
def stringPtrNullDocument : String := "\x7b\"StringPtr\": null\x7d"

/-- What can follow a path in a path beneath it: nothing, or text that starts
with a dot or an opening bracket. -/
def PathTail (r : List Char) : Prop :=
  r = [] ∨ ∃ c s, r = c :: s ∧ (c = '.' ∨ c = '[')

/-- The path `p` is the path `q` or goes on after `q` with a dot or an
opening bracket. -/
def Ext (q p : String) : Prop :=
  ∃ r : List Char, p.data = q.data ++ r ∧ PathTail r

/-- The key has no dot and no opening bracket. -/
def PlainKey (k : String) : Prop :=
  ∀ c ∈ k.data, c ≠ '.' ∧ c ≠ '['

/-- A schema as Go has them: the name of every struct field is not empty, at
every depth that a walk can reach. -/
inductive NamedFields : GoType → Prop
  | basic (um : Bool) (kind : BasicKind) : NamedFields (.basic um kind)
  | chan (um : Bool) (elem : GoType) : NamedFields (.chan um elem)
  | func (um : Bool) : NamedFields (.func um)
  | iface (um : Bool) : NamedFields (.iface um)
  | map (um : Bool) (key elem : GoType) : NamedFields elem → NamedFields (.map um key elem)
  | ptr (um : Bool) (elem : GoType) : NamedFields elem → NamedFields (.ptr um elem)
  | array (um : Bool) (n : Nat) (elem : GoType) :
      NamedFields elem → NamedFields (.array um n elem)
  | slice (um : Bool) (elem : GoType) : NamedFields elem → NamedFields (.slice um elem)
  | struct (um : Bool) (fields : List StructField) :
      (∀ f ∈ fields, f.Name ≠ "") → (∀ f ∈ fields, NamedFields f.Typ) →
      NamedFields (.struct um fields)

/-- A decoded value as Go has them: the keys of every map in it are distinct. -/
inductive DistinctKeys : Value → Prop
  | nil : DistinctKeys .nil
  | bool (b : Bool) : DistinctKeys (.bool b)
  | float64 (f : Float64) : DistinctKeys (.float64 f)
  | string (s : String) : DistinctKeys (.string s)
  | nilMap : DistinctKeys .nilMap
  | slice (xs : List Value) : (∀ x ∈ xs, DistinctKeys x) → DistinctKeys (.slice xs)
  | map (kvs : List (String × Value)) :
      (kvs.map Prod.fst).Nodup → (∀ kv ∈ kvs, DistinctKeys kv.2) → DistinctKeys (.map kvs)

/-- No key of any map in the decoded value has a dot or an opening bracket. -/
inductive PlainKeys : Value → Prop
  | nil : PlainKeys .nil
  | bool (b : Bool) : PlainKeys (.bool b)
  | float64 (f : Float64) : PlainKeys (.float64 f)
  | string (s : String) : PlainKeys (.string s)
  | nilMap : PlainKeys .nilMap
  | slice (xs : List Value) : (∀ x ∈ xs, PlainKeys x) → PlainKeys (.slice xs)
  | map (kvs : List (String × Value)) :
      (∀ kv ∈ kvs, PlainKey kv.1) → (∀ kv ∈ kvs, PlainKeys kv.2) → PlainKeys (.map kvs)

/-- The schema of the colliding paths: `struct { A struct{} }`. -/
def collisionSchema : GoType :=
  .struct false [StructField.mk "A" "" (.struct false [])]

/-- The document `{"A.B": true, "A": {"B": false}}`. -/
def collisionDocument : String :=
  "\x7b\"A.B\": true, \"A\": \x7b\"B\": false\x7d\x7d"

/-- The document `{"A": {"B": false}, "A.B": true}`: the members of
`collisionDocument` in the other order. -/
def collisionDocumentSwapped : String :=
  "\x7b\"A\": \x7b\"B\": false\x7d, \"A.B\": true\x7d"

/-- The document `{"A": {"B": false}, "C": true}`, whose keys are plain. -/
def plainDocument : String :=
  "\x7b\"A\": \x7b\"B\": false\x7d, \"C\": true\x7d"

/-- The same decoded value with the entries of its maps in another order:
`range` over a Go map visits the keys in any order, and the order of the list
under `Value.map` is the order of that visit. The keys of a map are distinct,
the other value has the same keys, and the values at the same key are again
the same up to the order; the elements of a list stay at their index. -/
inductive Reordered : Value → Value → Prop
  | refl (v : Value) : Reordered v v
  | slice (xs ys : List Value) :
      xs.length = ys.length →
      (∀ iv ∈ xs.enum, ∀ iv' ∈ ys.enum, iv.1 = iv'.1 → Reordered iv.2 iv'.2) →
      Reordered (.slice xs) (.slice ys)
  | map (kvs kvs' : List (String × Value)) :
      (kvs.map Prod.fst).Nodup →
      (kvs.map Prod.fst).Perm (kvs'.map Prod.fst) →
      (∀ kv ∈ kvs, ∀ kv' ∈ kvs', kv.1 = kv'.1 → Reordered kv.2 kv'.2) →
      Reordered (.map kvs) (.map kvs')

/-- The same schema with the fields of its structs in another order: the
serialized names of the fields of a struct are distinct, the other struct has
the same serialized names, and the types of the fields with the same
serialized name are again the same up to the order. -/
inductive SchemaReordered : GoType → GoType → Prop
  | refl (typ : GoType) : SchemaReordered typ typ
  | map (um : Bool) (key elem elem' : GoType) :
      SchemaReordered elem elem' → SchemaReordered (.map um key elem) (.map um key elem')
  | ptr (um : Bool) (elem elem' : GoType) :
      SchemaReordered elem elem' → SchemaReordered (.ptr um elem) (.ptr um elem')
  | array (um : Bool) (n : Nat) (elem elem' : GoType) :
      SchemaReordered elem elem' → SchemaReordered (.array um n elem) (.array um n elem')
  | slice (um : Bool) (elem elem' : GoType) :
      SchemaReordered elem elem' → SchemaReordered (.slice um elem) (.slice um elem')
  | struct (um : Bool) (fields fields' : List StructField) :
      (fields.map jsonFieldName).Nodup →
      (fields.map jsonFieldName).Perm (fields'.map jsonFieldName) →
      (∀ f ∈ fields, ∀ f' ∈ fields', jsonFieldName f = jsonFieldName f' →
        SchemaReordered f.Typ f'.Typ) →
      SchemaReordered (.struct um fields) (.struct um fields')

/-- Two lists of assignments with the same paths and, at the same path, the
same values up to the order of their maps. -/
def SameWrites (ws ws' : List (String × Value)) : Prop :=
  (∀ kv ∈ ws, ∃ kv' ∈ ws', kv.1 = kv'.1 ∧ Reordered kv.2 kv'.2) ∧
  (∀ kv' ∈ ws', ∃ kv ∈ ws, kv.1 = kv'.1 ∧ Reordered kv.2 kv'.2)

/-- Two walks that both panic or both return, with the same assignments. -/
def SameOutcome (o o' : Option (List (String × Value))) : Prop :=
  (o = none ↔ o' = none) ∧ ∀ ws ws', o = some ws → o' = some ws' → SameWrites ws ws'

/-- The schema `struct { A int; B string }` with both fields tagged
`json:"x"`: two fields with the serialized name `x`. -/
def duplicateNameSchema : GoType :=
  .struct false
    [StructField.mk "A" "x" (.basic false .Int), StructField.mk "B" "x" (.basic false .String)]

/-- The fields of `duplicateNameSchema` in the other order. -/
def duplicateNameSchemaSwapped : GoType :=
  .struct false
    [StructField.mk "B" "x" (.basic false .String), StructField.mk "A" "x" (.basic false .Int)]

/-- The document `{"x": "s"}`. -/
def duplicateNameDocument : String := "\x7b\"x\": \"s\"\x7d"

/-- The schema `struct { String string; Int int }`. -/
def twoFieldSchema : GoType :=
  .struct false
    [StructField.mk "String" "" (.basic false .String),
     StructField.mk "Int" "" (.basic false .Int)]

/-- The fields of `twoFieldSchema` in the other order. -/
def twoFieldSchemaSwapped : GoType :=
  .struct false
    [StructField.mk "Int" "" (.basic false .Int),
     StructField.mk "String" "" (.basic false .String)]

/-- The document `{"Int": "oops", "Extra": true}`. -/
def twoFieldDocument : String := "\x7b\"Int\": \"oops\", \"Extra\": true\x7d"

/-- Every number literal of the tree is one that `strconv.ParseFloat`
accepts: as it reads the literal, the number is in the float64 range. -/
inductive JSON.InRange : JSON → Prop
  | null : JSON.InRange .null
  | bool (b : Bool) : JSON.InRange (.bool b)
  | number (neg : Bool) (digits : Nat) (e10 : Int) :
      ParseFloat neg digits e10 ≠ none → JSON.InRange (.number neg digits e10)
  | string (s : String) : JSON.InRange (.string s)
  | array (elems : List JSON) :
      (∀ j ∈ elems, JSON.InRange j) → JSON.InRange (.array elems)
  | object (members : List (String × JSON)) :
      (∀ m ∈ members, JSON.InRange m.2) → JSON.InRange (.object members)

/-! ## Definitions for the round trip of report values -/

theorem getUnmappedFields_unmarshaler (typ : GoType) (val : Value) (pfx : String)
    (unknown : GoMap Value) (h : typ.implementsUnmarshaler = true) :
    getUnmappedFields typ val pfx unknown = some unknown := by
  cases typ <;> simp only [GoType.implementsUnmarshaler] at h <;>
    rw [getUnmappedFields] <;> simp [GoType.implementsUnmarshaler, h]

theorem processStruct_eq (um : Bool) (fields : List StructField) (val : Value) (pfx : String)
    (unknown : GoMap Value) :
    processStruct (.struct um fields) val pfx unknown =
      match val.asMap with
      | none => some (unknown.set pfx val)
      | some valMap => valMap.foldlM (structStep fields pfx) unknown := by
  rw [processStruct]
  cases hv : val.asMap with
  | none => rfl
  | some valMap =>
    simp only
    congr 1
    funext unknown kv
    unfold structStep
    split <;> rename_i h
    · rw [h]
    · rw [h]

theorem processMap_eq (keyType valType : GoType) (val : Value) (pfx : String)
    (unknown : GoMap Value) :
    processMap keyType valType val pfx unknown =
      if keyType.convertibleToString = false then some (unknown.set pfx val)
      else
        match val.asMap with
        | none => some (unknown.set pfx val)
        | some valMap => valMap.foldlM (mapStep valType pfx) unknown := by
  rw [processMap]
  cases keyType.convertibleToString
  · simp
  · simp
    rfl

theorem processSlice_eq (typ : GoType) (val : Value) (pfx : String) (unknown : GoMap Value) :
    processSlice typ val pfx unknown =
      match val.asSlice with
      | none => some (unknown.set pfx val)
      | some valSlice =>
        match typ.Elem with
        | none => none
        | some sliceType => valSlice.enum.foldlM (sliceStep sliceType pfx) unknown := by
  rw [processSlice]
  cases val.asSlice with
  | none => rfl
  | some valSlice =>
    simp only
    split <;> rename_i h
    · rw [h]
    · rw [h]; rfl

theorem getUnmappedFields_eq (typ : GoType) (val : Value) (pfx : String)
    (unknown : GoMap Value) :
    getUnmappedFields typ val pfx unknown =
      if typ.implementsUnmarshaler = true then some unknown
      else
        match typ with
        | .chan _ _ => some (unknown.set pfx val)
        | .func _ => some (unknown.set pfx val)
        | .iface _ => some unknown
        | .map _ keyType valType => processMap keyType valType val pfx unknown
        | .ptr _ elem => getUnmappedFields elem val pfx unknown
        | .array um n elem => processSlice (.array um n elem) val pfx unknown
        | .slice um elem => processSlice (.slice um elem) val pfx unknown
        | .struct um fields => processStruct (.struct um fields) val pfx unknown
        | .basic _ kind =>
          match val.convertibleTo kind with
          | none => none
          | some true => some unknown
          | some false => some (unknown.set pfx val) := by
  cases typ <;> rw [getUnmappedFields]

/-! ## Go maps: reading after writing -/

theorem GoMap.get?_set_self {α : Type} (m : GoMap α) (k : String) (v : α) :
    (m.set k v).get? k = some v := by
  induction m with
  | nil => simp [GoMap.set, GoMap.get?]
  | cons hd rest ih =>
    obtain ⟨k0, v0⟩ := hd
    by_cases h : k0 = k
    · simp [GoMap.set, GoMap.get?, h]
    · simp [GoMap.set, GoMap.get?, h, ih]

theorem GoMap.get?_set_of_ne {α : Type} (m : GoMap α) (k q : String) (v : α) (h : q ≠ k) :
    (m.set k v).get? q = m.get? q := by
  have h' : ¬ k = q := fun e => h e.symm
  induction m with
  | nil => simp [GoMap.set, GoMap.get?, h']
  | cons hd rest ih =>
    obtain ⟨k0, v0⟩ := hd
    simp only [GoMap.set]
    split
    · rename_i h0
      subst h0
      simp [GoMap.get?, h']
    · simp only [GoMap.get?, ih]

/-! ## The walker at each kind of node -/

theorem getUnmappedFields_ptr (elem : GoType) (val : Value) (pfx : String)
    (unknown : GoMap Value) :
    getUnmappedFields (.ptr false elem) val pfx unknown =
      getUnmappedFields elem val pfx unknown := by
  rw [getUnmappedFields_eq]
  simp [GoType.implementsUnmarshaler]

theorem getUnmappedFields_map (keyType valType : GoType) (val : Value) (pfx : String)
    (unknown : GoMap Value) :
    getUnmappedFields (.map false keyType valType) val pfx unknown =
      processMap keyType valType val pfx unknown := by
  rw [getUnmappedFields_eq]
  simp [GoType.implementsUnmarshaler]

theorem getUnmappedFields_slice (elem : GoType) (val : Value) (pfx : String)
    (unknown : GoMap Value) :
    getUnmappedFields (.slice false elem) val pfx unknown =
      processSlice (.slice false elem) val pfx unknown := by
  rw [getUnmappedFields_eq]
  simp [GoType.implementsUnmarshaler]

theorem getUnmappedFields_array (n : Nat) (elem : GoType) (val : Value) (pfx : String)
    (unknown : GoMap Value) :
    getUnmappedFields (.array false n elem) val pfx unknown =
      processSlice (.array false n elem) val pfx unknown := by
  rw [getUnmappedFields_eq]
  simp [GoType.implementsUnmarshaler]

theorem getUnmappedFields_struct (fields : List StructField) (val : Value) (pfx : String)
    (unknown : GoMap Value) :
    getUnmappedFields (.struct false fields) val pfx unknown =
      processStruct (.struct false fields) val pfx unknown := by
  rw [getUnmappedFields_eq]
  simp [GoType.implementsUnmarshaler]

theorem getUnmappedFields_basic (kind : BasicKind) (val : Value) (pfx : String)
    (unknown : GoMap Value) :
    getUnmappedFields (.basic false kind) val pfx unknown =
      match val.convertibleTo kind with
      | none => none
      | some true => some unknown
      | some false => some (unknown.set pfx val) := by
  rw [getUnmappedFields_eq]
  simp [GoType.implementsUnmarshaler]

/-- The loop of a handler run over two lists, one after the other. -/
theorem foldlM_append_option {α β : Type} (f : β → α → Option β) (b : β) (l l' : List α) :
    (l ++ l').foldlM f b = (l.foldlM f b).bind (fun u => l'.foldlM f u) := by
  rw [List.foldlM_append]
  rfl

theorem foldlM_cons_option {α β : Type} (f : β → α → Option β) (b : β) (a : α) (l : List α) :
    (a :: l).foldlM f b = (f b a).bind (fun u => l.foldlM f u) := by
  rw [List.foldlM_cons]
  rfl

/-! ## The entry point, once the document is decoded -/

theorem UnmappedJSONFields_of_decoded (typ : GoType) (data : String) (val : Value)
    (unknown : GoMap Value) (hval : Unmarshal data = .ok val)
    (hwalk : getUnmappedFields typ val "" [] = some unknown) :
    UnmappedJSONFields typ data = .report (serialize unknown) := by
  unfold UnmappedJSONFields
  rw [hval]
  simp only [hwalk]

theorem UnmappedJSONFields_of_panic (typ : GoType) (data : String) (val : Value)
    (hval : Unmarshal data = .ok val) (hwalk : getUnmappedFields typ val "" [] = none) :
    UnmappedJSONFields typ data = .panic := by
  unfold UnmappedJSONFields
  rw [hval]
  simp only [hwalk]

theorem UnmappedJSONFields_of_error (typ : GoType) (data : String) (err : UnmarshalError)
    (hval : Unmarshal data = .error err) : UnmappedJSONFields typ data = .error err := by
  unfold UnmappedJSONFields
  rw [hval]

/-! ## Unknown keys of a record (C2) -/

/-- C2. In `processStruct` a document key `k` that is not in the known-field
set is handled by one write: the loop body maps the report `u` to
`u.set (childKey pfx k) v`, nothing beneath `v` is walked. So the run of the
handler on `before ++ (k, v) :: after` is the run on `before`, the write, and
the run on `after`; after the write the child path holds exactly `v` and every
other path holds what it held; the child path is `k` under the empty path and
`pfx + "." + k` otherwise. -/
theorem processStruct_unknown_key (um : Bool) (fields : List StructField) (pfx : String)
    (before after : List (String × Value)) (k : String) (v : Value) (unknown : GoMap Value)
    (hk : (knownFields fields).get? k = none) :
    structStep fields pfx unknown (k, v) = some (unknown.set (childKey pfx k) v) ∧
    processStruct (.struct um fields) (.map (before ++ (k, v) :: after)) pfx unknown =
      (before.foldlM (structStep fields pfx) unknown).bind
        (fun u => after.foldlM (structStep fields pfx) (u.set (childKey pfx k) v)) ∧
    (∀ u : GoMap Value, (u.set (childKey pfx k) v).get? (childKey pfx k) = some v ∧
      ∀ q, q ≠ childKey pfx k → (u.set (childKey pfx k) v).get? q = u.get? q) ∧
    childKey pfx k = (if pfx = "" then k else pfx ++ "." ++ k) := by
  have hstep : ∀ u : GoMap Value,
      structStep fields pfx u (k, v) = some (u.set (childKey pfx k) v) := by
    intro u
    simp [structStep, hk]
  refine ⟨hstep unknown, ?_, ?_, ?_⟩
  · rw [processStruct_eq]
    simp only [Value.asMap]
    rw [foldlM_append_option]
    congr 1
    funext u
    rw [foldlM_cons_option, hstep]
    rfl
  · intro u
    exact ⟨GoMap.get?_set_self _ _ _, fun q hq => GoMap.get?_set_of_ne _ _ _ _ hq⟩
  · unfold childKey
    by_cases h : pfx = ""
    · simp [h]
    · simp [h]

/-- C2 at the key `MissingKey` of the test, under the path `B`. -/
theorem processStruct_unknown_key_witness :
    (knownFields [StructField.mk "String" "" (.basic false .String)]).get? "MissingKey" = none ∧
    processStruct (.struct false [StructField.mk "String" "" (.basic false .String)])
      (.map ([] ++ ("MissingKey", Value.string "value") :: [])) "B" [] =
      some [("B.MissingKey", Value.string "value")] :=
  ⟨rfl, by
    rw [(processStruct_unknown_key false [StructField.mk "String" "" (.basic false .String)] "B"
      [] [] "MissingKey" (Value.string "value") [] rfl).2.1]
    rfl⟩

/-! ## Self-decoding nodes (C5) -/

/-- C5. At a schema node whose pointer type implements `json.Unmarshaler` the
walker returns the report it was given, for every decoded value, path and
report: nothing at or beneath the node is reported. -/
theorem getUnmappedFields_self_decoding (typ : GoType) (val : Value) (pfx : String)
    (unknown : GoMap Value) (h : typ.implementsUnmarshaler = true) :
    getUnmappedFields typ val pfx unknown = some unknown :=
  getUnmappedFields_unmarshaler typ val pfx unknown h

/-- C5 at `time.Time` of the test: a struct that decodes itself, given a string. -/
theorem getUnmappedFields_self_decoding_witness :
    (GoType.struct true []).implementsUnmarshaler = true ∧
    getUnmappedFields (.struct true []) (.string "2020-02-03") "B.d[5].Time" [] = some [] :=
  ⟨rfl, getUnmappedFields_self_decoding _ _ _ _ rfl⟩

/-! ## Maps (C7, C8) -/

/-- C7. A map whose key type does not convert to string is reported whole:
`processMap`, and so the walker at a map node, writes the one entry
`pfx -> val`; the path `pfx` then holds `val` and every other path, the paths
of the keys of `val` among them, holds what it held. -/
theorem processMap_key_not_string (keyType valType : GoType) (val : Value) (pfx : String)
    (unknown : GoMap Value) (hKey : keyType.convertibleToString = false) :
    processMap keyType valType val pfx unknown = some (unknown.set pfx val) ∧
    getUnmappedFields (.map false keyType valType) val pfx unknown =
      some (unknown.set pfx val) ∧
    (unknown.set pfx val).get? pfx = some val ∧
    ∀ q, q ≠ pfx → (unknown.set pfx val).get? q = unknown.get? q := by
  have h : processMap keyType valType val pfx unknown = some (unknown.set pfx val) := by
    rw [processMap_eq]
    simp [hKey]
  refine ⟨h, ?_, GoMap.get?_set_self _ _ _, fun q hq => GoMap.get?_set_of_ne _ _ _ _ hq⟩
  rw [getUnmappedFields_map]
  exact h

/-- C7 at `InvalidMap map[bool]string` of the test. -/
theorem processMap_key_not_string_witness :
    (GoType.basic false .Bool).convertibleToString = false ∧
    getUnmappedFields (.map false (.basic false .Bool) (.basic false .String))
      (.map [("foo", .string "bar"), ("baz", .string "quux")]) "InvalidMap" [] =
      some [("InvalidMap", .map [("foo", .string "bar"), ("baz", .string "quux")])] :=
  ⟨rfl, (processMap_key_not_string (.basic false .Bool) (.basic false .String)
    (.map [("foo", .string "bar"), ("baz", .string "quux")]) "InvalidMap" [] rfl).2.1⟩

theorem mapKey_eq (pfx k : String) : mapKey pfx k = pfx ++ "[\"" ++ k ++ "\"]" := by
  simp [mapKey, String.append_assoc]

theorem indexKey_eq (pfx : String) (i : Nat) :
    indexKey pfx i = pfx ++ "[" ++ toString i ++ "]" := by
  simp [indexKey, String.append_assoc]

/-- The document of the scenario of C8, decoded. -/
theorem Unmarshal_map_scenario :
    Unmarshal "\x7b\"Map\":\x7b\"k\":3.4\x7d\x7d" =
      .ok (.map [("Map", .map [("k", .float64 ⟨false, 7656119366529843, -51⟩)])]) := rfl

/-- C8. With a key type that converts to string, `processMap` on a decoded
map walks the value under every key `k` against the value type at the path
`pfx + "[\"" + k + "\"]"`, key by key, and the walker at a map node that
does not decode itself is `processMap`. For a struct with the one field
`Map map[string]string` and the document `{"Map":{"k":3.4}}`,
`UnmappedJSONFields` returns the report with the one entry
`Map["k"] -> 3.4`. -/
theorem processMap_string_keys (keyType valType : GoType) (valMap : List (String × Value))
    (pfx : String) (unknown : GoMap Value) (hKey : keyType.convertibleToString = true) :
    processMap keyType valType (.map valMap) pfx unknown =
      valMap.foldlM
        (fun u kv => getUnmappedFields valType kv.2 (pfx ++ "[\"" ++ kv.1 ++ "\"]") u)
        unknown ∧
    getUnmappedFields (.map false keyType valType) (.map valMap) pfx unknown =
      processMap keyType valType (.map valMap) pfx unknown ∧
    UnmappedJSONFields
      (.struct false
        [StructField.mk "Map" "" (.map false (.basic false .String) (.basic false .String))])
      "\x7b\"Map\":\x7b\"k\":3.4\x7d\x7d" =
      .report [("Map[\"k\"]", "3.4")] := by
  refine ⟨?_, getUnmappedFields_map _ _ _ _ _, ?_⟩
  · rw [processMap_eq]
    simp only [hKey, Value.asMap, Bool.true_eq_false, if_false]
    congr 1
    funext u kv
    rw [← mapKey_eq]
    rfl
  · have hw : getUnmappedFields
        (.struct false
          [StructField.mk "Map" "" (.map false (.basic false .String) (.basic false .String))])
        (.map [("Map", .map [("k", .float64 ⟨false, 7656119366529843, -51⟩)])]) "" [] =
        some [("Map[\"k\"]", .float64 ⟨false, 7656119366529843, -51⟩)] := by
      simp [getUnmappedFields_eq, processStruct_eq, processMap_eq, structStep, mapStep,
        knownFields, jsonFieldName, splitComma, GoMap.set, GoMap.get?,
        GoType.implementsUnmarshaler, GoType.convertibleToString, Value.asMap,
        Value.convertibleTo, StructField.jsonTag, StructField.Typ, StructField.Name,
        childKey, mapKey]
    exact (UnmappedJSONFields_of_decoded _ _ _ _ Unmarshal_map_scenario hw).trans rfl

/-- C8 at `Map map[string]string` of the test, with two of its keys. -/
theorem processMap_string_keys_witness :
    (GoType.basic false .String).convertibleToString = true ∧
    processMap (.basic false .String) (.basic false .String)
      (.map [("foo", .string "bar"), ("notstring", .bool true)]) "Map" [] =
      some [("Map[\"notstring\"]", .bool true)] :=
  ⟨rfl, by
    rw [(processMap_string_keys (.basic false .String) (.basic false .String)
      [("foo", .string "bar"), ("notstring", .bool true)] "Map" [] rfl).1]
    simp [getUnmappedFields_basic, Value.convertibleTo, GoMap.set]⟩

/-! ## Sequences (C6) -/

/-- C6. `processSlice` on a decoded list walks element `i` (counted from 0)
against the element type at the path `pfx + "[" + i + "]"`, element by
element, and adds nothing else. When the element type is a primitive kind: an
element whose type does not convert to it is written at that path, as it is,
and an element whose type converts leaves the report as it was; so for the
list `before ++ x :: after` with `x` not convertible, the run of the handler
is the run on `before`, the write of `x` at the index `before.length`, and the
run on `after` at the indices that follow. -/
theorem processSlice_elements (typ sliceType : GoType) (valSlice : List Value) (pfx : String)
    (unknown : GoMap Value) (hElem : typ.Elem = some sliceType) :
    processSlice typ (.slice valSlice) pfx unknown =
      valSlice.enum.foldlM
        (fun u iv => getUnmappedFields sliceType iv.2 (pfx ++ "[" ++ toString iv.1 ++ "]") u)
        unknown ∧
    ∀ kind : BasicKind, sliceType = .basic false kind →
      (∀ (i : Nat) (x : Value) (u : GoMap Value),
        (x.convertibleTo kind = some false →
          getUnmappedFields sliceType x (pfx ++ "[" ++ toString i ++ "]") u =
            some (u.set (pfx ++ "[" ++ toString i ++ "]") x)) ∧
        (x.convertibleTo kind = some true →
          getUnmappedFields sliceType x (pfx ++ "[" ++ toString i ++ "]") u = some u)) ∧
      (∀ (before after : List Value) (x : Value), x.convertibleTo kind = some false →
        processSlice typ (.slice (before ++ x :: after)) pfx unknown =
          (before.enum.foldlM (sliceStep sliceType pfx) unknown).bind
            (fun u => (after.enumFrom (before.length + 1)).foldlM (sliceStep sliceType pfx)
              (u.set (pfx ++ "[" ++ toString before.length ++ "]") x))) := by
  constructor
  · rw [processSlice_eq]
    simp only [hElem, Value.asSlice]
    congr 1
    funext u iv
    rw [← indexKey_eq]
    rfl
  · intro kind hkind
    subst hkind
    constructor
    · intro i x u
      constructor
      · intro hx
        rw [getUnmappedFields_basic, hx]
      · intro hx
        rw [getUnmappedFields_basic, hx]
    · intro before after x hx
      rw [processSlice_eq]
      simp only [hElem, Value.asSlice]
      rw [List.enum_append, List.enumFrom_cons, foldlM_append_option]
      congr 1
      funext u
      rw [foldlM_cons_option]
      have hstep : sliceStep (.basic false kind) pfx u (before.length, x) =
          some (u.set (pfx ++ "[" ++ toString before.length ++ "]") x) := by
        unfold sliceStep
        rw [getUnmappedFields_basic, hx, indexKey_eq]
      rw [hstep]
      rfl

/-- C6 at `FloatSlice []float32` of the test: of two numbers and a string the
string, at index 2, is reported. -/
theorem processSlice_elements_witness :
    (GoType.slice false (.basic false .Float32)).Elem = some (.basic false .Float32) ∧
    processSlice (.slice false (.basic false .Float32))
      (.slice [.float64 ⟨false, 6980579422424269, -51⟩,
        .float64 ⟨false, 6305039478318694, -52⟩, .string "string"]) "FloatSlice" [] =
      some [("FloatSlice[2]", .string "string")] :=
  ⟨rfl, by
    rw [(processSlice_elements (.slice false (.basic false .Float32)) (.basic false .Float32)
      [.float64 ⟨false, 6980579422424269, -51⟩,
        .float64 ⟨false, 6305039478318694, -52⟩, .string "string"] "FloatSlice" [] rfl).1]
    simp [List.enum, List.enumFrom, getUnmappedFields_basic, Value.convertibleTo, GoMap.set]
    rfl⟩

/-! ## Pointers (C10) -/

/-- C10. Pointers are transparent: walking `s` under any number of pointer
layers, none of them self-decoding, gives what walking `s` gives, for every
decoded value, path and report. -/
theorem getUnmappedFields_wrapPtr (n : Nat) (s : GoType) (val : Value) (pfx : String)
    (unknown : GoMap Value) :
    getUnmappedFields (wrapPtr n s) val pfx unknown = getUnmappedFields s val pfx unknown := by
  induction n with
  | zero => rfl
  | succ n ih =>
    rw [wrapPtr, getUnmappedFields_ptr]
    exact ih

/-! ## The scenario of the nested record (C9) -/

theorem Unmarshal_scenarioDocument : Unmarshal scenarioDocument = .ok scenarioValue := by
  unfold scenarioDocument scenarioValue
  rfl

theorem getUnmappedFields_scenario :
    getUnmappedFields scenarioSchema scenarioValue "" [] =
      some [("B.MissingKey", .string "v"), ("B.D[0].Int", .string "oops")] := by
  have h0 : toString (0 : Nat) = "0" := rfl
  simp [scenarioSchema, scenarioValue, getUnmappedFields_eq, processStruct_eq, processSlice_eq,
    structStep, sliceStep, knownFields, jsonFieldName, splitComma, GoMap.set, GoMap.get?,
    GoType.implementsUnmarshaler, GoType.Elem, Value.asMap, Value.asSlice,
    Value.convertibleTo, StructField.jsonTag, StructField.Typ, StructField.Name,
    childKey, indexKey, List.enum, List.enumFrom, h0]

theorem perm_two {α : Type} (a b : α) (l : List α) (h : l.Perm [a, b]) :
    l = [a, b] ∨ l = [b, a] := by
  have hm := (List.mem_permutations'.2 h)
  simpa [List.permutations', List.permutations'Aux, or_comm] using hm

theorem perm_three {α : Type} (a b c : α) (l : List α) (h : l.Perm [a, b, c]) :
    l = [a, b, c] ∨ l = [a, c, b] ∨ l = [b, a, c] ∨ l = [b, c, a] ∨ l = [c, a, b] ∨
      l = [c, b, a] := by
  have hm := (List.mem_permutations'.2 h)
  simp [List.permutations', List.permutations'Aux] at hm
  tauto

/-- The scenario with the keys of its three objects visited in any order. -/
theorem scenario_any_order (top b d0 : List (String × Value))
    (hd : d0.Perm [("String", .string "z"), ("Int", .string "oops")])
    (hb : b.Perm [("String", .string "y"), ("MissingKey", .string "v"),
      ("D", .slice [.map d0])])
    (ht : top.Perm [("String", .string "x"), ("B", .map b)]) :
    ∃ u, getUnmappedFields scenarioSchema (.map top) "" [] = some u ∧
      (serialize u).Perm [("B.MissingKey", "\"v\""), ("B.D[0].Int", "\"oops\"")] := by
  have h0 : toString (0 : Nat) = "0" := rfl
  rcases perm_two _ _ _ hd with rfl | rfl <;>
  rcases perm_three _ _ _ _ hb with rfl | rfl | rfl | rfl | rfl | rfl <;>
  rcases perm_two _ _ _ ht with rfl | rfl <;>
  · cases hres : getUnmappedFields scenarioSchema (.map _) "" [] with
    | none =>
      simp [scenarioSchema, getUnmappedFields_eq, processStruct_eq, processSlice_eq,
        structStep, sliceStep, knownFields, addKnownField, jsonFieldName, splitComma, GoMap.set,
        GoMap.get?, GoType.implementsUnmarshaler, GoType.Elem, Value.asMap, Value.asSlice,
        Value.convertibleTo, StructField.jsonTag, StructField.Typ, StructField.Name,
        childKey, indexKey, List.enum, List.enumFrom, h0] at hres
    | some u =>
      simp [scenarioSchema, getUnmappedFields_eq, processStruct_eq, processSlice_eq,
        structStep, sliceStep, knownFields, addKnownField, jsonFieldName, splitComma, GoMap.set,
        GoMap.get?, GoType.implementsUnmarshaler, GoType.Elem, Value.asMap, Value.asSlice,
        Value.convertibleTo, StructField.jsonTag, StructField.Typ, StructField.Name,
        childKey, indexKey, List.enum, List.enumFrom, h0] at hres
      subst hres
      exact ⟨_, rfl, by decide⟩

/-- C9. For the schema `{String:string, B:{String:string,
D:[]{String:string,Int:int}}}` and the document `{"String":"x","B":{"String":"y",
"MissingKey":"v","D":[{"String":"z","Int":"oops"}]}}`, `UnmappedJSONFields`
returns no error and the report of exactly two entries, `B.MissingKey` with
the text `"v"` and `B.D[0].Int` with the text `"oops"`. The first part has the
keys of each object visited in the order of the document; the second part is
the walk and the last loop with the keys of the three objects visited in any
order: the report has the same two entries. -/
theorem UnmappedJSONFields_scenario :
    UnmappedJSONFields scenarioSchema scenarioDocument =
      .report [("B.MissingKey", "\"v\""), ("B.D[0].Int", "\"oops\"")] ∧
    ∀ top b d0 : List (String × Value),
      d0.Perm [("String", .string "z"), ("Int", .string "oops")] →
      b.Perm [("String", .string "y"), ("MissingKey", .string "v"), ("D", .slice [.map d0])] →
      top.Perm [("String", .string "x"), ("B", .map b)] →
      ∃ u, getUnmappedFields scenarioSchema (.map top) "" [] = some u ∧
        (serialize u).Perm [("B.MissingKey", "\"v\""), ("B.D[0].Int", "\"oops\"")] := by
  refine ⟨?_, fun top b d0 hd hb ht => scenario_any_order top b d0 hd hb ht⟩
  exact (UnmappedJSONFields_of_decoded _ _ _ _ Unmarshal_scenarioDocument
    getUnmappedFields_scenario).trans rfl

/-- C9 with every object of the document visited last key first. -/
theorem UnmappedJSONFields_scenario_witness :
    ∃ u, getUnmappedFields scenarioSchema
        (.map [("B", .map [("D", .slice [.map [("Int", .string "oops"), ("String", .string "z")]]),
          ("MissingKey", .string "v"), ("String", .string "y")]), ("String", .string "x")])
        "" [] = some u ∧
      (serialize u).Perm [("B.MissingKey", "\"v\""), ("B.D[0].Int", "\"oops\"")] :=
  UnmappedJSONFields_scenario.2 _ _ _ (List.Perm.swap _ _ _)
    (List.Perm.trans (List.Perm.swap _ _ _)
      (List.Perm.trans (List.Perm.cons _ (List.Perm.swap _ _ _)) (List.Perm.swap _ _ _)))
    (List.Perm.swap _ _ _)

/-! ## Valid documents (C1) -/

/-- A loop whose every step leaves the report as it is leaves it as it is. -/
theorem foldlM_unchanged {α β : Type} (f : β → α → Option β) (l : List α)
    (h : ∀ a ∈ l, ∀ u, f u a = some u) (b : β) : l.foldlM f b = some b := by
  induction l with
  | nil => rfl
  | cons a l ih =>
    rw [foldlM_cons_option, h a (List.mem_cons_self _ _) b]
    exact ih (fun x hx u => h x (List.mem_cons_of_mem _ hx) u)

theorem mem_enum_snd {α : Type} (l : List α) (iv : Nat × α) (h : iv ∈ l.enum) : iv.2 ∈ l := by
  obtain ⟨i, x⟩ := iv
  obtain ⟨hi, hx⟩ := List.mem_enum h
  show x ∈ l
  rw [hx]
  exact List.getElem_mem _

/-- On a valid value the walker writes nothing, whatever the path and report. -/
theorem getUnmappedFields_of_valid (typ : GoType) (val : Value) (h : Valid typ val) :
    ∀ (pfx : String) (unknown : GoMap Value),
      getUnmappedFields typ val pfx unknown = some unknown := by
  induction h with
  | selfDecoding typ val hum =>
    intro pfx unknown
    exact getUnmappedFields_unmarshaler typ val pfx unknown hum
  | any um val =>
    intro pfx unknown
    rw [getUnmappedFields_eq]
    cases um <;> simp [GoType.implementsUnmarshaler]
  | wrapper um elem val _ ih =>
    intro pfx unknown
    rw [getUnmappedFields_eq]
    cases um <;> simp [GoType.implementsUnmarshaler, ih]
  | primitive um kind val hconv =>
    intro pfx unknown
    rw [getUnmappedFields_eq]
    cases um <;> simp [GoType.implementsUnmarshaler, hconv]
  | slice um elem xs _ ih =>
    intro pfx unknown
    rw [getUnmappedFields_eq]
    cases um
    · simp only [GoType.implementsUnmarshaler, Bool.false_eq_true, if_false]
      rw [processSlice_eq]
      simp only [Value.asSlice, GoType.Elem]
      exact foldlM_unchanged _ _ (fun iv hiv u => ih iv.2 (mem_enum_snd xs iv hiv) _ u) unknown
    · simp [GoType.implementsUnmarshaler]
  | array um n elem xs _ ih =>
    intro pfx unknown
    rw [getUnmappedFields_eq]
    cases um
    · simp only [GoType.implementsUnmarshaler, Bool.false_eq_true, if_false]
      rw [processSlice_eq]
      simp only [Value.asSlice, GoType.Elem]
      exact foldlM_unchanged _ _ (fun iv hiv u => ih iv.2 (mem_enum_snd xs iv hiv) _ u) unknown
    · simp [GoType.implementsUnmarshaler]
  | map um keyType valType val kvs hkey hmap _ ih =>
    intro pfx unknown
    rw [getUnmappedFields_eq]
    cases um
    · simp only [GoType.implementsUnmarshaler, Bool.false_eq_true, if_false]
      rw [processMap_eq]
      simp only [hkey, hmap, Bool.true_eq_false, if_false]
      exact foldlM_unchanged _ _ (fun kv hkv u => ih kv hkv _ u) unknown
    · simp [GoType.implementsUnmarshaler]
  | record um fields val kvs hmap hknown _ ih =>
    intro pfx unknown
    rw [getUnmappedFields_eq]
    cases um
    · simp only [GoType.implementsUnmarshaler, Bool.false_eq_true, if_false]
      rw [processStruct_eq]
      simp only [hmap]
      refine foldlM_unchanged _ _ (fun kv hkv u => ?_) unknown
      unfold structStep
      cases hget : (knownFields fields).get? kv.1 with
      | none => exact absurd hget (hknown kv hkv)
      | some f => exact ih kv hkv f hget _ u
    · simp [GoType.implementsUnmarshaler]

/-- C1, as amended. For every schema and every document that `json.Unmarshal`
decodes into the map (its top-level value is an object or `null`) and that is
valid for the schema, `UnmappedJSONFields` returns the empty report. -/
theorem UnmappedJSONFields_valid (typ : GoType) (data : String) (val : Value)
    (hdoc : Unmarshal data = .ok val) (hvalid : Valid typ val) :
    UnmappedJSONFields typ data = .report [] :=
  UnmappedJSONFields_of_decoded typ data val [] hdoc
    (getUnmappedFields_of_valid typ val hvalid "" [])

/-- The document `{"String":"x"}` is valid for a struct with a field `String string`. -/
theorem valid_one_string_field :
    Valid (.struct false [StructField.mk "String" "" (.basic false .String)])
      (.map [("String", .string "x")]) := by
  refine Valid.record false _ _ [("String", .string "x")] rfl ?_ ?_
  · intro kv hkv
    rw [List.mem_singleton] at hkv
    subst hkv
    intro h
    have h' : (knownFields [StructField.mk "String" "" (.basic false .String)]).get? "String" =
        some (StructField.mk "String" "" (.basic false .String)) := rfl
    rw [h'] at h
    cases h
  · intro kv hkv f hf
    rw [List.mem_singleton] at hkv
    subst hkv
    have h' : (knownFields [StructField.mk "String" "" (.basic false .String)]).get? "String" =
        some (StructField.mk "String" "" (.basic false .String)) := rfl
    rw [h'] at hf
    cases hf
    exact Valid.primitive false .String (.string "x") rfl

/-- C1 at the document `{"String":"x"}` and a struct with a field `String string`. -/
theorem UnmappedJSONFields_valid_witness :
    Unmarshal "\x7b\"String\":\"x\"\x7d" = .ok (.map [("String", .string "x")]) ∧
    Valid (.struct false [StructField.mk "String" "" (.basic false .String)])
      (.map [("String", .string "x")]) ∧
    UnmappedJSONFields (.struct false [StructField.mk "String" "" (.basic false .String)])
      "\x7b\"String\":\"x\"\x7d" = .report [] :=
  ⟨rfl, valid_one_string_field,
    UnmappedJSONFields_valid _ _ _ (by rfl) valid_one_string_field⟩

/-- C1 as stated fails: the document `[1]` is a list of one number, valid for
the schema `[]float64`, and `UnmappedJSONFields` returns an error for it, not
an empty report: `json.Unmarshal` cannot store an array in the map. -/
theorem UnmappedJSONFields_valid_array_document :
    (parseJSON "[1]").bind JSON.decode =
      some (.slice [.float64 ⟨false, 4503599627370496, -52⟩]) ∧
    Valid (.slice false (.basic false .Float64))
      (.slice [.float64 ⟨false, 4503599627370496, -52⟩]) ∧
    UnmappedJSONFields (.slice false (.basic false .Float64)) "[1]" =
      .error .UnmarshalTypeError := by
  refine ⟨rfl, ?_, ?_⟩
  · refine Valid.slice false _ _ ?_
    intro x hx
    rw [List.mem_singleton] at hx
    subst hx
    exact Valid.primitive false .Float64 _ rfl
  · exact UnmappedJSONFields_of_error _ _ _ rfl

/-! ## Fields excluded from serialization (C3) -/

theorem knownFields_eq_foldl (fields : List StructField) :
    knownFields fields = fields.foldl addKnownField [] := rfl

theorem GoMap.forall_mem_set {α : Type} (P : String × α → Prop) (m : GoMap α) (k : String)
    (v : α) (hv : P (k, v)) (hm : ∀ a ∈ m, P a) : ∀ a ∈ m.set k v, P a := by
  induction m with
  | nil =>
    intro a ha
    simp only [GoMap.set, List.mem_singleton] at ha
    subst ha
    exact hv
  | cons hd rest ih =>
    obtain ⟨k0, v0⟩ := hd
    intro a ha
    simp only [GoMap.set] at ha
    split at ha
    · rcases List.mem_cons.1 ha with rfl | ha
      · exact hv
      · exact hm a (List.mem_cons_of_mem _ ha)
    · rcases List.mem_cons.1 ha with rfl | ha
      · exact hm _ (List.mem_cons_self _ _)
      · exact ih (fun b hb => hm b (List.mem_cons_of_mem _ hb)) a ha

theorem foldl_addKnownField_entries (fs : List StructField) (init : GoMap StructField)
    (hinit : ∀ a ∈ init, jsonFieldName a.2 = a.1 ∧ a.1 ≠ "-") :
    ∀ a ∈ fs.foldl addKnownField init, jsonFieldName a.2 = a.1 ∧ a.1 ≠ "-" := by
  induction fs generalizing init with
  | nil => simpa using hinit
  | cons f fs ih =>
    simp only [List.foldl_cons]
    apply ih
    unfold addKnownField
    split
    · exact hinit
    · rename_i hne
      exact GoMap.forall_mem_set (fun a => jsonFieldName a.2 = a.1 ∧ a.1 ≠ "-") _ _ _
        ⟨rfl, hne⟩ hinit

/-- Every entry of `knownFields` is a field under its serialized name, and no
entry is under the name `-`. -/
theorem knownFields_get?_some (fields : List StructField) (k : String) (g : StructField)
    (h : (knownFields fields).get? k = some g) : jsonFieldName g = k ∧ k ≠ "-" := by
  have := foldl_addKnownField_entries fields [] (by simp) (k, g)
    (GoMap.mem_of_get? _ _ _ (by rw [← knownFields_eq_foldl]; exact h))
  exact this

theorem foldl_addKnownField_get? (fs : List StructField) (init : GoMap StructField)
    (k : String) (h : ∀ g ∈ fs, jsonFieldName g = k → jsonFieldName g = "-") :
    (fs.foldl addKnownField init).get? k = init.get? k := by
  induction fs generalizing init with
  | nil => rfl
  | cons f fs ih =>
    simp only [List.foldl_cons]
    rw [ih _ (fun g hg => h g (List.mem_cons_of_mem _ hg))]
    unfold addKnownField
    split
    · rfl
    · rename_i hne
      apply GoMap.get?_set_of_ne
      intro hk
      exact hne (h f (List.mem_cons_self _ _) hk.symm)

/-- A key that is the serialized name of excluded fields only is not known. -/
theorem knownFields_get?_none (fields : List StructField) (k : String)
    (h : ∀ g ∈ fields, jsonFieldName g = k → jsonFieldName g = "-") :
    (knownFields fields).get? k = none := by
  rw [knownFields_eq_foldl, foldl_addKnownField_get? fields [] k h]
  rfl

/-- An excluded field adds nothing to the known fields. -/
theorem knownFields_excluded (before after : List StructField) (f : StructField)
    (hf : jsonFieldName f = "-") :
    knownFields (before ++ f :: after) = knownFields (before ++ after) := by
  simp only [knownFields_eq_foldl, List.foldl_append, List.foldl_cons]
  congr 1
  simp [addKnownField, hf]

theorem processStruct_congr_knownFields (um um' : Bool) (fields fields' : List StructField)
    (h : knownFields fields = knownFields fields') (val : Value) (pfx : String)
    (unknown : GoMap Value) :
    processStruct (.struct um fields) val pfx unknown =
      processStruct (.struct um' fields') val pfx unknown := by
  rw [processStruct_eq, processStruct_eq]
  have hs : structStep fields pfx = structStep fields' pfx := by
    funext u kv
    simp only [structStep, h]
  rw [hs]

/-- C3, as amended. A field excluded from serialization (serialized name `-`)
is left out of the known-field set: the walker and `UnmappedJSONFields` do on
the record what they do on the record without that field. A document key
equal to the excluded field's Go name is therefore not known unless another
field has that serialized name: the record handler writes its value at its
child path, as for any key that no field declares. -/
theorem excluded_field_as_absent (um : Bool) (before after : List StructField)
    (f : StructField) (hf : jsonFieldName f = "-") :
    (∀ (val : Value) (pfx : String) (unknown : GoMap Value),
      getUnmappedFields (.struct um (before ++ f :: after)) val pfx unknown =
        getUnmappedFields (.struct um (before ++ after)) val pfx unknown) ∧
    (∀ data : String,
      UnmappedJSONFields (.struct um (before ++ f :: after)) data =
        UnmappedJSONFields (.struct um (before ++ after)) data) ∧
    (∀ (v : Value) (pfx : String) (unknown : GoMap Value),
      (∀ g ∈ before ++ after, jsonFieldName g ≠ f.Name) →
      structStep (before ++ f :: after) pfx unknown (f.Name, v) =
        some (unknown.set (childKey pfx f.Name) v)) := by
  have hwalk : ∀ (val : Value) (pfx : String) (unknown : GoMap Value),
      getUnmappedFields (.struct um (before ++ f :: after)) val pfx unknown =
        getUnmappedFields (.struct um (before ++ after)) val pfx unknown := by
    intro val pfx unknown
    rw [getUnmappedFields_eq, getUnmappedFields_eq]
    simp only [GoType.implementsUnmarshaler]
    rw [processStruct_congr_knownFields um um _ _ (knownFields_excluded before after f hf)]
  refine ⟨hwalk, ?_, ?_⟩
  · intro data
    unfold UnmappedJSONFields
    cases Unmarshal data with
    | error err => rfl
    | ok val => simp only [hwalk]
  · intro v pfx unknown hother
    have hnone : (knownFields (before ++ f :: after)).get? f.Name = none := by
      rw [knownFields_excluded before after f hf]
      exact knownFields_get?_none _ _ (fun g hg hk => absurd hk (hother g hg))
    simp only [structStep, hnone]

/-- C3 at the test's struct field `UnexportedString string` tagged `json:"-"`,
next to a field `String string`. -/
theorem excluded_field_as_absent_witness :
    jsonFieldName (StructField.mk "UnexportedString" "-" (.basic false .String)) = "-" ∧
    UnmappedJSONFields
      (.struct false ([StructField.mk "String" "" (.basic false .String)] ++
        StructField.mk "UnexportedString" "-" (.basic false .String) :: []))
      "\x7b\"UnexportedString\":\"should be unknown\"\x7d" =
    UnmappedJSONFields
      (.struct false ([StructField.mk "String" "" (.basic false .String)] ++ []))
      "\x7b\"UnexportedString\":\"should be unknown\"\x7d" :=
  ⟨rfl, (excluded_field_as_absent false [StructField.mk "String" "" (.basic false .String)] []
    (StructField.mk "UnexportedString" "-" (.basic false .String)) rfl).2.1 _⟩

/-- C3 as stated fails: for the struct with the one field `UnexportedString
string` tagged `json:"-"` and the document
`{"UnexportedString":"should be unknown"}`, the report names the field. -/
theorem excluded_field_is_reported :
    jsonFieldName (StructField.mk "UnexportedString" "-" (.basic false .String)) = "-" ∧
    UnmappedJSONFields
      (.struct false [StructField.mk "UnexportedString" "-" (.basic false .String)])
      "\x7b\"UnexportedString\":\"should be unknown\"\x7d" =
      .report [("UnexportedString", "\"should be unknown\"")] := by
  refine ⟨rfl, ?_⟩
  have hdoc : Unmarshal "\x7b\"UnexportedString\":\"should be unknown\"\x7d" =
      .ok (.map [("UnexportedString", .string "should be unknown")]) := rfl
  have hwalk : getUnmappedFields
      (.struct false [StructField.mk "UnexportedString" "-" (.basic false .String)])
      (.map [("UnexportedString", .string "should be unknown")]) "" [] =
      some [("UnexportedString", .string "should be unknown")] := by
    simp [getUnmappedFields_eq, processStruct_eq, structStep, knownFields, jsonFieldName,
      splitComma, GoMap.set, GoMap.get?, GoType.implementsUnmarshaler, Value.asMap,
      StructField.jsonTag, StructField.Name, childKey]
  exact (UnmappedJSONFields_of_decoded _ _ _ _ hdoc hwalk).trans rfl

/-! ## What a walk can change -/

/-- A loop has an effect that is reflexive and transitive as soon as each of
its steps has it. -/
theorem foldlM_effect {α β : Type} (P : β → β → Prop) (f : β → α → Option β)
    (hrefl : ∀ r, P r r) (htrans : ∀ r1 r2 r3, P r1 r2 → P r2 r3 → P r1 r3) (l : List α)
    (hstep : ∀ a ∈ l, ∀ u u', f u a = some u' → P u u') :
    ∀ r r', l.foldlM f r = some r' → P r r' := by
  induction l with
  | nil =>
    intro r r' h
    have : r = r' := by simpa using h
    subst this
    exact hrefl r
  | cons a l ih =>
    intro r r' h
    rw [foldlM_cons_option] at h
    cases hfa : f r a with
    | none => rw [hfa] at h; cases h
    | some u =>
      rw [hfa] at h
      exact htrans r u r' (hstep a (List.mem_cons_self _ _) r u hfa)
        (ih (fun x hx => hstep x (List.mem_cons_of_mem _ hx)) u r' h)

/-- Induction on the walk: a relation between the path, the report before
and the report after that holds of no change and of a write at the path, is
transitive, and holds at a path when it holds at a path right under it, holds
of every walk that returns. -/
theorem getUnmappedFields_effect (P : String → GoMap Value → GoMap Value → Prop)
    (hrefl : ∀ q r, P q r r)
    (hset : ∀ q r v, P q r (r.set q v))
    (htrans : ∀ q r1 r2 r3, P q r1 r2 → P q r2 r3 → P q r1 r3)
    (hchild : ∀ q k r r', P (childKey q k) r r' → P q r r')
    (hmap : ∀ q k r r', P (mapKey q k) r r' → P q r r')
    (hindex : ∀ q i r r', P (indexKey q i) r r' → P q r r') :
    ∀ (typ : GoType) (val : Value) (q : String) (r r' : GoMap Value),
      getUnmappedFields typ val q r = some r' → P q r r' := by
  suffices H : ∀ (n : Nat) (typ : GoType), sizeOf typ = n →
      ∀ (val : Value) (q : String) (r r' : GoMap Value),
        getUnmappedFields typ val q r = some r' → P q r r' from fun typ => H _ typ rfl
  intro n
  induction n using Nat.strong_induction_on with
  | _ n ih =>
    intro typ hn val q r r' h
    rw [getUnmappedFields_eq] at h
    by_cases hum : typ.implementsUnmarshaler = true
    · simp only [hum, if_true, Option.some.injEq] at h
      subst h
      exact hrefl q r
    · have hum' : typ.implementsUnmarshaler = false := by simpa using hum
      rw [hum'] at h
      simp only [Bool.false_eq_true, if_false] at h
      cases typ with
      | chan um e =>
        simp only [Option.some.injEq] at h
        subst h
        exact hset q r val
      | func um =>
        simp only [Option.some.injEq] at h
        subst h
        exact hset q r val
      | iface um =>
        simp only [Option.some.injEq] at h
        subst h
        exact hrefl q r
      | basic um kind =>
        simp only at h
        cases hc : val.convertibleTo kind with
        | none => rw [hc] at h; cases h
        | some b =>
          rw [hc] at h
          cases b
          · simp only [Option.some.injEq] at h
            subst h
            exact hset q r val
          · simp only [Option.some.injEq] at h
            subst h
            exact hrefl q r
      | ptr um e =>
        simp only at h
        exact ih (sizeOf e) (by subst hn; simp) e rfl val q r r' h
      | map um keyType valType =>
        simp only at h
        rw [processMap_eq] at h
        cases hk : keyType.convertibleToString with
        | false =>
          rw [hk] at h
          simp only [if_true, Option.some.injEq] at h
          subst h
          exact hset q r val
        | true =>
          rw [hk] at h
          simp only [Bool.true_eq_false, if_false] at h
          cases hv : val.asMap with
          | none =>
            rw [hv] at h
            simp only [Option.some.injEq] at h
            subst h
            exact hset q r val
          | some valMap =>
            rw [hv] at h
            refine foldlM_effect (P q) _ (hrefl q) (htrans q) valMap ?_ r r' h
            intro kv _ u u' hstep
            exact hmap q kv.1 u u'
              (ih (sizeOf valType) (by subst hn; simp) valType rfl _ _ u u' hstep)
      | array um len e =>
        simp only at h
        rw [processSlice_eq] at h
        cases hv : val.asSlice with
        | none =>
          rw [hv] at h
          simp only [Option.some.injEq] at h
          subst h
          exact hset q r val
        | some valSlice =>
          rw [hv] at h
          simp only [GoType.Elem] at h
          refine foldlM_effect (P q) _ (hrefl q) (htrans q) valSlice.enum ?_ r r' h
          intro iv _ u u' hstep
          exact hindex q iv.1 u u'
            (ih (sizeOf e) (by subst hn; simp) e rfl _ _ u u' hstep)
      | slice um e =>
        simp only at h
        rw [processSlice_eq] at h
        cases hv : val.asSlice with
        | none =>
          rw [hv] at h
          simp only [Option.some.injEq] at h
          subst h
          exact hset q r val
        | some valSlice =>
          rw [hv] at h
          simp only [GoType.Elem] at h
          refine foldlM_effect (P q) _ (hrefl q) (htrans q) valSlice.enum ?_ r r' h
          intro iv _ u u' hstep
          exact hindex q iv.1 u u'
            (ih (sizeOf e) (by subst hn; simp) e rfl _ _ u u' hstep)
      | struct um fields =>
        simp only at h
        rw [processStruct_eq] at h
        cases hv : val.asMap with
        | none =>
          rw [hv] at h
          simp only [Option.some.injEq] at h
          subst h
          exact hset q r val
        | some valMap =>
          rw [hv] at h
          refine foldlM_effect (P q) _ (hrefl q) (htrans q) valMap ?_ r r' h
          intro kv _ u u' hstep
          unfold structStep at hstep
          cases hg : (knownFields fields).get? kv.1 with
          | none =>
            rw [hg] at hstep
            simp only [Option.some.injEq] at hstep
            subst hstep
            exact hchild q kv.1 u _ (hset _ u kv.2)
          | some g =>
            rw [hg] at hstep
            exact hchild q kv.1 u u'
              (ih (sizeOf g.Typ)
                (by subst hn; exact sizeOf_field_lt um fields g (knownFields_mem fields _ _ hg))
                g.Typ rfl _ _ u u' hstep)

/-! ## Paths under a path -/

theorem append_eq_empty_left (a b : String) (h : a ++ b = "") : a = "" := by
  have hd : (a ++ b).data = [] := by rw [h]
  rw [String.data_append] at hd
  have : a.data = [] := (List.append_eq_nil.1 hd).1
  exact String.ext this

theorem under_of_under_extension (q t p : String) (c : String) (hc : c = "." ∨ c = "[")
    (h : Under (q ++ c ++ t) p) : Under q p := by
  by_cases hq : q = ""
  · exact Or.inl hq
  · rcases h with h | h | ⟨s, h | h⟩
    · exact absurd (append_eq_empty_left _ _ (append_eq_empty_left _ _ h)) hq
    · rcases hc with rfl | rfl
      · exact Or.inr (Or.inr ⟨t, Or.inl h⟩)
      · exact Or.inr (Or.inr ⟨t, Or.inr h⟩)
    · rcases hc with rfl | rfl
      · exact Or.inr (Or.inr ⟨t ++ "." ++ s, Or.inl (by rw [h]; simp [String.append_assoc])⟩)
      · exact Or.inr (Or.inr ⟨t ++ "." ++ s, Or.inr (by rw [h]; simp [String.append_assoc])⟩)
    · rcases hc with rfl | rfl
      · exact Or.inr (Or.inr ⟨t ++ "[" ++ s, Or.inl (by rw [h]; simp [String.append_assoc])⟩)
      · exact Or.inr (Or.inr ⟨t ++ "[" ++ s, Or.inr (by rw [h]; simp [String.append_assoc])⟩)

theorem under_of_under_childKey (q k p : String) (h : Under (childKey q k) p) : Under q p := by
  by_cases hq : q = ""
  · exact Or.inl hq
  · have hck : childKey q k = q ++ "." ++ k := by simp [childKey, hq]
    rw [hck] at h
    exact under_of_under_extension q k p "." (Or.inl rfl) h

theorem under_of_under_mapKey (q k p : String) (h : Under (mapKey q k) p) : Under q p := by
  have hmk : mapKey q k = q ++ "[" ++ ("\"" ++ k ++ "\"]") := by
    have : ("[\"" : String) = "[" ++ "\"" := by decide
    unfold mapKey
    rw [this]
    simp only [String.append_assoc]
  rw [hmk] at h
  exact under_of_under_extension q _ p "[" (Or.inr rfl) h

theorem under_of_under_indexKey (q : String) (i : Nat) (p : String)
    (h : Under (indexKey q i) p) : Under q p := by
  have hik : indexKey q i = q ++ "[" ++ (toString i ++ "]") := by
    simp [indexKey, String.append_assoc]
  rw [hik] at h
  exact under_of_under_extension q _ p "[" (Or.inr rfl) h

/-- A walk at the path `q` leaves every path that is not under `q` as it was. -/
theorem getUnmappedFields_frame (typ : GoType) (val : Value) (q : String)
    (r r' : GoMap Value) (h : getUnmappedFields typ val q r = some r') :
    ∀ p, ¬ Under q p → r'.get? p = r.get? p := by
  refine getUnmappedFields_effect
    (fun q r r' => ∀ p, ¬ Under q p → r'.get? p = r.get? p) ?_ ?_ ?_ ?_ ?_ ?_ typ val q r r' h
  · intro q r p _
    rfl
  · intro q r v p hp
    exact GoMap.get?_set_of_ne _ _ _ _ (fun e => hp (Or.inr (Or.inl e)))
  · intro q r1 r2 r3 h12 h23 p hp
    rw [h23 p hp, h12 p hp]
  · intro q k r r' hc p hp
    exact hc p (fun hu => hp (under_of_under_childKey q k p hu))
  · intro q k r r' hc p hp
    exact hc p (fun hu => hp (under_of_under_mapKey q k p hu))
  · intro q i r r' hc p hp
    exact hc p (fun hu => hp (under_of_under_indexKey q i p hu))

/-! ## The keys of the report stay distinct -/

theorem GoMap.keys_set {α : Type} (m : GoMap α) (k : String) (v : α) :
    (m.set k v).keys = if k ∈ m.keys then m.keys else m.keys ++ [k] := by
  induction m with
  | nil => simp [GoMap.set, GoMap.keys]
  | cons hd rest ih =>
    obtain ⟨k0, v0⟩ := hd
    simp only [GoMap.keys] at ih
    by_cases h0 : k0 = k
    · subst h0
      simp [GoMap.set, GoMap.keys]
    · have h0' : ¬ k = k0 := fun e => h0 e.symm
      simp only [GoMap.set, h0, if_false, GoMap.keys, List.map_cons, ih, List.mem_cons, h0',
        false_or]
      split <;> simp

theorem GoMap.nodup_keys_set {α : Type} (m : GoMap α) (k : String) (v : α)
    (h : m.keys.Nodup) : (m.set k v).keys.Nodup := by
  rw [GoMap.keys_set]
  split
  · exact h
  · rename_i hk
    exact List.Nodup.append h (List.nodup_singleton k)
      (by simpa [List.disjoint_singleton] using hk)

/-- A walk that starts with distinct keys in the report ends with distinct keys. -/
theorem getUnmappedFields_nodup_keys (typ : GoType) (val : Value) (q : String)
    (r r' : GoMap Value) (h : getUnmappedFields typ val q r = some r') :
    r.keys.Nodup → r'.keys.Nodup := by
  refine getUnmappedFields_effect (fun _ r r' => r.keys.Nodup → r'.keys.Nodup)
    ?_ ?_ ?_ ?_ ?_ ?_ typ val q r r' h
  · intro _ r hr
    exact hr
  · intro q r v hr
    exact GoMap.nodup_keys_set r q v hr
  · intro _ r1 r2 r3 h12 h23 hr
    exact h23 (h12 hr)
  · intro _ _ r r' hc
    exact hc
  · intro _ _ r r' hc
    exact hc
  · intro _ _ r r' hc
    exact hc

theorem GoMap.get?_eq_none_of_not_mem_keys {α : Type} (m : GoMap α) (k : String)
    (h : k ∉ m.keys) : m.get? k = none := by
  induction m with
  | nil => rfl
  | cons hd rest ih =>
    obtain ⟨k0, v0⟩ := hd
    simp only [GoMap.keys, List.map_cons, List.mem_cons, not_or] at h
    have h0 : ¬ k0 = k := fun e => h.1 e.symm
    simp only [GoMap.get?, h0, if_false]
    exact ih h.2

/-- The last loop of `UnmappedJSONFields` on a report with distinct keys: from
`out`, a path of the report gets the text of its value and every other path
keeps what `out` has. -/
theorem foldl_serialize_get? (unknown : GoMap Value) (hnodup : unknown.keys.Nodup)
    (out : GoMap String) (k : String) :
    (unknown.foldl (fun out kv => out.set kv.1 (MarshalIndent kv.2)) out).get? k =
      match unknown.get? k with
      | some v => some (MarshalIndent v)
      | none => out.get? k := by
  induction unknown generalizing out with
  | nil => rfl
  | cons hd rest ih =>
    obtain ⟨k0, v0⟩ := hd
    simp only [GoMap.keys, List.map_cons, List.nodup_cons] at hnodup
    simp only [List.foldl_cons]
    rw [ih hnodup.2]
    by_cases h0 : k0 = k
    · subst h0
      rw [GoMap.get?_eq_none_of_not_mem_keys rest k0 hnodup.1]
      simp [GoMap.get?, GoMap.get?_set_self]
    · have h0' : k ≠ k0 := fun e => h0 e.symm
      simp only [GoMap.get?, h0, if_false]
      cases GoMap.get? rest k with
      | none => exact GoMap.get?_set_of_ne _ _ _ _ h0'
      | some v => rfl

theorem serialize_get? (unknown : GoMap Value) (hnodup : unknown.keys.Nodup) (k : String) :
    (serialize unknown).get? k = (unknown.get? k).map MarshalIndent := by
  unfold serialize
  rw [foldl_serialize_get? unknown hnodup [] k]
  cases unknown.get? k <;> rfl

/-! ## A decoded map has distinct keys -/

theorem decodeMembers_nodup_keys (members : List (String × JSON)) :
    ∀ (m m' : GoMap Value), m.keys.Nodup → decodeMembers members m = some m' →
      m'.keys.Nodup := by
  induction members with
  | nil =>
    intro m m' hm h
    rw [decodeMembers] at h
    cases h
    exact hm
  | cons hd rest ih =>
    obtain ⟨k, j⟩ := hd
    intro m m' hm h
    rw [decodeMembers] at h
    cases hj : j.decode with
    | none => rw [hj] at h; cases h
    | some v =>
      rw [hj] at h
      exact ih (m.set k v) m' (GoMap.nodup_keys_set m k v hm) h

theorem Unmarshal_map_nodup_keys (data : String) (valMap : List (String × Value))
    (h : Unmarshal data = .ok (.map valMap)) : (GoMap.keys valMap).Nodup := by
  unfold Unmarshal at h
  split at h
  · cases h
  · cases h
  · rename_i members _
    cases hm : decodeMembers members [] with
    | none => rw [hm] at h; cases h
    | some m =>
      rw [hm] at h
      cases h
      exact decodeMembers_nodup_keys members [] _ List.nodup_nil hm
  · cases h

/-! ## An excluded field that is in the document (C4) -/

theorem childKey_empty (k : String) : childKey "" k = k := by
  simp [childKey]

theorem jsonFieldName_of_tag_dash (f : StructField) (h : f.jsonTag = "-") :
    jsonFieldName f = "-" := by
  unfold jsonFieldName
  rw [h]
  rfl

theorem jsonFieldName_ne_empty (g : StructField) (h : g.Name ≠ "") : jsonFieldName g ≠ "" := by
  unfold jsonFieldName
  split
  · exact h
  · split
    · rename_i p _ _ hp
      intro he
      have hd : (String.mk p).data = [] := by rw [he]
      cases p with
      | nil => simp at hp
      | cons c cs => simp at hd
    · exact h

theorem not_under_of_ident (q k : String) (hq : q ≠ "") (hne : k ≠ q)
    (hident : ∀ c ∈ k.data, c ≠ '.' ∧ c ≠ '[') : ¬ Under q k := by
  rintro (h | h | ⟨s, h | h⟩)
  · exact hq h
  · exact hne h
  · have hmem : '.' ∈ k.data := by
      rw [h]
      simp [String.data_append]
    exact (hident '.' hmem).1 rfl
  · have hmem : '[' ∈ k.data := by
      rw [h]
      simp [String.data_append]
    exact (hident '[' hmem).2 rfl

/-- At the root, the step of the record handler for another key leaves the
path `k` of an identifier as it was. -/
theorem structStep_root_other_key (fields : List StructField) (k : String)
    (hident : ∀ c ∈ k.data, c ≠ '.' ∧ c ≠ '[') (hnames : ∀ g ∈ fields, g.Name ≠ "")
    (kv : String × Value) (hkv : kv.1 ≠ k) (u u' : GoMap Value)
    (h : structStep fields "" u kv = some u') : u'.get? k = u.get? k := by
  unfold structStep at h
  rw [childKey_empty] at h
  cases hg : (knownFields fields).get? kv.1 with
  | none =>
    rw [hg] at h
    simp only [Option.some.injEq] at h
    subst h
    exact GoMap.get?_set_of_ne _ _ _ _ (fun e => hkv e.symm)
  | some g =>
    rw [hg] at h
    have hname := (knownFields_get?_some fields kv.1 g hg).1
    have hq : kv.1 ≠ "" := by
      rw [← hname]
      exact jsonFieldName_ne_empty g (hnames g (knownFields_mem fields _ _ hg))
    exact getUnmappedFields_frame _ _ _ _ _ h k
      (not_under_of_ident kv.1 k hq (fun e => hkv e.symm) hident)

theorem foldlM_structStep_root_get? (fields : List StructField) (k : String)
    (hident : ∀ c ∈ k.data, c ≠ '.' ∧ c ≠ '[') (hnames : ∀ g ∈ fields, g.Name ≠ "")
    (l : List (String × Value)) (hl : ∀ kv ∈ l, kv.1 ≠ k) (u u' : GoMap Value)
    (h : l.foldlM (structStep fields "") u = some u') : u'.get? k = u.get? k := by
  refine foldlM_effect (fun (a b : GoMap Value) => b.get? k = a.get? k)
    (structStep fields "") ?_ ?_ l ?_ u u' h
  · intro _
    rfl
  · intro _ _ _ h12 h23
    exact h23.trans h12
  · intro kv hkv a b hstep
    exact structStep_root_other_key fields k hident hnames kv (hl kv hkv) a b hstep

/-- C4, as amended. For a struct that does not decode itself, with a field
tagged `json:"-"` whose Go name is an identifier (no dot, no bracket) and is
the serialized name of no other field, the Go names of the fields not being
empty: when the document decodes to an object that has a key equal to that
Go name and the walk returns, `UnmappedJSONFields` returns a report, and the
report has the key, as its own path, with the text of the key's value. -/
theorem UnmappedJSONFields_excluded_field_reported (fields : List StructField)
    (f : StructField) (data : String) (valMap : List (String × Value)) (v : Value)
    (unknown : GoMap Value) (_hf : f ∈ fields) (htag : f.jsonTag = "-")
    (hother : ∀ g ∈ fields, g ≠ f → jsonFieldName g ≠ f.Name)
    (hident : ∀ c ∈ f.Name.data, c ≠ '.' ∧ c ≠ '[')
    (hnames : ∀ g ∈ fields, g.Name ≠ "")
    (hdoc : Unmarshal data = .ok (.map valMap))
    (hkey : (f.Name, v) ∈ valMap)
    (hwalk : getUnmappedFields (.struct false fields) (.map valMap) "" [] = some unknown) :
    UnmappedJSONFields (.struct false fields) data = .report (serialize unknown) ∧
    (serialize unknown).get? (childKey "" f.Name) = some (MarshalIndent v) ∧
    childKey "" f.Name = f.Name := by
  refine ⟨UnmappedJSONFields_of_decoded _ _ _ _ hdoc hwalk, ?_, childKey_empty _⟩
  rw [childKey_empty]
  have hnone : (knownFields fields).get? f.Name = none := by
    apply knownFields_get?_none
    intro g hg hk
    by_cases hgf : g = f
    · rw [hgf]
      exact jsonFieldName_of_tag_dash f htag
    · exact absurd hk (hother g hg hgf)
  have hnodup := Unmarshal_map_nodup_keys data valMap hdoc
  obtain ⟨before, after, hsplit⟩ := List.append_of_mem hkey
  subst hsplit
  simp only [GoMap.keys, List.map_append, List.map_cons] at hnodup
  have hparts := List.nodup_append.1 hnodup
  have hafter : ∀ kv ∈ after, kv.1 ≠ f.Name := by
    intro kv hkv e
    exact (List.nodup_cons.1 hparts.2.1).1 (e ▸ List.mem_map_of_mem Prod.fst hkv)
  have hkeys : unknown.keys.Nodup :=
    getUnmappedFields_nodup_keys _ _ _ _ _ hwalk List.nodup_nil
  rw [getUnmappedFields_struct, processStruct_eq] at hwalk
  simp only [Value.asMap] at hwalk
  rw [foldlM_append_option] at hwalk
  cases hb : before.foldlM (structStep fields "") [] with
  | none => rw [hb] at hwalk; cases hwalk
  | some u1 =>
    rw [hb, Option.bind, foldlM_cons_option] at hwalk
    have hstep : structStep fields "" u1 (f.Name, v) = some (u1.set f.Name v) := by
      simp only [structStep, hnone, childKey_empty]
    rw [hstep, Option.bind] at hwalk
    have hget : unknown.get? f.Name = some v := by
      rw [foldlM_structStep_root_get? fields f.Name hident hnames after hafter _ _ hwalk]
      exact GoMap.get?_set_self _ _ _
    rw [serialize_get? unknown hkeys, hget]
    rfl

theorem getUnmappedFields_excludedFields :
    getUnmappedFields (.struct false excludedFields)
      (.map [("String", .string "name"), ("UnexportedString", .string "should be unknown")])
      "" [] = some [("UnexportedString", .string "should be unknown")] := by
  simp [excludedFields, getUnmappedFields_eq, processStruct_eq, structStep, knownFields,
    jsonFieldName, splitComma, GoMap.set, GoMap.get?, GoType.implementsUnmarshaler,
    Value.asMap, Value.convertibleTo, StructField.jsonTag, StructField.Typ, StructField.Name,
    childKey]

/-- C4 at the test's field `UnexportedString`: the document has the key and
the report has it, with the text of its value. -/
theorem UnmappedJSONFields_excluded_field_reported_witness :
    Unmarshal "\x7b\"String\":\"name\",\"UnexportedString\":\"should be unknown\"\x7d" =
      .ok (.map [("String", .string "name"),
        ("UnexportedString", .string "should be unknown")]) ∧
    (serialize [("UnexportedString", .string "should be unknown")]).get?
      (childKey "" "UnexportedString") = some "\"should be unknown\"" := by
  have hdoc :
      Unmarshal "\x7b\"String\":\"name\",\"UnexportedString\":\"should be unknown\"\x7d" =
      .ok (.map [("String", .string "name"),
        ("UnexportedString", .string "should be unknown")]) := rfl
  refine ⟨hdoc, ?_⟩
  exact (UnmappedJSONFields_excluded_field_reported excludedFields
    (StructField.mk "UnexportedString" "-" (.basic false .String)) _ _
    (.string "should be unknown") _
    (by simp [excludedFields]) rfl
    (by
      intro g hg hne
      simp only [excludedFields, List.mem_cons, List.mem_singleton, List.not_mem_nil,
        or_false] at hg
      rcases hg with rfl | rfl
      · decide
      · exact absurd rfl hne)
    (by decide)
    (by
      intro g hg
      simp only [excludedFields, List.mem_cons, List.mem_singleton, List.not_mem_nil,
        or_false] at hg
      rcases hg with rfl | rfl <;> decide)
    hdoc (by simp [StructField.Name]) getUnmappedFields_excludedFields).2.1

set_option maxRecDepth 100000 in
set_option exponentiation.threshold 4000 in
/-- C4 as stated fails: the document `{"X":1e999}` is an object with the key
`X`, the Go name of a field tagged `json:"-"`, and `UnmappedJSONFields` returns
the error of `json.Unmarshal` for the number, which is out of range: nothing
is reported. -/
theorem excluded_field_number_out_of_range :
    parseJSON "\x7b\"X\":1e999\x7d" = some (.object [("X", .number false 1 999)]) ∧
    (StructField.mk "X" "-" (.basic false .String)).jsonTag = "-" ∧
    UnmappedJSONFields (.struct false [StructField.mk "X" "-" (.basic false .String)])
      "\x7b\"X\":1e999\x7d" = .error .UnmarshalTypeError := by
  refine ⟨rfl, rfl, ?_⟩
  exact UnmappedJSONFields_of_error _ _ _ rfl

/-! ## The assignments unfolded one step -/

theorem processStructWrites_eq (um : Bool) (fields : List StructField) (val : Value)
    (pfx : String) :
    processStructWrites (.struct um fields) val pfx =
      match val.asMap with
      | none => some [(pfx, val)]
      | some valMap => collectWrites (structStepWrites fields pfx) valMap := by
  rw [processStructWrites]
  cases hv : val.asMap with
  | none => rfl
  | some valMap =>
    simp only
    congr 1
    funext kv
    unfold structStepWrites
    split <;> rename_i h
    · rw [h]
    · rw [h]

theorem processMapWrites_eq (keyType valType : GoType) (val : Value) (pfx : String) :
    processMapWrites keyType valType val pfx =
      if keyType.convertibleToString = false then some [(pfx, val)]
      else
        match val.asMap with
        | none => some [(pfx, val)]
        | some valMap => collectWrites (mapStepWrites valType pfx) valMap := by
  rw [processMapWrites]
  cases keyType.convertibleToString
  · simp
  · simp
    rfl

theorem processSliceWrites_eq (typ : GoType) (val : Value) (pfx : String) :
    processSliceWrites typ val pfx =
      match val.asSlice with
      | none => some [(pfx, val)]
      | some valSlice =>
        match typ.Elem with
        | none => none
        | some sliceType => collectWrites (sliceStepWrites sliceType pfx) valSlice.enum := by
  rw [processSliceWrites]
  cases val.asSlice with
  | none => rfl
  | some valSlice =>
    simp only
    split <;> rename_i h
    · rw [h]
    · rw [h]; rfl

theorem getUnmappedWrites_eq (typ : GoType) (val : Value) (pfx : String) :
    getUnmappedWrites typ val pfx =
      if typ.implementsUnmarshaler = true then some []
      else
        match typ with
        | .chan _ _ => some [(pfx, val)]
        | .func _ => some [(pfx, val)]
        | .iface _ => some []
        | .map _ keyType valType => processMapWrites keyType valType val pfx
        | .ptr _ elem => getUnmappedWrites elem val pfx
        | .array um n elem => processSliceWrites (.array um n elem) val pfx
        | .slice um elem => processSliceWrites (.slice um elem) val pfx
        | .struct um fields => processStructWrites (.struct um fields) val pfx
        | .basic _ kind =>
          match val.convertibleTo kind with
          | none => none
          | some true => some []
          | some false => some [(pfx, val)] := by
  cases typ <;> rw [getUnmappedWrites]

theorem collectWrites_cons {α : Type} (f : α → Option (List (String × Value))) (a : α)
    (l : List α) :
    collectWrites f (a :: l) =
      (f a).bind (fun w => (collectWrites f l).map (fun ws => w ++ ws)) := by
  rw [collectWrites]
  cases f a with
  | none => rfl
  | some w =>
    cases collectWrites f l <;> rfl

theorem collectWrites_append {α : Type} (f : α → Option (List (String × Value)))
    (l l' : List α) :
    collectWrites f (l ++ l') =
      (collectWrites f l).bind (fun ws => (collectWrites f l').map (fun ws' => ws ++ ws')) := by
  induction l with
  | nil =>
    simp only [List.nil_append, collectWrites, Option.bind]
    cases collectWrites f l' <;> simp
  | cons a l ih =>
    rw [List.cons_append, collectWrites_cons, collectWrites_cons, ih]
    cases f a with
    | none => rfl
    | some w =>
      cases collectWrites f l with
      | none => rfl
      | some ws =>
        cases collectWrites f l' with
        | none => rfl
        | some ws' => simp [Option.bind, List.append_assoc]

theorem applyWrites_nil (unknown : GoMap Value) : applyWrites unknown [] = unknown := rfl

theorem applyWrites_cons (unknown : GoMap Value) (kv : String × Value)
    (ws : List (String × Value)) :
    applyWrites unknown (kv :: ws) = applyWrites (unknown.set kv.1 kv.2) ws := rfl

theorem applyWrites_append (unknown : GoMap Value) (ws ws' : List (String × Value)) :
    applyWrites unknown (ws ++ ws') = applyWrites (applyWrites unknown ws) ws' := by
  unfold applyWrites
  rw [List.foldl_append]

/-- A loop of the walker is the loop of its assignments, made on the report. -/
theorem foldlM_eq_collectWrites {α : Type} (f : GoMap Value → α → Option (GoMap Value))
    (g : α → Option (List (String × Value))) (l : List α)
    (h : ∀ a ∈ l, ∀ u, f u a = (g a).map (applyWrites u)) (unknown : GoMap Value) :
    l.foldlM f unknown = (collectWrites g l).map (applyWrites unknown) := by
  induction l generalizing unknown with
  | nil => rfl
  | cons a l ih =>
    rw [foldlM_cons_option, collectWrites_cons, h a (List.mem_cons_self _ _) unknown]
    cases g a with
    | none => rfl
    | some w =>
      simp only [Option.map, Option.bind]
      rw [ih (fun x hx u => h x (List.mem_cons_of_mem _ hx) u)]
      cases collectWrites g l with
      | none => rfl
      | some ws => simp [applyWrites_append]

/-- The walker makes the assignments of `getUnmappedWrites` on the report it
is given, and panics when `getUnmappedWrites` does. -/
theorem getUnmappedFields_eq_applyWrites :
    ∀ (typ : GoType) (val : Value) (pfx : String) (unknown : GoMap Value),
      getUnmappedFields typ val pfx unknown =
        (getUnmappedWrites typ val pfx).map (applyWrites unknown) := by
  suffices H : ∀ (n : Nat) (typ : GoType), sizeOf typ = n →
      ∀ (val : Value) (pfx : String) (unknown : GoMap Value),
        getUnmappedFields typ val pfx unknown =
          (getUnmappedWrites typ val pfx).map (applyWrites unknown) from fun typ => H _ typ rfl
  intro n
  induction n using Nat.strong_induction_on with
  | _ n ih =>
    intro typ hn val pfx unknown
    rw [getUnmappedFields_eq, getUnmappedWrites_eq]
    cases hum : typ.implementsUnmarshaler with
    | true => simp [applyWrites_nil]
    | false =>
      simp only [Bool.false_eq_true, if_false]
      cases typ with
      | chan um e => rfl
      | func um => rfl
      | iface um => rfl
      | basic um kind =>
        simp only
        cases val.convertibleTo kind with
        | none => rfl
        | some b => cases b <;> rfl
      | ptr um e =>
        exact ih (sizeOf e) (by subst hn; simp) e rfl val pfx unknown
      | map um keyType valType =>
        simp only
        rw [processMap_eq, processMapWrites_eq]
        cases keyType.convertibleToString with
        | false => rfl
        | true =>
          simp only [Bool.true_eq_false, if_false]
          cases val.asMap with
          | none => rfl
          | some valMap =>
            exact foldlM_eq_collectWrites (mapStep valType pfx) (mapStepWrites valType pfx) valMap
              (fun kv _ u => ih (sizeOf valType) (by subst hn; simp) valType rfl _ _ u) unknown
      | array um len e =>
        simp only
        rw [processSlice_eq, processSliceWrites_eq]
        cases val.asSlice with
        | none => rfl
        | some valSlice =>
          simp only [GoType.Elem]
          exact foldlM_eq_collectWrites (sliceStep e pfx) (sliceStepWrites e pfx) valSlice.enum
            (fun iv _ u => ih (sizeOf e) (by subst hn; simp) e rfl _ _ u) unknown
      | slice um e =>
        simp only
        rw [processSlice_eq, processSliceWrites_eq]
        cases val.asSlice with
        | none => rfl
        | some valSlice =>
          simp only [GoType.Elem]
          exact foldlM_eq_collectWrites (sliceStep e pfx) (sliceStepWrites e pfx) valSlice.enum
            (fun iv _ u => ih (sizeOf e) (by subst hn; simp) e rfl _ _ u) unknown
      | struct um fields =>
        simp only
        rw [processStruct_eq, processStructWrites_eq]
        cases val.asMap with
        | none => rfl
        | some valMap =>
          refine foldlM_eq_collectWrites (structStep fields pfx) (structStepWrites fields pfx)
            valMap (fun kv _ u => ?_) unknown
          unfold structStep structStepWrites
          cases hg : (knownFields fields).get? kv.1 with
          | none => rfl
          | some g =>
            exact ih (sizeOf g.Typ)
              (by subst hn; exact sizeOf_field_lt um fields g (knownFields_mem fields _ _ hg))
              g.Typ rfl _ _ u

/-! ## Well-formed documents that are no objects (C11) -/

/-- C11, counterexample. The texts `[]` and `true` are well-formed JSON, an
empty array and a boolean; for the schema `struct {}` the entry point returns
the error of `json.Unmarshal`, which cannot store them in a
`map[string]interface{}`, and no report. -/
theorem wellformed_document_not_an_object :
    parseJSON "[]" = some (.array []) ∧
    UnmappedJSONFields (.struct false []) "[]" = .error .UnmarshalTypeError ∧
    parseJSON "true" = some (.bool true) ∧
    UnmappedJSONFields (.struct false []) "true" = .error .UnmarshalTypeError :=
  ⟨rfl, UnmappedJSONFields_of_error _ _ _ rfl, rfl, UnmappedJSONFields_of_error _ _ _ rfl⟩

/-! ## The JSON null at a primitive node (C12) -/

theorem Unmarshal_stringPtrNullDocument :
    Unmarshal stringPtrNullDocument = .ok (.map [("StringPtr", .nil)]) := by
  unfold stringPtrNullDocument
  rfl

theorem getUnmappedFields_stringPtr_null :
    getUnmappedFields stringPtrSchema (.map [("StringPtr", .nil)]) "" [] = none := by
  simp [stringPtrSchema, getUnmappedFields_eq, processStruct_eq, structStep, knownFields,
    addKnownField, jsonFieldName, splitComma, GoMap.set, GoMap.get?,
    GoType.implementsUnmarshaler, Value.asMap, StructField.Typ, StructField.Name,
    StructField.jsonTag, Value.convertibleTo, childKey]

/-- C12, what the code does. At a primitive node of any kind the JSON null,
whose decoded value is the nil interface, makes the walker panic
(`reflect.TypeOf(nil)` is the nil type, and `ConvertibleTo` is called on it):
nothing is recorded; and for the schema `struct { StringPtr *string }` the
document `{"StringPtr": null}` is decoded and the entry point panics instead
of returning a report. -/
theorem null_at_primitive_panics :
    (∀ (kind : BasicKind) (pfx : String) (unknown : GoMap Value),
      getUnmappedFields (.basic false kind) .nil pfx unknown = none) ∧
    Unmarshal stringPtrNullDocument = .ok (.map [("StringPtr", .nil)]) ∧
    UnmappedJSONFields stringPtrSchema stringPtrNullDocument = .panic := by
  refine ⟨?_, Unmarshal_stringPtrNullDocument, ?_⟩
  · intro kind pfx unknown
    rw [getUnmappedFields_basic]
    rfl
  · exact UnmappedJSONFields_of_panic _ _ _ Unmarshal_stringPtrNullDocument
      getUnmappedFields_stringPtr_null

/-! ## A value of the wrong container kind (C16) -/

/-- C16. At a struct, at a map whose key type converts to string, at a slice
and at an array, none of them self-decoding, a decoded value that is not a
keyed collection (for the struct and the map) or not a list (for the slice and
the array) is handled by the single assignment `unknown[p] = val`: the walk
returns the report with that assignment made, in which `p` holds `val` and
every other path holds what it held before. -/
theorem wrong_container_kind (typ : GoType) (val : Value) (p : String) (r : GoMap Value)
    (h : (∃ fields, typ = .struct false fields ∧ val.asMap = none) ∨
      (∃ keyType valType, typ = .map false keyType valType ∧
        keyType.convertibleToString = true ∧ val.asMap = none) ∨
      (∃ elem, typ = .slice false elem ∧ val.asSlice = none) ∨
      (∃ n elem, typ = .array false n elem ∧ val.asSlice = none)) :
    getUnmappedFields typ val p r = some (r.set p val) ∧
    (r.set p val).get? p = some val ∧
    ∀ q, q ≠ p → (r.set p val).get? q = r.get? q := by
  refine ⟨?_, GoMap.get?_set_self _ _ _, fun q hq => GoMap.get?_set_of_ne _ _ _ _ hq⟩
  rcases h with ⟨fields, rfl, hv⟩ | ⟨keyType, valType, rfl, hk, hv⟩ | ⟨elem, rfl, hv⟩ |
    ⟨n, elem, rfl, hv⟩
  · rw [getUnmappedFields_struct, processStruct_eq, hv]
  · rw [getUnmappedFields_map, processMap_eq, hk, hv]
    rfl
  · rw [getUnmappedFields_slice, processSlice_eq, hv]
  · rw [getUnmappedFields_array, processSlice_eq, hv]

/-- C16 at a struct given a string, with another entry in the report. -/
theorem wrong_container_kind_witness :
    getUnmappedFields (.struct false []) (.string "x") "B" [("A", .nil)] =
      some [("A", .nil), ("B", .string "x")] :=
  (wrong_container_kind (.struct false []) (.string "x") "B" [("A", .nil)]
    (Or.inl ⟨[], rfl, rfl⟩)).1

/-! ## The table of primitive acceptance (C18) -/

/-- C18. At a primitive node that is not self-decoding, with `r` the report
before: a decoded number is accepted (the report stays `r`) for the integer
and the floating-point kinds and recorded at the path for every other kind,
string and bool among them; a decoded string is accepted for the string kind
only and a decoded boolean for the bool kind only, and recorded otherwise; a
keyed collection and a list are recorded for every kind. -/
theorem primitive_acceptance (kind : BasicKind) (p : String) (r : GoMap Value) :
    (∀ f, getUnmappedFields (.basic false kind) (.float64 f) p r =
      if kind ∈ integerKinds ++ floatKinds then some r else some (r.set p (.float64 f))) ∧
    BasicKind.String ∉ integerKinds ++ floatKinds ∧
    BasicKind.Bool ∉ integerKinds ++ floatKinds ∧
    (∀ s, getUnmappedFields (.basic false kind) (.string s) p r =
      if kind = .String then some r else some (r.set p (.string s))) ∧
    (∀ b, getUnmappedFields (.basic false kind) (.bool b) p r =
      if kind = .Bool then some r else some (r.set p (.bool b))) ∧
    (∀ kvs, getUnmappedFields (.basic false kind) (.map kvs) p r =
      some (r.set p (.map kvs))) ∧
    (∀ xs, getUnmappedFields (.basic false kind) (.slice xs) p r =
      some (r.set p (.slice xs))) := by
  refine ⟨?_, by decide, by decide, ?_, ?_, ?_, ?_⟩
  · intro f
    rw [getUnmappedFields_basic]
    cases kind <;> simp [Value.convertibleTo, integerKinds, floatKinds]
  · intro s
    rw [getUnmappedFields_basic]
    cases kind <;> simp [Value.convertibleTo]
  · intro b
    rw [getUnmappedFields_basic]
    cases kind <;> simp [Value.convertibleTo]
  · intro kvs
    rw [getUnmappedFields_basic]
    rfl
  · intro xs
    rw [getUnmappedFields_basic]
    rfl

/-! ## Induction on the assignments of a walk -/

/-- A property of the assignments of a loop that holds of none and of a
concatenation holds of the loop as soon as it holds of each step. -/
theorem collectWrites_induction {α : Type} (P : List (String × Value) → Prop)
    (f : α → Option (List (String × Value)))
    (hnil : P []) (happend : ∀ w1 w2, P w1 → P w2 → P (w1 ++ w2)) (l : List α)
    (hstep : ∀ a ∈ l, ∀ w, f a = some w → P w) :
    ∀ ws, collectWrites f l = some ws → P ws := by
  induction l with
  | nil =>
    intro ws h
    simp only [collectWrites, Option.some.injEq] at h
    subst h
    exact hnil
  | cons a l ih =>
    intro ws h
    rw [collectWrites_cons] at h
    cases hfa : f a with
    | none => rw [hfa] at h; cases h
    | some w =>
      rw [hfa] at h
      cases hl : collectWrites f l with
      | none => rw [hl] at h; cases h
      | some ws' =>
        rw [hl] at h
        simp only [Option.bind, Option.map, Option.some.injEq] at h
        subst h
        exact happend w ws' (hstep a (List.mem_cons_self _ _) w hfa)
          (ih (fun x hx => hstep x (List.mem_cons_of_mem _ hx)) ws' hl)

/-- Induction on the assignments of a walk: a relation between the path and
the list of assignments that holds of no assignment and of the one assignment
at the path, of a concatenation, and at a path when it holds at a path right
under it, holds of every walk that returns. -/
theorem getUnmappedWrites_induction (P : String → List (String × Value) → Prop)
    (hnil : ∀ q, P q [])
    (hone : ∀ q v, P q [(q, v)])
    (happend : ∀ q w1 w2, P q w1 → P q w2 → P q (w1 ++ w2))
    (hchild : ∀ q k ws, P (childKey q k) ws → P q ws)
    (hmap : ∀ q k ws, P (mapKey q k) ws → P q ws)
    (hindex : ∀ q i ws, P (indexKey q i) ws → P q ws) :
    ∀ (typ : GoType) (val : Value) (q : String) (ws : List (String × Value)),
      getUnmappedWrites typ val q = some ws → P q ws := by
  suffices H : ∀ (n : Nat) (typ : GoType), sizeOf typ = n →
      ∀ (val : Value) (q : String) (ws : List (String × Value)),
        getUnmappedWrites typ val q = some ws → P q ws from fun typ => H _ typ rfl
  intro n
  induction n using Nat.strong_induction_on with
  | _ n ih =>
    intro typ hn val q ws h
    rw [getUnmappedWrites_eq] at h
    by_cases hum : typ.implementsUnmarshaler = true
    · simp only [hum, if_true, Option.some.injEq] at h
      subst h
      exact hnil q
    · have hum' : typ.implementsUnmarshaler = false := by simpa using hum
      rw [hum'] at h
      simp only [Bool.false_eq_true, if_false] at h
      cases typ with
      | chan um e =>
        simp only [Option.some.injEq] at h
        subst h
        exact hone q val
      | func um =>
        simp only [Option.some.injEq] at h
        subst h
        exact hone q val
      | iface um =>
        simp only [Option.some.injEq] at h
        subst h
        exact hnil q
      | basic um kind =>
        simp only at h
        cases hc : val.convertibleTo kind with
        | none => rw [hc] at h; cases h
        | some b =>
          rw [hc] at h
          cases b
          · simp only [Option.some.injEq] at h
            subst h
            exact hone q val
          · simp only [Option.some.injEq] at h
            subst h
            exact hnil q
      | ptr um e =>
        simp only at h
        exact ih (sizeOf e) (by subst hn; simp) e rfl val q ws h
      | map um keyType valType =>
        simp only at h
        rw [processMapWrites_eq] at h
        cases hk : keyType.convertibleToString with
        | false =>
          rw [hk] at h
          simp only [if_true, Option.some.injEq] at h
          subst h
          exact hone q val
        | true =>
          rw [hk] at h
          simp only [Bool.true_eq_false, if_false] at h
          cases hv : val.asMap with
          | none =>
            rw [hv] at h
            simp only [Option.some.injEq] at h
            subst h
            exact hone q val
          | some valMap =>
            rw [hv] at h
            refine collectWrites_induction (P q) _ (hnil q) (happend q) valMap ?_ ws h
            intro kv _ w hstep
            exact hmap q kv.1 w
              (ih (sizeOf valType) (by subst hn; simp) valType rfl _ _ w hstep)
      | array um len e =>
        simp only at h
        rw [processSliceWrites_eq] at h
        cases hv : val.asSlice with
        | none =>
          rw [hv] at h
          simp only [Option.some.injEq] at h
          subst h
          exact hone q val
        | some valSlice =>
          rw [hv] at h
          simp only [GoType.Elem] at h
          refine collectWrites_induction (P q) _ (hnil q) (happend q) valSlice.enum ?_ ws h
          intro iv _ w hstep
          exact hindex q iv.1 w
            (ih (sizeOf e) (by subst hn; simp) e rfl _ _ w hstep)
      | slice um e =>
        simp only at h
        rw [processSliceWrites_eq] at h
        cases hv : val.asSlice with
        | none =>
          rw [hv] at h
          simp only [Option.some.injEq] at h
          subst h
          exact hone q val
        | some valSlice =>
          rw [hv] at h
          simp only [GoType.Elem] at h
          refine collectWrites_induction (P q) _ (hnil q) (happend q) valSlice.enum ?_ ws h
          intro iv _ w hstep
          exact hindex q iv.1 w
            (ih (sizeOf e) (by subst hn; simp) e rfl _ _ w hstep)
      | struct um fields =>
        simp only at h
        rw [processStructWrites_eq] at h
        cases hv : val.asMap with
        | none =>
          rw [hv] at h
          simp only [Option.some.injEq] at h
          subst h
          exact hone q val
        | some valMap =>
          rw [hv] at h
          refine collectWrites_induction (P q) _ (hnil q) (happend q) valMap ?_ ws h
          intro kv _ w hstep
          unfold structStepWrites at hstep
          cases hg : (knownFields fields).get? kv.1 with
          | none =>
            rw [hg] at hstep
            simp only [Option.some.injEq] at hstep
            subst hstep
            exact hchild q kv.1 _ (hone _ kv.2)
          | some g =>
            rw [hg] at hstep
            exact hchild q kv.1 w
              (ih (sizeOf g.Typ)
                (by subst hn; exact sizeOf_field_lt um fields g (knownFields_mem fields _ _ hg))
                g.Typ rfl _ _ w hstep)

/-! ## Every assignment is at a path that starts with the path of the walk -/

theorem childKey_starts (q k : String) : ∃ s, childKey q k = q ++ s := by
  by_cases hq : q = ""
  · exact ⟨k, by simp [childKey, hq]⟩
  · exact ⟨"." ++ k, by simp [childKey, hq, String.append_assoc]⟩

theorem mapKey_starts (q k : String) : ∃ s, mapKey q k = q ++ s :=
  ⟨"[\"" ++ k ++ "\"]", by simp [mapKey, String.append_assoc]⟩

theorem indexKey_starts (q : String) (i : Nat) : ∃ s, indexKey q i = q ++ s :=
  ⟨"[" ++ toString i ++ "]", by simp [indexKey, String.append_assoc]⟩

theorem starts_trans (q q' p : String) (h : ∃ s, q' = q ++ s) (h' : ∃ s, p = q' ++ s) :
    ∃ s, p = q ++ s := by
  obtain ⟨s, rfl⟩ := h
  obtain ⟨t, rfl⟩ := h'
  exact ⟨s ++ t, by rw [String.append_assoc]⟩

theorem getUnmappedWrites_starts (typ : GoType) (val : Value) (q : String)
    (ws : List (String × Value)) (h : getUnmappedWrites typ val q = some ws) :
    ∀ kv ∈ ws, ∃ s, kv.1 = q ++ s := by
  refine getUnmappedWrites_induction (fun q ws => ∀ kv ∈ ws, ∃ s, kv.1 = q ++ s)
    ?_ ?_ ?_ ?_ ?_ ?_ typ val q ws h
  · intro q kv hkv
    cases hkv
  · intro q v kv hkv
    rw [List.mem_singleton] at hkv
    subst hkv
    exact ⟨"", by simp⟩
  · intro q w1 w2 h1 h2 kv hkv
    rcases List.mem_append.1 hkv with h | h
    · exact h1 kv h
    · exact h2 kv h
  · intro q k ws hc kv hkv
    exact starts_trans q _ _ (childKey_starts q k) (hc kv hkv)
  · intro q k ws hc kv hkv
    exact starts_trans q _ _ (mapKey_starts q k) (hc kv hkv)
  · intro q i ws hc kv hkv
    exact starts_trans q _ _ (indexKey_starts q i) (hc kv hkv)

theorem GoMap.get?_set {α : Type} (m : GoMap α) (k q : String) (v : α) :
    (m.set k v).get? q = if q = k then some v else m.get? q := by
  by_cases h : q = k
  · subst h
    simp [GoMap.get?_set_self]
  · simp [h, GoMap.get?_set_of_ne _ _ _ _ h]

/-- After a list of assignments a path holds what it held, unless one of them
is at that path; and a path that held something holds something. -/
theorem applyWrites_get? (ws : List (String × Value)) :
    ∀ (r : GoMap Value) (q : String),
      ((∀ kv ∈ ws, kv.1 ≠ q) → (applyWrites r ws).get? q = r.get? q) ∧
      (r.get? q ≠ none → (applyWrites r ws).get? q ≠ none) := by
  induction ws with
  | nil =>
    intro r q
    exact ⟨fun _ => rfl, fun h => h⟩
  | cons kv ws ih =>
    intro r q
    rw [applyWrites_cons]
    constructor
    · intro h
      rw [(ih _ q).1 (fun x hx => h x (List.mem_cons_of_mem _ hx))]
      exact GoMap.get?_set_of_ne _ _ _ _ (fun e => h kv (List.mem_cons_self _ _) e.symm)
    · intro h
      apply (ih _ q).2
      rw [GoMap.get?_set]
      by_cases e : q = kv.1
      · simp [e]
      · simpa [e] using h

/-! ## The prefix and frame invariant of the walker (C20) -/

/-- C20. When `getUnmappedFields(typ, val, p, r)` returns with the report
`r'`: `r'` is `r` after the assignments that the call executes; each of them
is at a path that has `p` as a string prefix; a path that has an entry in `r`
has one in `r'`; and a path that does not have `p` as a prefix holds in `r'`
what it holds in `r`. -/
theorem getUnmappedFields_prefix_frame (typ : GoType) (val : Value) (p : String)
    (r r' : GoMap Value) (h : getUnmappedFields typ val p r = some r') :
    (∃ ws, getUnmappedWrites typ val p = some ws ∧ r' = applyWrites r ws ∧
      ∀ kv ∈ ws, ∃ s, kv.1 = p ++ s) ∧
    (∀ q, r.get? q ≠ none → r'.get? q ≠ none) ∧
    (∀ q, (¬ ∃ s, q = p ++ s) → r'.get? q = r.get? q) := by
  rw [getUnmappedFields_eq_applyWrites] at h
  cases hw : getUnmappedWrites typ val p with
  | none => rw [hw] at h; cases h
  | some ws =>
    rw [hw] at h
    simp only [Option.map, Option.some.injEq] at h
    subst h
    have hstarts := getUnmappedWrites_starts typ val p ws hw
    refine ⟨⟨ws, rfl, rfl, hstarts⟩, fun q hq => (applyWrites_get? ws r q).2 hq, ?_⟩
    intro q hq
    apply (applyWrites_get? ws r q).1
    intro kv hkv e
    obtain ⟨s, hs⟩ := hstarts kv hkv
    exact hq ⟨s, by rw [← e, hs]⟩

/-- C20 at a struct without fields, the value `{"x": true}`, the path `B` and
the report that holds `A`: the one assignment is at `B.x`, and `A` is kept. -/
theorem getUnmappedFields_prefix_frame_witness :
    getUnmappedFields (.struct false []) (.map [("x", .bool true)]) "B" [("A", .nil)] =
      some [("A", .nil), ("B.x", .bool true)] ∧
    GoMap.get? [("A", Value.nil), ("B.x", Value.bool true)] "A" =
      GoMap.get? [("A", Value.nil)] "A" :=
  have h : getUnmappedFields (.struct false []) (.map [("x", .bool true)]) "B" [("A", .nil)] =
      some [("A", .nil), ("B.x", .bool true)] := by
    simp [getUnmappedFields_eq, processStruct_eq, structStep, knownFields, GoMap.set,
      GoMap.get?, GoType.implementsUnmarshaler, Value.asMap, childKey]
  ⟨h, (getUnmappedFields_prefix_frame _ _ _ _ _ h).2.2 "A" (by
    rintro ⟨s, hs⟩
    have := congrArg String.data hs
    simp at this)⟩

/-! ## An empty report (C19) -/

theorem GoMap.set_ne_nil {α : Type} (m : GoMap α) (k : String) (v : α) : m.set k v ≠ [] := by
  cases m with
  | nil => simp [GoMap.set]
  | cons e rest =>
    obtain ⟨k', v'⟩ := e
    unfold GoMap.set
    split <;> simp

theorem applyWrites_ne_nil (ws : List (String × Value)) :
    ∀ r : GoMap Value, r ≠ [] → applyWrites r ws ≠ [] := by
  induction ws with
  | nil => intro r h; exact h
  | cons kv ws ih =>
    intro r _
    rw [applyWrites_cons]
    exact ih _ (GoMap.set_ne_nil _ _ _)

theorem applyWrites_eq_nil (ws : List (String × Value)) (r : GoMap Value)
    (h : applyWrites r ws = []) : ws = [] := by
  cases ws with
  | nil => rfl
  | cons kv ws =>
    rw [applyWrites_cons] at h
    exact absurd h (applyWrites_ne_nil ws _ (GoMap.set_ne_nil _ _ _))

theorem foldl_set_ne_nil {α β : Type} (f : String × α → β) (l : List (String × α)) :
    ∀ out : GoMap β, out ≠ [] → l.foldl (fun out kv => out.set kv.1 (f kv)) out ≠ [] := by
  induction l with
  | nil => intro out h; exact h
  | cons kv l ih =>
    intro out _
    rw [List.foldl_cons]
    exact ih _ (GoMap.set_ne_nil _ _ _)

theorem serialize_eq_nil (unknown : GoMap Value) (h : serialize unknown = []) :
    unknown = [] := by
  cases unknown with
  | nil => rfl
  | cons kv l =>
    unfold serialize at h
    rw [List.foldl_cons] at h
    exact absurd h
      (foldl_set_ne_nil (fun kv => MarshalIndent kv.2) l _ (GoMap.set_ne_nil _ _ _))

theorem collectWrites_eq_nil {α : Type} (f : α → Option (List (String × Value)))
    (l : List α) (h : collectWrites f l = some []) : ∀ a ∈ l, f a = some [] := by
  induction l with
  | nil => intro a ha; cases ha
  | cons a l ih =>
    rw [collectWrites_cons] at h
    cases hfa : f a with
    | none => rw [hfa] at h; cases h
    | some w =>
      rw [hfa] at h
      cases hl : collectWrites f l with
      | none => rw [hl] at h; cases h
      | some ws =>
        rw [hl] at h
        simp only [Option.bind, Option.map, Option.some.injEq, List.append_eq_nil] at h
        obtain ⟨hw, hws⟩ := h
        subst hw
        subst hws
        intro x hx
        rcases List.mem_cons.1 hx with rfl | hx
        · exact hfa
        · exact ih hl x hx

theorem mem_enum_of_mem {α : Type} (l : List α) (x : α) (h : x ∈ l) :
    ∃ i, (i, x) ∈ l.enum := by
  obtain ⟨i, hi, rfl⟩ := List.getElem_of_mem h
  exact ⟨i, by rw [List.mk_mem_enum_iff_getElem?]; exact List.getElem?_eq_getElem hi⟩

theorem Value.eq_slice_of_asSlice (val : Value) (xs : List Value)
    (h : val.asSlice = some xs) : val = .slice xs := by
  cases val <;> simp [Value.asSlice] at h
  subst h
  rfl

/-- A walk that makes no assignment is the walk of a valid value. -/
theorem valid_of_getUnmappedWrites_nil :
    ∀ (typ : GoType) (val : Value) (q : String),
      getUnmappedWrites typ val q = some [] → Valid typ val := by
  suffices H : ∀ (n : Nat) (typ : GoType), sizeOf typ = n →
      ∀ (val : Value) (q : String),
        getUnmappedWrites typ val q = some [] → Valid typ val from fun typ => H _ typ rfl
  intro n
  induction n using Nat.strong_induction_on with
  | _ n ih =>
    intro typ hn val q h
    rw [getUnmappedWrites_eq] at h
    by_cases hum : typ.implementsUnmarshaler = true
    · exact Valid.selfDecoding typ val hum
    · have hum' : typ.implementsUnmarshaler = false := by simpa using hum
      rw [hum'] at h
      simp only [Bool.false_eq_true, if_false] at h
      cases typ with
      | chan um e => simp at h
      | func um => simp at h
      | iface um => exact Valid.any um val
      | basic um kind =>
        simp only at h
        cases hc : val.convertibleTo kind with
        | none => rw [hc] at h; cases h
        | some b =>
          rw [hc] at h
          cases b
          · simp at h
          · exact Valid.primitive um kind val hc
      | ptr um e =>
        simp only at h
        exact Valid.wrapper um e val (ih (sizeOf e) (by subst hn; simp) e rfl val q h)
      | map um keyType valType =>
        simp only at h
        rw [processMapWrites_eq] at h
        cases hk : keyType.convertibleToString with
        | false =>
          rw [hk] at h
          simp at h
        | true =>
          rw [hk] at h
          simp only [Bool.true_eq_false, if_false] at h
          cases hv : val.asMap with
          | none =>
            rw [hv] at h
            simp at h
          | some valMap =>
            rw [hv] at h
            refine Valid.map um keyType valType val valMap hk hv ?_
            intro kv hkv
            exact ih (sizeOf valType) (by subst hn; simp) valType rfl kv.2 _
              (collectWrites_eq_nil _ _ h kv hkv)
      | array um len e =>
        simp only at h
        rw [processSliceWrites_eq] at h
        cases hv : val.asSlice with
        | none =>
          rw [hv] at h
          simp at h
        | some valSlice =>
          rw [hv] at h
          simp only [GoType.Elem] at h
          rw [Value.eq_slice_of_asSlice val valSlice hv]
          refine Valid.array um len e valSlice ?_
          intro x hx
          obtain ⟨i, hi⟩ := mem_enum_of_mem valSlice x hx
          exact ih (sizeOf e) (by subst hn; simp) e rfl x _
            (collectWrites_eq_nil _ _ h (i, x) hi)
      | slice um e =>
        simp only at h
        rw [processSliceWrites_eq] at h
        cases hv : val.asSlice with
        | none =>
          rw [hv] at h
          simp at h
        | some valSlice =>
          rw [hv] at h
          simp only [GoType.Elem] at h
          rw [Value.eq_slice_of_asSlice val valSlice hv]
          refine Valid.slice um e valSlice ?_
          intro x hx
          obtain ⟨i, hi⟩ := mem_enum_of_mem valSlice x hx
          exact ih (sizeOf e) (by subst hn; simp) e rfl x _
            (collectWrites_eq_nil _ _ h (i, x) hi)
      | struct um fields =>
        simp only at h
        rw [processStructWrites_eq] at h
        cases hv : val.asMap with
        | none =>
          rw [hv] at h
          simp at h
        | some valMap =>
          rw [hv] at h
          have hsteps := collectWrites_eq_nil _ _ h
          refine Valid.record um fields val valMap hv ?_ ?_
          · intro kv hkv hnone
            have := hsteps kv hkv
            unfold structStepWrites at this
            rw [hnone] at this
            simp at this
          · intro kv hkv f hf
            have := hsteps kv hkv
            unfold structStepWrites at this
            rw [hf] at this
            exact ih (sizeOf f.Typ)
              (by subst hn; exact sizeOf_field_lt um fields f (knownFields_mem fields _ _ hf))
              f.Typ rfl kv.2 _ this

/-- C19. When `UnmappedJSONFields` returns the empty report, the document was
decoded, the walk from the empty path left the report empty, and the decoded
value is valid for the schema: every value at a struct is a keyed collection
with known keys only, every value at a slice or an array a list, every value
at a map a keyed collection and the key type converts to string, every value
at a primitive node converts to its kind, and no channel or function node is
reached, each of these under an `interface{}` or self-decoding node excepted. -/
theorem UnmappedJSONFields_empty_report (typ : GoType) (data : String)
    (h : UnmappedJSONFields typ data = .report []) :
    ∃ val, Unmarshal data = .ok val ∧ getUnmappedFields typ val "" [] = some [] ∧
      Valid typ val := by
  unfold UnmappedJSONFields at h
  cases hval : Unmarshal data with
  | error e => rw [hval] at h; cases h
  | ok val =>
    rw [hval] at h
    simp only at h
    cases hw : getUnmappedFields typ val "" [] with
    | none => rw [hw] at h; cases h
    | some u =>
      rw [hw] at h
      simp only [Outcome.report.injEq] at h
      have hu : u = [] := serialize_eq_nil u h
      subst hu
      refine ⟨val, rfl, hw, ?_⟩
      rw [getUnmappedFields_eq_applyWrites] at hw
      cases hws : getUnmappedWrites typ val "" with
      | none => rw [hws] at hw; cases hw
      | some ws =>
        rw [hws] at hw
        simp only [Option.map, Option.some.injEq] at hw
        have : ws = [] := applyWrites_eq_nil ws [] hw
        subst this
        exact valid_of_getUnmappedWrites_nil typ val "" hws

theorem Unmarshal_int_field_document :
    Unmarshal "\x7b\"Int\": 3\x7d" = .ok (.map [("Int", .float64 ⟨false, 6755399441055744, -51⟩)]) :=
  rfl

theorem getUnmappedFields_int_field :
    getUnmappedFields (.struct false [StructField.mk "Int" "" (.basic false .Int)])
      (.map [("Int", .float64 ⟨false, 6755399441055744, -51⟩)]) "" [] = some [] := by
  simp [getUnmappedFields_eq, processStruct_eq, structStep, knownFields,
    addKnownField, jsonFieldName, splitComma, GoMap.set, GoMap.get?,
    GoType.implementsUnmarshaler, Value.asMap, StructField.Typ, StructField.Name,
    StructField.jsonTag, Value.convertibleTo, childKey]

/-- C19 at the schema `struct { Int int }` and the document `{"Int": 3}`: the
report is empty, and the decoded value, the only one that the decoder gives
for the document, is valid for the schema. -/
theorem UnmappedJSONFields_empty_report_witness :
    UnmappedJSONFields (.struct false [StructField.mk "Int" "" (.basic false .Int)])
      "\x7b\"Int\": 3\x7d" = .report [] ∧
    Valid (.struct false [StructField.mk "Int" "" (.basic false .Int)])
      (.map [("Int", .float64 ⟨false, 6755399441055744, -51⟩)]) := by
  have hrep : UnmappedJSONFields (.struct false [StructField.mk "Int" "" (.basic false .Int)])
      "\x7b\"Int\": 3\x7d" = .report [] :=
    UnmappedJSONFields_of_decoded _ _ _ [] Unmarshal_int_field_document
      getUnmappedFields_int_field
  refine ⟨hrep, ?_⟩
  obtain ⟨val, hval, _, hvalid⟩ := UnmappedJSONFields_empty_report _ _ hrep
  rw [Unmarshal_int_field_document] at hval
  cases hval
  exact hvalid

/-! ## Decimal numerals -/

theorem digitChar_val (m : Nat) (h : m < 10) :
    (Nat.digitChar m).toNat - 48 = m ∧ Nat.digitChar m ≠ ']' := by
  interval_cases m <;> decide

theorem toDigitsCore_val (fuel : Nat) :
    ∀ (n : Nat) (ds : List Char), n < fuel →
      (Nat.toDigitsCore 10 fuel n ds).foldl (fun acc c => acc * 10 + (c.toNat - 48)) 0 =
        ds.foldl (fun acc c => acc * 10 + (c.toNat - 48)) n := by
  induction fuel with
  | zero => intro n ds h; omega
  | succ fuel ih =>
    intro n ds h
    simp only [Nat.toDigitsCore]
    have hd := (digitChar_val (n % 10) (Nat.mod_lt _ (by decide))).1
    by_cases h0 : n / 10 = 0
    · simp only [h0, if_true, List.foldl_cons, Nat.zero_mul, Nat.zero_add, hd]
      have : n % 10 = n := Nat.mod_eq_of_lt (by omega)
      rw [this]
    · simp only [h0, if_false]
      rw [ih (n / 10) _ (by omega)]
      simp only [List.foldl_cons, hd]
      have : n / 10 * 10 + n % 10 = n := by omega
      rw [this]

theorem toDigitsCore_no_bracket (fuel : Nat) :
    ∀ (n : Nat) (ds : List Char), (∀ c ∈ ds, c ≠ ']') →
      ∀ c ∈ Nat.toDigitsCore 10 fuel n ds, c ≠ ']' := by
  induction fuel with
  | zero => intro n ds h; simpa [Nat.toDigitsCore] using h
  | succ fuel ih =>
    intro n ds h
    simp only [Nat.toDigitsCore]
    have hd := (digitChar_val (n % 10) (Nat.mod_lt _ (by decide))).2
    have hcons : ∀ c ∈ Nat.digitChar (n % 10) :: ds, c ≠ ']' := by
      intro c hc
      rcases List.mem_cons.1 hc with rfl | hc
      · exact hd
      · exact h c hc
    by_cases h0 : n / 10 = 0
    · simp only [h0, if_true]
      exact hcons
    · simp only [h0, if_false]
      exact ih _ _ hcons

theorem toString_nat_data (i : Nat) : (toString i).data = Nat.toDigits 10 i := rfl

theorem toString_nat_injective (i j : Nat) (h : toString i = toString j) : i = j := by
  have hd : Nat.toDigits 10 i = Nat.toDigits 10 j := by
    rw [← toString_nat_data, ← toString_nat_data, h]
  have hi := toDigitsCore_val (i + 1) i [] (by omega)
  have hj := toDigitsCore_val (j + 1) j [] (by omega)
  simp only [List.foldl_nil] at hi hj
  unfold Nat.toDigits at hd
  rw [← hi, ← hj, hd]

theorem toString_nat_no_bracket (i : Nat) : ∀ c ∈ (toString i).data, c ≠ ']' := by
  rw [toString_nat_data]
  exact toDigitsCore_no_bracket _ _ _ (fun c hc => by cases hc)

/-! ## Where two paths beneath different keys part -/

/-- Two texts without a dot or a bracket that are followed by path tails and
give the same text are the same. -/
theorem plain_append_tail (k1 : List Char) :
    ∀ (k2 r1 r2 : List Char), (∀ c ∈ k1, c ≠ '.' ∧ c ≠ '[') → (∀ c ∈ k2, c ≠ '.' ∧ c ≠ '[') →
      PathTail r1 → PathTail r2 → k1 ++ r1 = k2 ++ r2 → k1 = k2 := by
  induction k1 with
  | nil =>
    intro k2 r1 r2 _ h2 t1 _ h
    cases k2 with
    | nil => rfl
    | cons c k2 =>
      simp only [List.nil_append, List.cons_append] at h
      rcases t1 with rfl | ⟨d, s, rfl, hd⟩
      · cases h
      · simp only [List.cons.injEq] at h
        obtain ⟨rfl, _⟩ := h
        have := h2 d (List.mem_cons_self _ _)
        rcases hd with rfl | rfl
        · exact absurd rfl this.1
        · exact absurd rfl this.2
  | cons c k1 ih =>
    intro k2 r1 r2 h1 h2 t1 t2 h
    cases k2 with
    | nil =>
      simp only [List.nil_append, List.cons_append] at h
      rcases t2 with rfl | ⟨d, s, rfl, hd⟩
      · cases h
      · simp only [List.cons.injEq] at h
        obtain ⟨rfl, _⟩ := h
        have := h1 c (List.mem_cons_self _ _)
        rcases hd with rfl | rfl
        · exact absurd rfl this.1
        · exact absurd rfl this.2
    | cons c' k2 =>
      simp only [List.cons_append, List.cons.injEq] at h
      obtain ⟨rfl, h⟩ := h
      rw [ih k2 r1 r2 (fun x hx => h1 x (List.mem_cons_of_mem _ hx))
        (fun x hx => h2 x (List.mem_cons_of_mem _ hx)) t1 t2 h]

/-- The case of `plain_append_tail` where one text is used up: the other one
is used up too. -/
theorem quote_bracket_tail (k r1 r2 : List Char) (hk : ∀ c ∈ k, c ≠ '.' ∧ c ≠ '[')
    (t1 : PathTail r1) (h : '"' :: ']' :: r1 = k ++ '"' :: ']' :: r2) : k = [] := by
  cases k with
  | nil => rfl
  | cons c k =>
    exfalso
    simp only [List.cons_append, List.cons.injEq] at h
    obtain ⟨rfl, h⟩ := h
    cases k with
    | nil =>
      simp only [List.nil_append, List.cons.injEq] at h
      exact absurd h.1 (by decide)
    | cons d k =>
      simp only [List.cons_append, List.cons.injEq] at h
      obtain ⟨rfl, h⟩ := h
      rcases t1 with rfl | ⟨e, s, rfl, he⟩
      · cases k <;> cases h
      · cases k with
        | nil =>
          simp only [List.nil_append, List.cons.injEq] at h
          obtain ⟨rfl, _⟩ := h
          rcases he with he | he <;> exact absurd he (by decide)
        | cons e' k =>
          simp only [List.cons_append, List.cons.injEq] at h
          obtain ⟨rfl, _⟩ := h
          have := hk e (by simp)
          rcases he with rfl | rfl
          · exact absurd rfl this.1
          · exact absurd rfl this.2

/-- Two map keys without a dot or a bracket whose quoted forms, followed by
path tails, give the same text are the same. -/
theorem plain_append_quote_tail (k1 : List Char) :
    ∀ (k2 r1 r2 : List Char), (∀ c ∈ k1, c ≠ '.' ∧ c ≠ '[') → (∀ c ∈ k2, c ≠ '.' ∧ c ≠ '[') →
      PathTail r1 → PathTail r2 →
      k1 ++ '"' :: ']' :: r1 = k2 ++ '"' :: ']' :: r2 → k1 = k2 := by
  induction k1 with
  | nil =>
    intro k2 r1 r2 _ h2 t1 _ h
    exact (quote_bracket_tail k2 r1 r2 h2 t1 h).symm
  | cons c k1 ih =>
    intro k2 r1 r2 h1 h2 t1 t2 h
    cases k2 with
    | nil => exact quote_bracket_tail (c :: k1) r2 r1 h1 t2 h.symm
    | cons c' k2 =>
      simp only [List.cons_append, List.cons.injEq] at h
      obtain ⟨rfl, h⟩ := h
      rw [ih k2 r1 r2 (fun x hx => h1 x (List.mem_cons_of_mem _ hx))
        (fun x hx => h2 x (List.mem_cons_of_mem _ hx)) t1 t2 h]

/-- Two texts without a closing bracket that are followed by one and give the
same text are the same. -/
theorem append_bracket (d1 : List Char) :
    ∀ (d2 r1 r2 : List Char), (∀ c ∈ d1, c ≠ ']') → (∀ c ∈ d2, c ≠ ']') →
      d1 ++ ']' :: r1 = d2 ++ ']' :: r2 → d1 = d2 := by
  induction d1 with
  | nil =>
    intro d2 r1 r2 _ h2 h
    cases d2 with
    | nil => rfl
    | cons c d2 =>
      simp only [List.nil_append, List.cons_append, List.cons.injEq] at h
      exact absurd h.1.symm (h2 c (List.mem_cons_self _ _))
  | cons c d1 ih =>
    intro d2 r1 r2 h1 h2 h
    cases d2 with
    | nil =>
      simp only [List.nil_append, List.cons_append, List.cons.injEq] at h
      exact absurd h.1 (h1 c (List.mem_cons_self _ _))
    | cons c' d2 =>
      simp only [List.cons_append, List.cons.injEq] at h
      obtain ⟨rfl, h⟩ := h
      rw [ih d2 r1 r2 (fun x hx => h1 x (List.mem_cons_of_mem _ hx))
        (fun x hx => h2 x (List.mem_cons_of_mem _ hx)) h]

/-! ## Paths beneath a path -/

theorem childKey_data (q k : String) :
    (childKey q k).data = if q = "" then k.data else q.data ++ '.' :: k.data := by
  by_cases hq : q = ""
  · simp [childKey, hq]
  · simp [childKey, hq, String.data_append]

theorem mapKey_data (q k : String) :
    (mapKey q k).data = q.data ++ '[' :: '"' :: (k.data ++ '"' :: ']' :: []) := by
  simp [mapKey, String.data_append]

theorem indexKey_data (q : String) (i : Nat) :
    (indexKey q i).data = q.data ++ '[' :: ((toString i).data ++ ']' :: []) := by
  simp [indexKey, String.data_append]

theorem ext_refl (q : String) : Ext q q :=
  ⟨[], by simp, Or.inl rfl⟩

theorem ext_of_ext_childKey (q k p : String) (hq : q ≠ "") (h : Ext (childKey q k) p) :
    Ext q p := by
  obtain ⟨r, hr, _⟩ := h
  rw [childKey_data, if_neg hq] at hr
  exact ⟨'.' :: (k.data ++ r), by rw [hr]; simp, Or.inr ⟨_, _, rfl, Or.inl rfl⟩⟩

theorem ext_of_ext_mapKey (q k p : String) (h : Ext (mapKey q k) p) : Ext q p := by
  obtain ⟨r, hr, _⟩ := h
  rw [mapKey_data] at hr
  exact ⟨'[' :: ('"' :: (k.data ++ '"' :: ']' :: []) ++ r), by rw [hr]; simp,
    Or.inr ⟨_, _, rfl, Or.inr rfl⟩⟩

theorem ext_of_ext_indexKey (q : String) (i : Nat) (p : String) (h : Ext (indexKey q i) p) :
    Ext q p := by
  obtain ⟨r, hr, _⟩ := h
  rw [indexKey_data] at hr
  exact ⟨'[' :: (((toString i).data ++ ']' :: []) ++ r), by rw [hr]; simp,
    Or.inr ⟨_, _, rfl, Or.inr rfl⟩⟩

theorem ext_childKey_disjoint (q k1 k2 p : String) (h1 : PlainKey k1) (h2 : PlainKey k2)
    (hne : k1 ≠ k2) (e1 : Ext (childKey q k1) p) (e2 : Ext (childKey q k2) p) : False := by
  obtain ⟨r1, hr1, t1⟩ := e1
  obtain ⟨r2, hr2, t2⟩ := e2
  rw [hr1, childKey_data, childKey_data] at hr2
  apply hne
  apply String.ext
  by_cases hq : q = ""
  · simp only [hq, if_true] at hr2
    exact plain_append_tail _ _ _ _ h1 h2 t1 t2 hr2
  · simp only [hq, if_false, List.append_assoc, List.cons_append, List.append_cancel_left_eq,
      List.cons.injEq, true_and] at hr2
    exact plain_append_tail _ _ _ _ h1 h2 t1 t2 hr2

theorem ext_mapKey_disjoint (q k1 k2 p : String) (h1 : PlainKey k1) (h2 : PlainKey k2)
    (hne : k1 ≠ k2) (e1 : Ext (mapKey q k1) p) (e2 : Ext (mapKey q k2) p) : False := by
  obtain ⟨r1, hr1, t1⟩ := e1
  obtain ⟨r2, hr2, t2⟩ := e2
  rw [hr1, mapKey_data, mapKey_data] at hr2
  apply hne
  apply String.ext
  simp only [List.append_assoc, List.cons_append, List.append_cancel_left_eq,
    List.cons.injEq, true_and, List.nil_append] at hr2
  exact plain_append_quote_tail _ _ _ _ h1 h2 t1 t2 hr2

theorem ext_indexKey_disjoint (q : String) (i j : Nat) (p : String) (hne : i ≠ j)
    (e1 : Ext (indexKey q i) p) (e2 : Ext (indexKey q j) p) : False := by
  obtain ⟨r1, hr1, _⟩ := e1
  obtain ⟨r2, hr2, _⟩ := e2
  rw [hr1, indexKey_data, indexKey_data] at hr2
  apply hne
  apply toString_nat_injective
  apply String.ext
  simp only [List.append_assoc, List.cons_append, List.append_cancel_left_eq,
    List.cons.injEq, true_and, List.nil_append] at hr2
  exact append_bracket _ _ _ _ (toString_nat_no_bracket i) (toString_nat_no_bracket j) hr2

theorem childKey_ne_empty (q k : String) (hk : k ≠ "") : childKey q k ≠ "" := by
  intro h
  have hd := congrArg String.data h
  rw [childKey_data] at hd
  by_cases hq : q = ""
  · simp only [hq, if_true] at hd
    exact hk (String.ext hd)
  · simp [hq] at hd

theorem mapKey_ne_empty (q k : String) : mapKey q k ≠ "" := by
  intro h
  have hd := congrArg String.data h
  rw [mapKey_data] at hd
  simp at hd

theorem indexKey_ne_empty (q : String) (i : Nat) : indexKey q i ≠ "" := by
  intro h
  have hd := congrArg String.data h
  rw [indexKey_data] at hd
  simp at hd

/-! ## The parts of a value with distinct, plain keys -/

theorem distinctKeys_of_asMap (val : Value) (kvs : List (String × Value))
    (h : DistinctKeys val) (hv : val.asMap = some kvs) :
    (kvs.map Prod.fst).Nodup ∧ ∀ kv ∈ kvs, DistinctKeys kv.2 := by
  cases h <;> simp only [Value.asMap, Option.some.injEq, reduceCtorEq] at hv
  · subst hv
    exact ⟨List.nodup_nil, fun kv hkv => by cases hkv⟩
  · subst hv
    rename_i h1 h2
    exact ⟨h1, h2⟩

theorem distinctKeys_of_asSlice (val : Value) (xs : List Value)
    (h : DistinctKeys val) (hv : val.asSlice = some xs) : ∀ x ∈ xs, DistinctKeys x := by
  cases h <;> simp only [Value.asSlice, Option.some.injEq, reduceCtorEq] at hv
  subst hv
  rename_i h1
  exact h1

theorem plainKeys_of_asMap (val : Value) (kvs : List (String × Value))
    (h : PlainKeys val) (hv : val.asMap = some kvs) :
    ∀ kv ∈ kvs, PlainKey kv.1 ∧ PlainKeys kv.2 := by
  cases h <;> simp only [Value.asMap, Option.some.injEq, reduceCtorEq] at hv
  · subst hv
    exact fun kv hkv => by cases hkv
  · subst hv
    rename_i h1 h2
    exact fun kv hkv => ⟨h1 kv hkv, h2 kv hkv⟩

theorem plainKeys_of_asSlice (val : Value) (xs : List Value)
    (h : PlainKeys val) (hv : val.asSlice = some xs) : ∀ x ∈ xs, PlainKeys x := by
  cases h <;> simp only [Value.asSlice, Option.some.injEq, reduceCtorEq] at hv
  subst hv
  rename_i h1
  exact h1

/-! ## No path is written twice when the keys are plain -/

/-- The assignments of a loop are at distinct paths when those of each step
are, each step writes beneath its own path, and no path is beneath the paths
of two steps. -/
theorem collectWrites_nodup {α : Type} (f : α → Option (List (String × Value)))
    (a : α → String) (l : List α)
    (hstep : ∀ x ∈ l, ∀ w, f x = some w →
      (w.map Prod.fst).Nodup ∧ ∀ kv ∈ w, Ext (a x) kv.1)
    (hdisj : l.Pairwise (fun x y => ∀ p, Ext (a x) p → Ext (a y) p → False)) :
    ∀ ws, collectWrites f l = some ws →
      (ws.map Prod.fst).Nodup ∧ ∀ kv ∈ ws, ∃ x ∈ l, Ext (a x) kv.1 := by
  induction l with
  | nil =>
    intro ws h
    simp only [collectWrites, Option.some.injEq] at h
    subst h
    exact ⟨List.nodup_nil, fun kv hkv => by cases hkv⟩
  | cons x l ih =>
    intro ws h
    rw [collectWrites_cons] at h
    cases hfx : f x with
    | none => rw [hfx] at h; cases h
    | some w =>
      rw [hfx] at h
      cases hl : collectWrites f l with
      | none => rw [hl] at h; cases h
      | some ws' =>
        rw [hl] at h
        simp only [Option.bind, Option.map, Option.some.injEq] at h
        subst h
        obtain ⟨hx, hrest⟩ := List.pairwise_cons.1 hdisj
        obtain ⟨hw, hwext⟩ := hstep x (List.mem_cons_self _ _) w hfx
        obtain ⟨hws', hws'ext⟩ :=
          ih (fun y hy => hstep y (List.mem_cons_of_mem _ hy)) hrest ws' hl
        constructor
        · rw [List.map_append]
          refine List.Nodup.append hw hws' ?_
          intro p hp1 hp2
          obtain ⟨kv1, hkv1, rfl⟩ := List.mem_map.1 hp1
          obtain ⟨kv2, hkv2, he⟩ := List.mem_map.1 hp2
          obtain ⟨y, hy, hyext⟩ := hws'ext kv2 hkv2
          rw [he] at hyext
          exact hx y hy _ (hwext kv1 hkv1) hyext
        · intro kv hkv
          rcases List.mem_append.1 hkv with hkv | hkv
          · exact ⟨x, List.mem_cons_self _ _, hwext kv hkv⟩
          · obtain ⟨y, hy, hyext⟩ := hws'ext kv hkv
            exact ⟨y, List.mem_cons_of_mem _ hy, hyext⟩

theorem pairwise_of_nodup_keys {β : Type} (l : List (String × β))
    (R : String × β → String × β → Prop) (h : (l.map Prod.fst).Nodup)
    (hR : ∀ x ∈ l, ∀ y ∈ l, x.1 ≠ y.1 → R x y) : l.Pairwise R := by
  have hp : l.Pairwise (fun x y => x.1 ≠ y.1) := List.pairwise_map.1 h
  exact (List.Pairwise.and_mem.1 hp).imp (fun ⟨hx, hy, hne⟩ => hR _ hx _ hy hne)

theorem pairwise_enum {β : Type} (l : List β) (R : Nat × β → Nat × β → Prop)
    (hR : ∀ x ∈ l.enum, ∀ y ∈ l.enum, x.1 ≠ y.1 → R x y) : l.enum.Pairwise R := by
  have hn : (l.enum.map Prod.fst).Nodup := by
    rw [List.enum_map_fst]
    exact List.nodup_range _
  have hp : l.enum.Pairwise (fun x y => x.1 ≠ y.1) := List.pairwise_map.1 hn
  exact (List.Pairwise.and_mem.1 hp).imp (fun ⟨hx, hy, hne⟩ => hR _ hx _ hy hne)

theorem nodup_singleton_key (q : String) (val : Value) :
    (([(q, val)] : List (String × Value)).map Prod.fst).Nodup ∧
      (q ≠ "" → ∀ kv ∈ ([(q, val)] : List (String × Value)), Ext q kv.1) := by
  refine ⟨by simp, fun _ kv hkv => ?_⟩
  rw [List.mem_singleton] at hkv
  subst hkv
  exact ext_refl _

/-- For a schema whose field names are not empty and a value whose keys are
distinct and plain, the assignments of a walk are at distinct paths, each the
path of the walk or beneath it. -/
theorem getUnmappedWrites_nodup :
    ∀ (typ : GoType) (val : Value) (q : String) (ws : List (String × Value)),
      NamedFields typ → DistinctKeys val → PlainKeys val →
      getUnmappedWrites typ val q = some ws →
      (ws.map Prod.fst).Nodup ∧ (q ≠ "" → ∀ kv ∈ ws, Ext q kv.1) := by
  suffices H : ∀ (n : Nat) (typ : GoType), sizeOf typ = n →
      ∀ (val : Value) (q : String) (ws : List (String × Value)),
        NamedFields typ → DistinctKeys val → PlainKeys val →
        getUnmappedWrites typ val q = some ws →
        (ws.map Prod.fst).Nodup ∧ (q ≠ "" → ∀ kv ∈ ws, Ext q kv.1) from
    fun typ => H _ typ rfl
  intro n
  induction n using Nat.strong_induction_on with
  | _ n ih =>
    intro typ hn val q ws hnames hdist hplain h
    have hnil : (([] : List (String × Value)).map Prod.fst).Nodup ∧
        (q ≠ "" → ∀ kv ∈ ([] : List (String × Value)), Ext q kv.1) :=
      ⟨List.nodup_nil, fun _ kv hkv => by cases hkv⟩
    rw [getUnmappedWrites_eq] at h
    by_cases hum : typ.implementsUnmarshaler = true
    · simp only [hum, if_true, Option.some.injEq] at h
      subst h
      exact hnil
    · have hum' : typ.implementsUnmarshaler = false := by simpa using hum
      rw [hum'] at h
      simp only [Bool.false_eq_true, if_false] at h
      cases typ with
      | chan um e =>
        simp only [Option.some.injEq] at h
        subst h
        exact nodup_singleton_key q val
      | func um =>
        simp only [Option.some.injEq] at h
        subst h
        exact nodup_singleton_key q val
      | iface um =>
        simp only [Option.some.injEq] at h
        subst h
        exact hnil
      | basic um kind =>
        simp only at h
        cases hc : val.convertibleTo kind with
        | none => rw [hc] at h; cases h
        | some b =>
          rw [hc] at h
          cases b
          · simp only [Option.some.injEq] at h
            subst h
            exact nodup_singleton_key q val
          · simp only [Option.some.injEq] at h
            subst h
            exact hnil
      | ptr um e =>
        simp only at h
        cases hnames with
        | ptr _ _ he => exact ih (sizeOf e) (by subst hn; simp) e rfl val q ws he hdist hplain h
      | map um keyType valType =>
        simp only at h
        rw [processMapWrites_eq] at h
        cases hk : keyType.convertibleToString with
        | false =>
          rw [hk] at h
          simp only [if_true, Option.some.injEq] at h
          subst h
          exact nodup_singleton_key q val
        | true =>
          rw [hk] at h
          simp only [Bool.true_eq_false, if_false] at h
          cases hv : val.asMap with
          | none =>
            rw [hv] at h
            simp only [Option.some.injEq] at h
            subst h
            exact nodup_singleton_key q val
          | some valMap =>
            rw [hv] at h
            obtain ⟨hnd, hdk⟩ := distinctKeys_of_asMap val valMap hdist hv
            have hpk := plainKeys_of_asMap val valMap hplain hv
            cases hnames with
            | map _ _ _ he =>
              obtain ⟨h1, h2⟩ := collectWrites_nodup (mapStepWrites valType q)
                (fun kv => mapKey q kv.1) valMap
                (fun kv hkv w hw => by
                  obtain ⟨a1, a2⟩ := ih (sizeOf valType) (by subst hn; simp) valType rfl
                    kv.2 (mapKey q kv.1) w he (hdk kv hkv) (hpk kv hkv).2 hw
                  exact ⟨a1, a2 (mapKey_ne_empty _ _)⟩)
                (pairwise_of_nodup_keys valMap _ hnd (fun x hx y hy hne p e1 e2 =>
                  ext_mapKey_disjoint q x.1 y.1 p (hpk x hx).1 (hpk y hy).1 hne e1 e2))
                ws h
              refine ⟨h1, fun _ kv hkv => ?_⟩
              obtain ⟨x, _, hx⟩ := h2 kv hkv
              exact ext_of_ext_mapKey q x.1 _ hx
      | array um len e =>
        simp only at h
        rw [processSliceWrites_eq] at h
        cases hv : val.asSlice with
        | none =>
          rw [hv] at h
          simp only [Option.some.injEq] at h
          subst h
          exact nodup_singleton_key q val
        | some valSlice =>
          rw [hv] at h
          simp only [GoType.Elem] at h
          have hdk := distinctKeys_of_asSlice val valSlice hdist hv
          have hpk := plainKeys_of_asSlice val valSlice hplain hv
          cases hnames with
          | array _ _ _ he =>
            obtain ⟨h1, h2⟩ := collectWrites_nodup (sliceStepWrites e q)
              (fun iv => indexKey q iv.1) valSlice.enum
              (fun iv hiv w hw => by
                obtain ⟨a1, a2⟩ := ih (sizeOf e) (by subst hn; simp) e rfl
                  iv.2 (indexKey q iv.1) w he (hdk iv.2 (mem_enum_snd _ _ hiv))
                  (hpk iv.2 (mem_enum_snd _ _ hiv)) hw
                exact ⟨a1, a2 (indexKey_ne_empty _ _)⟩)
              (pairwise_enum valSlice _ (fun x _ y _ hne p e1 e2 =>
                ext_indexKey_disjoint q x.1 y.1 p hne e1 e2))
              ws h
            refine ⟨h1, fun _ kv hkv => ?_⟩
            obtain ⟨x, _, hx⟩ := h2 kv hkv
            exact ext_of_ext_indexKey q x.1 _ hx
      | slice um e =>
        simp only at h
        rw [processSliceWrites_eq] at h
        cases hv : val.asSlice with
        | none =>
          rw [hv] at h
          simp only [Option.some.injEq] at h
          subst h
          exact nodup_singleton_key q val
        | some valSlice =>
          rw [hv] at h
          simp only [GoType.Elem] at h
          have hdk := distinctKeys_of_asSlice val valSlice hdist hv
          have hpk := plainKeys_of_asSlice val valSlice hplain hv
          cases hnames with
          | slice _ _ he =>
            obtain ⟨h1, h2⟩ := collectWrites_nodup (sliceStepWrites e q)
              (fun iv => indexKey q iv.1) valSlice.enum
              (fun iv hiv w hw => by
                obtain ⟨a1, a2⟩ := ih (sizeOf e) (by subst hn; simp) e rfl
                  iv.2 (indexKey q iv.1) w he (hdk iv.2 (mem_enum_snd _ _ hiv))
                  (hpk iv.2 (mem_enum_snd _ _ hiv)) hw
                exact ⟨a1, a2 (indexKey_ne_empty _ _)⟩)
              (pairwise_enum valSlice _ (fun x _ y _ hne p e1 e2 =>
                ext_indexKey_disjoint q x.1 y.1 p hne e1 e2))
              ws h
            refine ⟨h1, fun _ kv hkv => ?_⟩
            obtain ⟨x, _, hx⟩ := h2 kv hkv
            exact ext_of_ext_indexKey q x.1 _ hx
      | struct um fields =>
        simp only at h
        rw [processStructWrites_eq] at h
        cases hv : val.asMap with
        | none =>
          rw [hv] at h
          simp only [Option.some.injEq] at h
          subst h
          exact nodup_singleton_key q val
        | some valMap =>
          rw [hv] at h
          obtain ⟨hnd, hdk⟩ := distinctKeys_of_asMap val valMap hdist hv
          have hpk := plainKeys_of_asMap val valMap hplain hv
          cases hnames with
          | struct _ _ hfnames hftypes =>
            obtain ⟨h1, h2⟩ := collectWrites_nodup (structStepWrites fields q)
              (fun kv => childKey q kv.1) valMap
              (fun kv hkv w hw => by
                unfold structStepWrites at hw
                cases hg : (knownFields fields).get? kv.1 with
                | none =>
                  rw [hg] at hw
                  simp only [Option.some.injEq] at hw
                  subst hw
                  refine ⟨by simp, fun x hx => ?_⟩
                  rw [List.mem_singleton] at hx
                  subst hx
                  exact ext_refl _
                | some g =>
                  rw [hg] at hw
                  have hmem := knownFields_mem fields _ _ hg
                  have hname : kv.1 ≠ "" := by
                    rw [← (knownFields_get?_some fields kv.1 g hg).1]
                    exact jsonFieldName_ne_empty g (hfnames g hmem)
                  obtain ⟨a1, a2⟩ := ih (sizeOf g.Typ)
                    (by subst hn; exact sizeOf_field_lt um fields g hmem) g.Typ rfl
                    kv.2 (childKey q kv.1) w (hftypes g hmem) (hdk kv hkv) (hpk kv hkv).2 hw
                  exact ⟨a1, a2 (childKey_ne_empty _ _ hname)⟩)
              (pairwise_of_nodup_keys valMap _ hnd (fun x hx y hy hne p e1 e2 =>
                ext_childKey_disjoint q x.1 y.1 p (hpk x hx).1 (hpk y hy).1 hne e1 e2))
              ws h
            refine ⟨h1, fun hq kv hkv => ?_⟩
            obtain ⟨x, _, hx⟩ := h2 kv hkv
            exact ext_of_ext_childKey q x.1 _ hq hx

/-! ## A decoded document has distinct keys at every depth -/

mutual
theorem JSON.decode_distinctKeys :
    ∀ (j : JSON) (v : Value), j.decode = some v → DistinctKeys v
  | .null, v, h => by
    rw [JSON.decode] at h
    cases h
    exact DistinctKeys.nil
  | .bool b, v, h => by
    rw [JSON.decode] at h
    cases h
    exact DistinctKeys.bool b
  | .number neg digits e10, v, h => by
    rw [JSON.decode] at h
    cases hf : ParseFloat neg digits e10 with
    | none => rw [hf] at h; cases h
    | some f =>
      rw [hf] at h
      cases h
      exact DistinctKeys.float64 f
  | .string s, v, h => by
    rw [JSON.decode] at h
    cases h
    exact DistinctKeys.string s
  | .array elems, v, h => by
    rw [JSON.decode] at h
    cases he : decodeElems elems with
    | none => rw [he] at h; cases h
    | some xs =>
      rw [he] at h
      cases h
      exact DistinctKeys.slice xs (decodeElems_distinctKeys elems xs he)
  | .object members, v, h => by
    rw [JSON.decode] at h
    cases hm : decodeMembers members [] with
    | none => rw [hm] at h; cases h
    | some m =>
      rw [hm] at h
      cases h
      exact DistinctKeys.map m (decodeMembers_nodup_keys members [] m List.nodup_nil hm)
        (decodeMembers_distinctKeys members [] m (fun kv hkv => by cases hkv) hm)
theorem decodeElems_distinctKeys :
    ∀ (js : List JSON) (vs : List Value), decodeElems js = some vs →
      ∀ v ∈ vs, DistinctKeys v
  | [], vs, h => by
    rw [decodeElems] at h
    cases h
    intro v hv
    cases hv
  | j :: rest, vs, h => by
    rw [decodeElems] at h
    cases hj : j.decode with
    | none => rw [hj] at h; cases h
    | some v =>
      rw [hj] at h
      cases hr : decodeElems rest with
      | none => rw [hr] at h; cases h
      | some vs' =>
        rw [hr] at h
        cases h
        intro x hx
        rcases List.mem_cons.1 hx with rfl | hx
        · exact JSON.decode_distinctKeys j _ hj
        · exact decodeElems_distinctKeys rest vs' hr x hx
theorem decodeMembers_distinctKeys :
    ∀ (ms : List (String × JSON)) (m m' : GoMap Value),
      (∀ kv ∈ m, DistinctKeys kv.2) → decodeMembers ms m = some m' →
      ∀ kv ∈ m', DistinctKeys kv.2
  | [], m, m', hm, h => by
    rw [decodeMembers] at h
    cases h
    exact hm
  | (k, j) :: rest, m, m', hm, h => by
    rw [decodeMembers] at h
    cases hj : j.decode with
    | none => rw [hj] at h; cases h
    | some v =>
      rw [hj] at h
      exact decodeMembers_distinctKeys rest (m.set k v) m'
        (GoMap.forall_set DistinctKeys m k v (JSON.decode_distinctKeys j v hj) hm) h
end

theorem Unmarshal_distinctKeys (data : String) (val : Value) (h : Unmarshal data = .ok val) :
    DistinctKeys val := by
  unfold Unmarshal at h
  split at h
  · cases h
  · cases h
    exact DistinctKeys.nilMap
  · rename_i members _
    cases hm : decodeMembers members [] with
    | none => rw [hm] at h; cases h
    | some m =>
      rw [hm] at h
      cases h
      exact DistinctKeys.map m (decodeMembers_nodup_keys members [] m List.nodup_nil hm)
        (decodeMembers_distinctKeys members [] m (fun kv hkv => by cases hkv) hm)
  · cases h

/-! ## No path is written twice (C13) -/

theorem applyWrites_get?_of_nodup (ws : List (String × Value)) :
    ∀ (r : GoMap Value), (ws.map Prod.fst).Nodup →
      ∀ kv ∈ ws, (applyWrites r ws).get? kv.1 = some kv.2 := by
  induction ws with
  | nil => intro r _ kv hkv; cases hkv
  | cons kv0 rest ih =>
    intro r hnd kv hkv
    rw [applyWrites_cons]
    rw [List.map_cons, List.nodup_cons] at hnd
    rcases List.mem_cons.1 hkv with rfl | hkv
    · rw [(applyWrites_get? rest _ kv.1).1
        (fun x hx e => hnd.1 (e ▸ List.mem_map_of_mem Prod.fst hx))]
      exact GoMap.get?_set_self _ _ _
    · exact ih _ hnd.2 kv hkv

theorem Unmarshal_collisionDocument :
    Unmarshal collisionDocument =
      .ok (.map [("A.B", .bool true), ("A", .map [("B", .bool false)])]) := by
  unfold collisionDocument
  rfl

theorem getUnmappedWrites_collision :
    getUnmappedWrites collisionSchema
      (.map [("A.B", .bool true), ("A", .map [("B", .bool false)])]) "" =
      some [("A.B", .bool true), ("A.B", .bool false)] := by
  simp [collisionSchema, getUnmappedWrites_eq, processStructWrites_eq, structStepWrites,
    collectWrites, knownFields, addKnownField, jsonFieldName, splitComma, GoMap.set,
    GoMap.get?, GoType.implementsUnmarshaler, Value.asMap, StructField.Typ, StructField.Name,
    StructField.jsonTag, childKey]

/-- C13, counterexample. For the schema `struct { A struct{} }` and the
document `{"A.B": true, "A": {"B": false}}` the walk from the empty path
makes two assignments, and both are at the path `A.B`: the unknown key `A.B`
of the document with the value `true`, and the unknown key `B` under the
field `A` with the value `false`. -/
theorem path_written_twice :
    Unmarshal collisionDocument =
      .ok (.map [("A.B", .bool true), ("A", .map [("B", .bool false)])]) ∧
    getUnmappedWrites collisionSchema
      (.map [("A.B", .bool true), ("A", .map [("B", .bool false)])]) "" =
      some [("A.B", .bool true), ("A.B", .bool false)] ∧
    getUnmappedFields collisionSchema
      (.map [("A.B", .bool true), ("A", .map [("B", .bool false)])]) "" [] =
      some [("A.B", .bool false)] := by
  refine ⟨Unmarshal_collisionDocument, getUnmappedWrites_collision, ?_⟩
  rw [getUnmappedFields_eq_applyWrites, getUnmappedWrites_collision]
  rfl

/-- C13, amended. For a schema whose field names are not empty, as those of
Go are, and a document that is decoded and in which no key has a dot or an
opening bracket: when the walk from the empty path returns, the paths of its
assignments are distinct, so no path is written twice; the report of the walk
holds at the path of every assignment the value assigned there; and this is
the report that the entry point serializes. -/
theorem no_path_written_twice (typ : GoType) (data : String) (val : Value)
    (ws : List (String × Value)) (hnames : NamedFields typ)
    (hdoc : Unmarshal data = .ok val) (hplain : PlainKeys val)
    (hws : getUnmappedWrites typ val "" = some ws) :
    (ws.map Prod.fst).Nodup ∧
    getUnmappedFields typ val "" [] = some (applyWrites [] ws) ∧
    (∀ kv ∈ ws, (applyWrites [] ws).get? kv.1 = some kv.2) ∧
    UnmappedJSONFields typ data = .report (serialize (applyWrites [] ws)) := by
  have hnd := (getUnmappedWrites_nodup typ val "" ws hnames
    (Unmarshal_distinctKeys data val hdoc) hplain hws).1
  have hwalk : getUnmappedFields typ val "" [] = some (applyWrites [] ws) := by
    rw [getUnmappedFields_eq_applyWrites, hws]
    rfl
  exact ⟨hnd, hwalk, applyWrites_get?_of_nodup ws [] hnd,
    UnmappedJSONFields_of_decoded typ data val _ hdoc hwalk⟩

theorem namedFields_collisionSchema : NamedFields collisionSchema := by
  refine NamedFields.struct false _ ?_ ?_
  · intro f hf
    rw [List.mem_singleton] at hf
    subst hf
    decide
  · intro f hf
    rw [List.mem_singleton] at hf
    subst hf
    exact NamedFields.struct false [] (fun f hf => by cases hf) (fun f hf => by cases hf)

theorem plainKey_of_chars (k : String) (h : k.data.all (fun c => c ≠ '.' ∧ c ≠ '[') = true) :
    PlainKey k := by
  intro c hc
  have := List.all_eq_true.1 h c hc
  simpa using this

theorem Unmarshal_plainDocument :
    Unmarshal plainDocument =
      .ok (.map [("A", .map [("B", .bool false)]), ("C", .bool true)]) := by
  unfold plainDocument
  rfl

theorem plainKeys_plainDocument :
    PlainKeys (.map [("A", .map [("B", .bool false)]), ("C", .bool true)]) := by
  refine PlainKeys.map _ ?_ ?_
  · intro kv hkv
    simp only [List.mem_cons, List.mem_singleton, List.not_mem_nil, or_false] at hkv
    rcases hkv with rfl | rfl
    · exact plainKey_of_chars _ (by decide)
    · exact plainKey_of_chars _ (by decide)
  · intro kv hkv
    simp only [List.mem_cons, List.mem_singleton, List.not_mem_nil, or_false] at hkv
    rcases hkv with rfl | rfl
    · refine PlainKeys.map _ ?_ ?_
      · intro kv hkv
        rw [List.mem_singleton] at hkv
        subst hkv
        exact plainKey_of_chars _ (by decide)
      · intro kv hkv
        rw [List.mem_singleton] at hkv
        subst hkv
        exact PlainKeys.bool false
    · exact PlainKeys.bool true

theorem getUnmappedWrites_plainDocument :
    getUnmappedWrites collisionSchema
      (.map [("A", .map [("B", .bool false)]), ("C", .bool true)]) "" =
      some [("A.B", .bool false), ("C", .bool true)] := by
  simp [collisionSchema, getUnmappedWrites_eq, processStructWrites_eq, structStepWrites,
    collectWrites, knownFields, addKnownField, jsonFieldName, splitComma, GoMap.set,
    GoMap.get?, GoType.implementsUnmarshaler, Value.asMap, StructField.Typ, StructField.Name,
    StructField.jsonTag, childKey]

/-- C13, amended, at the schema `struct { A struct{} }` and the document
`{"A": {"B": false}, "C": true}`: the two assignments are at the paths `A.B`
and `C`. -/
theorem no_path_written_twice_witness :
    NamedFields collisionSchema ∧
    Unmarshal plainDocument =
      .ok (.map [("A", .map [("B", .bool false)]), ("C", .bool true)]) ∧
    PlainKeys (.map [("A", .map [("B", .bool false)]), ("C", .bool true)]) ∧
    getUnmappedWrites collisionSchema
      (.map [("A", .map [("B", .bool false)]), ("C", .bool true)]) "" =
      some [("A.B", .bool false), ("C", .bool true)] ∧
    (([("A.B", Value.bool false), ("C", Value.bool true)] :
      List (String × Value)).map Prod.fst).Nodup :=
  ⟨namedFields_collisionSchema, Unmarshal_plainDocument, plainKeys_plainDocument,
    getUnmappedWrites_plainDocument,
    (no_path_written_twice collisionSchema plainDocument _ _ namedFields_collisionSchema
      Unmarshal_plainDocument plainKeys_plainDocument getUnmappedWrites_plainDocument).1⟩

/-! ## The assignments of a loop, by membership -/

theorem collectWrites_eq_none_iff {α : Type} (f : α → Option (List (String × Value)))
    (l : List α) : collectWrites f l = none ↔ ∃ x ∈ l, f x = none := by
  induction l with
  | nil => simp [collectWrites]
  | cons a l ih =>
    rw [collectWrites_cons]
    cases hfa : f a with
    | none => simp [hfa]
    | some w =>
      cases hl : collectWrites f l with
      | none =>
        have := ih.1 hl
        simp only [Option.bind, Option.map, List.mem_cons, exists_eq_or_imp, hfa, reduceCtorEq,
          false_or, true_iff]
        exact this
      | some ws =>
        simp only [Option.bind, Option.map, List.mem_cons, exists_eq_or_imp, hfa, reduceCtorEq,
          false_or, false_iff]
        intro hex
        have := ih.2 hex
        rw [hl] at this
        cases this

theorem collectWrites_mem {α : Type} (f : α → Option (List (String × Value)))
    (l : List α) :
    ∀ ws, collectWrites f l = some ws →
      ∀ kv, kv ∈ ws ↔ ∃ x ∈ l, ∃ w, f x = some w ∧ kv ∈ w := by
  induction l with
  | nil =>
    intro ws h kv
    simp only [collectWrites, Option.some.injEq] at h
    subst h
    simp
  | cons a l ih =>
    intro ws h kv
    rw [collectWrites_cons] at h
    cases hfa : f a with
    | none => rw [hfa] at h; cases h
    | some w =>
      rw [hfa] at h
      cases hl : collectWrites f l with
      | none => rw [hl] at h; cases h
      | some ws' =>
        rw [hl] at h
        simp only [Option.bind, Option.map, Option.some.injEq] at h
        subst h
        simp only [List.mem_append, List.mem_cons, exists_eq_or_imp, hfa, Option.some.injEq,
          exists_eq_left', ih ws' hl kv]

/-- The assignments of two loops are the same when every element of one has a
match in the other and matching elements give the same outcome. -/
theorem collectWrites_sameOutcome {α : Type} (f f' : α → Option (List (String × Value)))
    (l l' : List α) (M : α → α → Prop)
    (hl : ∀ x ∈ l, ∃ x' ∈ l', M x x') (hl' : ∀ x' ∈ l', ∃ x ∈ l, M x x')
    (hstep : ∀ x ∈ l, ∀ x' ∈ l', M x x' → SameOutcome (f x) (f' x')) :
    SameOutcome (collectWrites f l) (collectWrites f' l') := by
  constructor
  · rw [collectWrites_eq_none_iff, collectWrites_eq_none_iff]
    constructor
    · rintro ⟨x, hx, hfx⟩
      obtain ⟨x', hx', hm⟩ := hl x hx
      exact ⟨x', hx', (hstep x hx x' hx' hm).1.1 hfx⟩
    · rintro ⟨x', hx', hfx'⟩
      obtain ⟨x, hx, hm⟩ := hl' x' hx'
      exact ⟨x, hx, (hstep x hx x' hx' hm).1.2 hfx'⟩
  · intro ws ws' h h'
    have hnone : ∀ x ∈ l, f x ≠ none := fun x hx e =>
      absurd h (by rw [(collectWrites_eq_none_iff f l).2 ⟨x, hx, e⟩]; simp)
    have hnone' : ∀ x' ∈ l', f' x' ≠ none := fun x hx e =>
      absurd h' (by rw [(collectWrites_eq_none_iff f' l').2 ⟨x, hx, e⟩]; simp)
    constructor
    · intro kv hkv
      obtain ⟨x, hx, w, hw, hkvw⟩ := (collectWrites_mem f l ws h kv).1 hkv
      obtain ⟨x', hx', hm⟩ := hl x hx
      obtain ⟨w', hw'⟩ := Option.ne_none_iff_exists'.1 (hnone' x' hx')
      obtain ⟨kv', hkv', hrel⟩ := ((hstep x hx x' hx' hm).2 w w' hw hw').1 kv hkvw
      exact ⟨kv', (collectWrites_mem f' l' ws' h' kv').2 ⟨x', hx', w', hw', hkv'⟩, hrel⟩
    · intro kv' hkv'
      obtain ⟨x', hx', w', hw', hkvw'⟩ := (collectWrites_mem f' l' ws' h' kv').1 hkv'
      obtain ⟨x, hx, hm⟩ := hl' x' hx'
      obtain ⟨w, hw⟩ := Option.ne_none_iff_exists'.1 (hnone x hx)
      obtain ⟨kv, hkv, hrel⟩ := ((hstep x hx x' hx' hm).2 w w' hw hw').2 kv' hkvw'
      exact ⟨kv, (collectWrites_mem f l ws h kv).2 ⟨x, hx, w, hw, hkv⟩, hrel⟩

theorem sameOutcome_nil : SameOutcome (some []) (some []) := by
  refine ⟨by simp, ?_⟩
  intro ws ws' h h'
  cases h
  cases h'
  exact ⟨fun kv hkv => (by cases hkv), fun kv hkv => (by cases hkv)⟩

theorem sameOutcome_one (q : String) (v v' : Value) (h : Reordered v v') :
    SameOutcome (some [(q, v)]) (some [(q, v')]) := by
  refine ⟨by simp, ?_⟩
  intro ws ws' hw hw'
  cases hw
  cases hw'
  constructor
  · intro kv hkv
    rw [List.mem_singleton] at hkv
    subst hkv
    exact ⟨(q, v'), List.mem_singleton_self _, rfl, h⟩
  · intro kv hkv
    rw [List.mem_singleton] at hkv
    subst hkv
    exact ⟨(q, v), List.mem_singleton_self _, rfl, h⟩

theorem sameOutcome_none : SameOutcome none none :=
  ⟨by simp, fun ws ws' h _ => by cases h⟩

/-! ## What a reordered value and a reordered schema have in common -/

theorem mem_of_perm_keys {β : Type} (l l' : List (String × β))
    (h : (l.map Prod.fst).Perm (l'.map Prod.fst)) (x : String × β) (hx : x ∈ l) :
    ∃ x' ∈ l', x.1 = x'.1 := by
  have : x.1 ∈ l'.map Prod.fst := h.subset (List.mem_map_of_mem Prod.fst hx)
  obtain ⟨x', hx', e⟩ := List.mem_map.1 this
  exact ⟨x', hx', e.symm⟩

theorem Reordered.asMap (v v' : Value) (h : Reordered v v') :
    (v.asMap = none ∧ v'.asMap = none) ∨
    ∃ kvs kvs', v.asMap = some kvs ∧ v'.asMap = some kvs' ∧
      (∀ x ∈ kvs, ∃ x' ∈ kvs', x.1 = x'.1 ∧ Reordered x.2 x'.2) ∧
      (∀ x' ∈ kvs', ∃ x ∈ kvs, x.1 = x'.1 ∧ Reordered x.2 x'.2) := by
  cases h with
  | refl =>
    cases hv : v.asMap with
    | none => exact Or.inl ⟨rfl, rfl⟩
    | some kvs =>
      exact Or.inr ⟨kvs, kvs, rfl, rfl, fun x hx => ⟨x, hx, rfl, Reordered.refl _⟩,
        fun x hx => ⟨x, hx, rfl, Reordered.refl _⟩⟩
  | slice xs ys _ _ => exact Or.inl ⟨rfl, rfl⟩
  | map kvs kvs' _ hperm hrel =>
    refine Or.inr ⟨kvs, kvs', rfl, rfl, ?_, ?_⟩
    · intro x hx
      obtain ⟨x', hx', e⟩ := mem_of_perm_keys kvs kvs' hperm x hx
      exact ⟨x', hx', e, hrel x hx x' hx' e⟩
    · intro x' hx'
      obtain ⟨x, hx, e⟩ := mem_of_perm_keys kvs' kvs hperm.symm x' hx'
      exact ⟨x, hx, e.symm, hrel x hx x' hx' e.symm⟩

theorem mem_enum_of_length_eq {β : Type} (xs ys : List β) (h : xs.length = ys.length)
    (iv : Nat × β) (hiv : iv ∈ xs.enum) : ∃ iv' ∈ ys.enum, iv.1 = iv'.1 := by
  obtain ⟨i, x⟩ := iv
  have hi : i < xs.length := (List.mem_enum hiv).1
  have hi' : i < ys.length := h ▸ hi
  exact ⟨(i, ys[i]), by rw [List.mk_mem_enum_iff_getElem?]; exact List.getElem?_eq_getElem hi',
    rfl⟩

theorem Reordered.asSlice (v v' : Value) (h : Reordered v v') :
    (v.asSlice = none ∧ v'.asSlice = none) ∨
    ∃ xs ys, v.asSlice = some xs ∧ v'.asSlice = some ys ∧
      (∀ x ∈ xs.enum, ∃ x' ∈ ys.enum, x.1 = x'.1 ∧ Reordered x.2 x'.2) ∧
      (∀ x' ∈ ys.enum, ∃ x ∈ xs.enum, x.1 = x'.1 ∧ Reordered x.2 x'.2) := by
  cases h with
  | refl =>
    cases hv : v.asSlice with
    | none => exact Or.inl ⟨rfl, rfl⟩
    | some xs =>
      exact Or.inr ⟨xs, xs, rfl, rfl, fun x hx => ⟨x, hx, rfl, Reordered.refl _⟩,
        fun x hx => ⟨x, hx, rfl, Reordered.refl _⟩⟩
  | map kvs kvs' _ _ _ => exact Or.inl ⟨rfl, rfl⟩
  | slice xs ys hlen hrel =>
    refine Or.inr ⟨xs, ys, rfl, rfl, ?_, ?_⟩
    · intro x hx
      obtain ⟨x', hx', e⟩ := mem_enum_of_length_eq xs ys hlen x hx
      exact ⟨x', hx', e, hrel x hx x' hx' e⟩
    · intro x' hx'
      obtain ⟨x, hx, e⟩ := mem_enum_of_length_eq ys xs hlen.symm x' hx'
      exact ⟨x, hx, e.symm, hrel x hx x' hx' e.symm⟩

theorem Reordered.convertibleTo (v v' : Value) (kind : BasicKind) (h : Reordered v v') :
    v.convertibleTo kind = v'.convertibleTo kind := by
  cases h <;> rfl

theorem GoMap.get?_ne_none_iff {α : Type} (m : GoMap α) (k : String) :
    m.get? k ≠ none ↔ k ∈ m.keys := by
  induction m with
  | nil => simp [GoMap.get?, GoMap.keys]
  | cons hd rest ih =>
    obtain ⟨k0, v0⟩ := hd
    simp only [GoMap.keys] at ih
    by_cases h0 : k0 = k
    · simp [GoMap.get?, GoMap.keys, h0]
    · have h0' : ¬ k = k0 := fun e => h0 e.symm
      simp [GoMap.get?, GoMap.keys, h0, h0', ih]

theorem foldl_addKnownField_keys (fs : List StructField) :
    ∀ (init : GoMap StructField) (k : String),
      k ∈ (fs.foldl addKnownField init).keys ↔
        k ∈ init.keys ∨ (k ≠ "-" ∧ k ∈ fs.map jsonFieldName) := by
  induction fs with
  | nil => intro init k; simp
  | cons f fs ih =>
    intro init k
    rw [List.foldl_cons, ih]
    unfold addKnownField
    by_cases hf : jsonFieldName f = "-"
    · simp only [hf, if_true, List.map_cons, List.mem_cons]
      constructor
      · rintro (h | ⟨h1, h2⟩)
        · exact Or.inl h
        · exact Or.inr ⟨h1, Or.inr h2⟩
      · rintro (h | ⟨h1, h2 | h2⟩)
        · exact Or.inl h
        · exact absurd h2 h1
        · exact Or.inr ⟨h1, h2⟩
    · simp only [hf, if_false, List.map_cons, List.mem_cons, GoMap.keys_set]
      constructor
      · rintro (h | ⟨h1, h2⟩)
        · split at h
          · exact Or.inl h
          · rcases List.mem_append.1 h with h | h
            · exact Or.inl h
            · rw [List.mem_singleton] at h
              exact Or.inr ⟨by rw [h]; exact hf, Or.inl h⟩
        · exact Or.inr ⟨h1, Or.inr h2⟩
      · rintro (h | ⟨h1, h2 | h2⟩)
        · left
          split
          · exact h
          · exact List.mem_append_left _ h
        · left
          split
          · rename_i hmem
            rw [h2]
            exact hmem
          · rw [h2]
            exact List.mem_append_right _ (List.mem_singleton_self _)
        · exact Or.inr ⟨h1, h2⟩

/-- A key is known exactly when it is the serialized name of a field and is
not `-`. -/
theorem knownFields_get?_ne_none_iff (fields : List StructField) (k : String) :
    (knownFields fields).get? k ≠ none ↔ k ≠ "-" ∧ k ∈ fields.map jsonFieldName := by
  rw [GoMap.get?_ne_none_iff, knownFields_eq_foldl, foldl_addKnownField_keys]
  simp [GoMap.keys]

theorem SchemaReordered.struct_inv (um : Bool) (fields : List StructField) (typ' : GoType)
    (h : SchemaReordered (.struct um fields) typ') :
    ∃ fields', typ' = .struct um fields' ∧
      (∀ k, (knownFields fields).get? k = none ↔ (knownFields fields').get? k = none) ∧
      (∀ k f f', (knownFields fields).get? k = some f →
        (knownFields fields').get? k = some f' → SchemaReordered f.Typ f'.Typ) := by
  cases h with
  | refl =>
    refine ⟨fields, rfl, fun _ => Iff.rfl, ?_⟩
    intro k f f' hf hf'
    rw [hf] at hf'
    cases hf'
    exact SchemaReordered.refl _
  | struct _ _ fields' _ hperm hrel =>
    refine ⟨fields', rfl, ?_, ?_⟩
    · intro k
      rw [← not_iff_not]
      show (knownFields fields).get? k ≠ none ↔ (knownFields fields').get? k ≠ none
      rw [knownFields_get?_ne_none_iff, knownFields_get?_ne_none_iff, hperm.mem_iff]
    · intro k f f' hf hf'
      exact hrel f (knownFields_mem fields k f hf) f' (knownFields_mem fields' k f' hf')
        (by rw [(knownFields_get?_some fields k f hf).1,
          (knownFields_get?_some fields' k f' hf').1])

/-! ## The walk of a reordered value against a reordered schema -/

/-- A reordered value walked against a reordered schema: both walks panic, or
both return and make the same assignments, up to their order and the order of
the maps in the values. -/
theorem getUnmappedWrites_reordered :
    ∀ (typ typ' : GoType) (val val' : Value) (q : String),
      SchemaReordered typ typ' → Reordered val val' →
      SameOutcome (getUnmappedWrites typ val q) (getUnmappedWrites typ' val' q) := by
  suffices H : ∀ (n : Nat) (typ : GoType), sizeOf typ = n →
      ∀ (typ' : GoType) (val val' : Value) (q : String),
        SchemaReordered typ typ' → Reordered val val' →
        SameOutcome (getUnmappedWrites typ val q) (getUnmappedWrites typ' val' q) from
    fun typ => H _ typ rfl
  intro n
  induction n using Nat.strong_induction_on with
  | _ n ih =>
    intro typ hn typ' val val' q hs hv
    have hum : typ'.implementsUnmarshaler = typ.implementsUnmarshaler := by
      cases hs <;> rfl
    rw [getUnmappedWrites_eq, getUnmappedWrites_eq typ', hum]
    by_cases hu : typ.implementsUnmarshaler = true
    · simp only [hu, if_true]
      exact sameOutcome_nil
    · have hu' : typ.implementsUnmarshaler = false := by simpa using hu
      rw [hu']
      simp only [Bool.false_eq_true, if_false]
      cases typ with
      | chan um e =>
        cases hs
        exact sameOutcome_one q val val' hv
      | func um =>
        cases hs
        exact sameOutcome_one q val val' hv
      | iface um =>
        cases hs
        exact sameOutcome_nil
      | basic um kind =>
        cases hs
        simp only
        rw [← Reordered.convertibleTo val val' kind hv]
        cases val.convertibleTo kind with
        | none => exact sameOutcome_none
        | some b =>
          cases b
          · exact sameOutcome_one q val val' hv
          · exact sameOutcome_nil
      | ptr um e =>
        have he : ∃ e', typ' = .ptr um e' ∧ SchemaReordered e e' := by
          cases hs with
          | refl => exact ⟨e, rfl, SchemaReordered.refl _⟩
          | ptr _ _ e' h => exact ⟨e', rfl, h⟩
        obtain ⟨e', rfl, hse⟩ := he
        simp only
        exact ih (sizeOf e) (by subst hn; simp) e rfl e' val val' q hse hv
      | map um keyType valType =>
        have he : ∃ e', typ' = .map um keyType e' ∧ SchemaReordered valType e' := by
          cases hs with
          | refl => exact ⟨valType, rfl, SchemaReordered.refl _⟩
          | map _ _ _ e' h => exact ⟨e', rfl, h⟩
        obtain ⟨e', rfl, hse⟩ := he
        simp only
        rw [processMapWrites_eq, processMapWrites_eq]
        cases hk : keyType.convertibleToString with
        | false =>
          simp only [if_true]
          exact sameOutcome_one q val val' hv
        | true =>
          simp only [Bool.true_eq_false, if_false]
          rcases Reordered.asMap val val' hv with ⟨h1, h2⟩ | ⟨kvs, kvs', h1, h2, h3, h4⟩
          · rw [h1, h2]
            exact sameOutcome_one q val val' hv
          · rw [h1, h2]
            refine collectWrites_sameOutcome _ _ kvs kvs'
              (fun x x' => x.1 = x'.1 ∧ Reordered x.2 x'.2) h3 h4 ?_
            intro x _ x' _ hm
            unfold mapStepWrites
            rw [hm.1]
            exact ih (sizeOf valType) (by subst hn; simp) valType rfl e' x.2 x'.2 _ hse hm.2
      | array um len e =>
        have he : ∃ e', typ' = .array um len e' ∧ SchemaReordered e e' := by
          cases hs with
          | refl => exact ⟨e, rfl, SchemaReordered.refl _⟩
          | array _ _ _ e' h => exact ⟨e', rfl, h⟩
        obtain ⟨e', rfl, hse⟩ := he
        simp only
        rw [processSliceWrites_eq, processSliceWrites_eq]
        rcases Reordered.asSlice val val' hv with ⟨h1, h2⟩ | ⟨xs, ys, h1, h2, h3, h4⟩
        · rw [h1, h2]
          exact sameOutcome_one q val val' hv
        · rw [h1, h2]
          simp only [GoType.Elem]
          refine collectWrites_sameOutcome _ _ xs.enum ys.enum
            (fun x x' => x.1 = x'.1 ∧ Reordered x.2 x'.2) h3 h4 ?_
          intro x _ x' _ hm
          unfold sliceStepWrites
          rw [hm.1]
          exact ih (sizeOf e) (by subst hn; simp) e rfl e' x.2 x'.2 _ hse hm.2
      | slice um e =>
        have he : ∃ e', typ' = .slice um e' ∧ SchemaReordered e e' := by
          cases hs with
          | refl => exact ⟨e, rfl, SchemaReordered.refl _⟩
          | slice _ _ e' h => exact ⟨e', rfl, h⟩
        obtain ⟨e', rfl, hse⟩ := he
        simp only
        rw [processSliceWrites_eq, processSliceWrites_eq]
        rcases Reordered.asSlice val val' hv with ⟨h1, h2⟩ | ⟨xs, ys, h1, h2, h3, h4⟩
        · rw [h1, h2]
          exact sameOutcome_one q val val' hv
        · rw [h1, h2]
          simp only [GoType.Elem]
          refine collectWrites_sameOutcome _ _ xs.enum ys.enum
            (fun x x' => x.1 = x'.1 ∧ Reordered x.2 x'.2) h3 h4 ?_
          intro x _ x' _ hm
          unfold sliceStepWrites
          rw [hm.1]
          exact ih (sizeOf e) (by subst hn; simp) e rfl e' x.2 x'.2 _ hse hm.2
      | struct um fields =>
        obtain ⟨fields', rfl, hnone, hsome⟩ := SchemaReordered.struct_inv um fields typ' hs
        simp only
        rw [processStructWrites_eq, processStructWrites_eq]
        rcases Reordered.asMap val val' hv with ⟨h1, h2⟩ | ⟨kvs, kvs', h1, h2, h3, h4⟩
        · rw [h1, h2]
          exact sameOutcome_one q val val' hv
        · rw [h1, h2]
          refine collectWrites_sameOutcome _ _ kvs kvs'
            (fun x x' => x.1 = x'.1 ∧ Reordered x.2 x'.2) h3 h4 ?_
          intro x _ x' _ hm
          unfold structStepWrites
          rw [← hm.1]
          cases hg : (knownFields fields).get? x.1 with
          | none =>
            rw [(hnone x.1).1 hg]
            exact sameOutcome_one _ _ _ hm.2
          | some g =>
            cases hg' : (knownFields fields').get? x.1 with
            | none => rw [(hnone x.1).2 hg'] at hg; cases hg
            | some g' =>
              exact ih (sizeOf g.Typ)
                (by subst hn; exact sizeOf_field_lt um fields g (knownFields_mem fields _ _ hg))
                g.Typ rfl g'.Typ x.2 x'.2 _ (hsome x.1 g g' hg hg') hm.2

/-! ## Sorting the members of a map by key -/

theorem insertByKey_perm (kv : String × List Char) (xs : List (String × List Char)) :
    (insertByKey kv xs).Perm (kv :: xs) := by
  induction xs with
  | nil => exact List.Perm.refl _
  | cons x xs ih =>
    unfold insertByKey
    split
    · exact List.Perm.refl _
    · exact (List.Perm.cons x ih).trans (List.Perm.swap kv x xs)

theorem sortByKey_perm (l : List (String × List Char)) : (sortByKey l).Perm l := by
  induction l with
  | nil => exact List.Perm.refl _
  | cons x xs ih =>
    unfold sortByKey
    exact (insertByKey_perm x _).trans (List.Perm.cons x ih)

theorem insertByKey_sorted (kv : String × List Char) (xs : List (String × List Char))
    (hs : xs.Sorted (fun a b => a.1 < b.1)) (hne : ∀ x ∈ xs, x.1 ≠ kv.1) :
    (insertByKey kv xs).Sorted (fun a b => a.1 < b.1) := by
  induction xs with
  | nil => exact List.sorted_singleton _
  | cons x xs ih =>
    obtain ⟨hx, hxs⟩ := List.sorted_cons.1 hs
    unfold insertByKey
    split
    · rename_i hlt
      refine List.sorted_cons.2 ⟨?_, hs⟩
      intro y hy
      rcases List.mem_cons.1 hy with rfl | hy
      · exact hlt
      · exact lt_trans hlt (hx y hy)
    · rename_i hlt
      have hxk : x.1 < kv.1 := by
        rcases lt_trichotomy kv.1 x.1 with h | h | h
        · exact absurd h hlt
        · exact absurd h.symm (hne x (List.mem_cons_self _ _))
        · exact h
      refine List.sorted_cons.2 ⟨?_, ih hxs (fun y hy => hne y (List.mem_cons_of_mem _ hy))⟩
      intro y hy
      rcases List.mem_cons.1 ((insertByKey_perm kv xs).subset hy) with rfl | hy
      · exact hxk
      · exact hx y hy

theorem sortByKey_sorted (l : List (String × List Char)) (h : (l.map Prod.fst).Nodup) :
    (sortByKey l).Sorted (fun a b => a.1 < b.1) := by
  induction l with
  | nil => exact List.sorted_nil
  | cons x xs ih =>
    rw [List.map_cons, List.nodup_cons] at h
    unfold sortByKey
    refine insertByKey_sorted x _ (ih h.2) ?_
    intro y hy e
    exact h.1 (e ▸ List.mem_map_of_mem Prod.fst ((sortByKey_perm xs).subset hy))

/-- Sorting by key gives the same list for every order of members whose keys
are distinct. -/
theorem sortByKey_eq_of_perm (l l' : List (String × List Char)) (h : l.Perm l')
    (hn : (l.map Prod.fst).Nodup) : sortByKey l = sortByKey l' := by
  have hn' : (l'.map Prod.fst).Nodup := (h.map Prod.fst).nodup_iff.1 hn
  haveI : IsAntisymm (String × List Char) (fun a b => a.1 < b.1) :=
    ⟨fun a b hab hba => absurd hba (lt_asymm hab)⟩
  exact List.eq_of_perm_of_sorted
    (((sortByKey_perm l).trans h).trans (sortByKey_perm l').symm)
    (sortByKey_sorted l hn) (sortByKey_sorted l' hn')

/-! ## The text of a value does not depend on the order of its maps -/

theorem marshalElems_eq_map (d : Nat) (xs : List Value) :
    marshalElems d xs = xs.map (marshalAt d) := by
  induction xs with
  | nil => simp [marshalElems]
  | cons x xs ih => simp [marshalElems, ih]

theorem marshalMembers_eq_map (d : Nat) (kvs : List (String × Value)) :
    marshalMembers d kvs = kvs.map (fun kv => (kv.1, marshalAt d kv.2)) := by
  induction kvs with
  | nil => simp [marshalMembers]
  | cons kv kvs ih =>
    obtain ⟨k, v⟩ := kv
    simp [marshalMembers, ih]

theorem marshalAt_reordered (v v' : Value) (h : Reordered v v') :
    ∀ d, marshalAt d v = marshalAt d v' := by
  induction h with
  | refl v => intro d; rfl
  | slice xs ys hlen _ ih =>
    intro d
    have : marshalElems (d + 1) xs = marshalElems (d + 1) ys := by
      rw [marshalElems_eq_map, marshalElems_eq_map]
      apply List.ext_getElem (by simp [hlen])
      intro i h1 h2
      simp only [List.length_map] at h1 h2
      simp only [List.getElem_map]
      exact ih (i, xs[i])
        (by rw [List.mk_mem_enum_iff_getElem?]; exact List.getElem?_eq_getElem h1)
        (i, ys[i])
        (by rw [List.mk_mem_enum_iff_getElem?]; exact List.getElem?_eq_getElem h2)
        rfl (d + 1)
    simp only [marshalAt, this]
  | map kvs kvs' hnd hperm _ ih =>
    intro d
    have hnd' : (kvs'.map Prod.fst).Nodup := hperm.nodup_iff.1 hnd
    have hkeys : ∀ (l : List (String × Value)),
        (l.map (fun kv => (kv.1, marshalAt (d + 1) kv.2))).map Prod.fst = l.map Prod.fst := by
      intro l
      simp [List.map_map, Function.comp_def]
    have : sortByKey (marshalMembers (d + 1) kvs) = sortByKey (marshalMembers (d + 1) kvs') := by
      rw [marshalMembers_eq_map, marshalMembers_eq_map]
      refine sortByKey_eq_of_perm _ _ ?_ (by rw [hkeys]; exact hnd)
      refine (List.perm_ext_iff_of_nodup ?_ ?_).2 ?_
      · exact List.Nodup.of_map Prod.fst (by rw [hkeys]; exact hnd)
      · exact List.Nodup.of_map Prod.fst (by rw [hkeys]; exact hnd')
      · intro a
        simp only [List.mem_map]
        constructor
        · rintro ⟨kv, hkv, rfl⟩
          obtain ⟨kv', hkv', e⟩ := mem_of_perm_keys kvs kvs' hperm kv hkv
          exact ⟨kv', hkv', by rw [← e, ← ih kv hkv kv' hkv' e (d + 1)]⟩
        · rintro ⟨kv', hkv', rfl⟩
          obtain ⟨kv, hkv, e⟩ := mem_of_perm_keys kvs' kvs hperm.symm kv' hkv'
          exact ⟨kv, hkv, by rw [← e, ih kv hkv kv' hkv' e.symm (d + 1)]⟩
    simp only [marshalAt, this]

theorem MarshalIndent_reordered (v v' : Value) (h : Reordered v v') :
    MarshalIndent v = MarshalIndent v' := by
  unfold MarshalIndent
  rw [marshalAt_reordered v v' h 0]

/-! ## A reordered value has distinct and plain keys when the value has -/

theorem Reordered.distinctKeys (v v' : Value) (h : Reordered v v') :
    DistinctKeys v → DistinctKeys v' := by
  induction h with
  | refl v => exact id
  | slice xs ys hlen _ ih =>
    intro hd
    cases hd with
    | slice _ hx =>
      refine DistinctKeys.slice ys (fun y hy => ?_)
      obtain ⟨i, hi⟩ := mem_enum_of_mem ys y hy
      obtain ⟨iv, hiv, e⟩ := mem_enum_of_length_eq ys xs hlen.symm (i, y) hi
      exact ih iv hiv (i, y) hi e.symm (hx iv.2 (mem_enum_snd _ _ hiv))
  | map kvs kvs' hnd hperm _ ih =>
    intro hd
    cases hd with
    | map _ _ hvals =>
      refine DistinctKeys.map kvs' (hperm.nodup_iff.1 hnd) (fun kv' hkv' => ?_)
      obtain ⟨kv, hkv, e⟩ := mem_of_perm_keys kvs' kvs hperm.symm kv' hkv'
      exact ih kv hkv kv' hkv' e.symm (hvals kv hkv)

theorem Reordered.plainKeys (v v' : Value) (h : Reordered v v') :
    PlainKeys v → PlainKeys v' := by
  induction h with
  | refl v => exact id
  | slice xs ys hlen _ ih =>
    intro hd
    cases hd with
    | slice _ hx =>
      refine PlainKeys.slice ys (fun y hy => ?_)
      obtain ⟨i, hi⟩ := mem_enum_of_mem ys y hy
      obtain ⟨iv, hiv, e⟩ := mem_enum_of_length_eq ys xs hlen.symm (i, y) hi
      exact ih iv hiv (i, y) hi e.symm (hx iv.2 (mem_enum_snd _ _ hiv))
  | map kvs kvs' hnd hperm _ ih =>
    intro hd
    cases hd with
    | map _ hkeys hvals =>
      refine PlainKeys.map kvs' (fun kv' hkv' => ?_) (fun kv' hkv' => ?_)
      · obtain ⟨kv, hkv, e⟩ := mem_of_perm_keys kvs' kvs hperm.symm kv' hkv'
        rw [e]
        exact hkeys kv hkv
      · obtain ⟨kv, hkv, e⟩ := mem_of_perm_keys kvs' kvs hperm.symm kv' hkv'
        exact ih kv hkv kv' hkv' e.symm (hvals kv hkv)

/-! ## The paths of a report -/

theorem applyWrites_mem_keys (ws : List (String × Value)) :
    ∀ (r : GoMap Value) (p : String),
      p ∈ (applyWrites r ws).keys ↔ p ∈ r.keys ∨ p ∈ ws.map Prod.fst := by
  induction ws with
  | nil => intro r p; simp [applyWrites_nil]
  | cons kv ws ih =>
    intro r p
    rw [applyWrites_cons, ih, GoMap.keys_set]
    simp only [List.map_cons, List.mem_cons]
    split
    · rename_i hmem
      constructor
      · rintro (h | h)
        · exact Or.inl h
        · exact Or.inr (Or.inr h)
      · rintro (h | h | h)
        · exact Or.inl h
        · exact Or.inl (h ▸ hmem)
        · exact Or.inr h
    · simp only [List.mem_append, List.mem_singleton]
      tauto

theorem serialize_mem_keys (unknown : GoMap Value) (hnodup : unknown.keys.Nodup) (p : String) :
    p ∈ (serialize unknown).keys ↔ p ∈ unknown.keys := by
  rw [← GoMap.get?_ne_none_iff, ← GoMap.get?_ne_none_iff, serialize_get? unknown hnodup]
  cases unknown.get? p <;> simp

/-! ## Two entries in the other order -/

theorem reordered_swap (k1 k2 : String) (v1 v2 : Value) (hne : k1 ≠ k2) :
    Reordered (.map [(k1, v1), (k2, v2)]) (.map [(k2, v2), (k1, v1)]) := by
  refine Reordered.map _ _ ?_ ?_ ?_
  · simp [hne]
  · exact List.Perm.swap _ _ _
  · intro kv hkv kv' hkv' e
    simp only [List.mem_cons, List.mem_singleton, List.not_mem_nil, or_false] at hkv hkv'
    rcases hkv with rfl | rfl <;> rcases hkv' with rfl | rfl
    · exact absurd e hne
    · exact Reordered.refl _
    · exact Reordered.refl _
    · exact absurd e.symm hne

theorem schemaReordered_swap (um : Bool) (f g : StructField)
    (hne : jsonFieldName f ≠ jsonFieldName g) :
    SchemaReordered (.struct um [f, g]) (.struct um [g, f]) := by
  refine SchemaReordered.struct um _ _ ?_ ?_ ?_
  · simp [hne]
  · exact List.Perm.swap _ _ _
  · intro a ha b hb e
    simp only [List.mem_cons, List.mem_singleton, List.not_mem_nil, or_false] at ha hb
    rcases ha with rfl | rfl <;> rcases hb with rfl | rfl
    · exact absurd e hne
    · exact SchemaReordered.refl _
    · exact SchemaReordered.refl _
    · exact absurd e.symm hne

theorem sameWrites_keys (ws ws' : List (String × Value)) (h : SameWrites ws ws') (p : String) :
    p ∈ ws.map Prod.fst ↔ p ∈ ws'.map Prod.fst := by
  constructor
  · intro hp
    obtain ⟨kv, hkv, rfl⟩ := List.mem_map.1 hp
    obtain ⟨kv', hkv', e, _⟩ := h.1 kv hkv
    rw [e]
    exact List.mem_map_of_mem Prod.fst hkv'
  · intro hp
    obtain ⟨kv', hkv', rfl⟩ := List.mem_map.1 hp
    obtain ⟨kv, hkv, e, _⟩ := h.2 kv' hkv'
    rw [← e]
    exact List.mem_map_of_mem Prod.fst hkv

theorem getUnmappedFields_eq_none_iff (typ : GoType) (val : Value) (q : String)
    (r : GoMap Value) :
    getUnmappedFields typ val q r = none ↔ getUnmappedWrites typ val q = none := by
  rw [getUnmappedFields_eq_applyWrites]
  cases getUnmappedWrites typ val q <;> simp

theorem getUnmappedFields_eq_some (typ : GoType) (val : Value) (q : String)
    (r r' : GoMap Value) (h : getUnmappedFields typ val q r = some r') :
    ∃ ws, getUnmappedWrites typ val q = some ws ∧ r' = applyWrites r ws := by
  rw [getUnmappedFields_eq_applyWrites] at h
  cases hw : getUnmappedWrites typ val q with
  | none => rw [hw] at h; cases h
  | some ws =>
    rw [hw] at h
    simp only [Option.map, Option.some.injEq] at h
    exact ⟨ws, rfl, h.symm⟩

/-! ## The paths of the report and the order of iteration (C14) -/

theorem Unmarshal_duplicateNameDocument :
    Unmarshal duplicateNameDocument = .ok (.map [("x", .string "s")]) := by
  unfold duplicateNameDocument
  rfl

/-- C14, counterexample. The struct with the fields `A int` and `B string`,
both with the serialized name `x`, and the document `{"x": "s"}`: with the
fields in the order `A`, `B` the known field of `x` is `B`, the string is
accepted and the report is empty; with the fields in the order `B`, `A` the
known field of `x` is `A`, and the report has the path `x`. -/
theorem duplicate_serialized_name_order :
    Unmarshal duplicateNameDocument = .ok (.map [("x", .string "s")]) ∧
    UnmappedJSONFields duplicateNameSchema duplicateNameDocument = .report [] ∧
    UnmappedJSONFields duplicateNameSchemaSwapped duplicateNameDocument =
      .report [("x", "\"s\"")] := by
  refine ⟨Unmarshal_duplicateNameDocument, ?_, ?_⟩
  · refine UnmappedJSONFields_of_decoded _ _ _ [] Unmarshal_duplicateNameDocument ?_
    simp [duplicateNameSchema, getUnmappedFields_eq, processStruct_eq, structStep, knownFields,
      addKnownField, jsonFieldName, splitComma, GoMap.set, GoMap.get?,
      GoType.implementsUnmarshaler, Value.asMap, StructField.Typ, StructField.Name,
      StructField.jsonTag, Value.convertibleTo, childKey]
  · refine UnmappedJSONFields_of_decoded _ _ _ [("x", .string "s")]
      Unmarshal_duplicateNameDocument ?_
    simp [duplicateNameSchemaSwapped, getUnmappedFields_eq, processStruct_eq, structStep,
      knownFields, addKnownField, jsonFieldName, splitComma, GoMap.set, GoMap.get?,
      GoType.implementsUnmarshaler, Value.asMap, StructField.Typ, StructField.Name,
      StructField.jsonTag, Value.convertibleTo, childKey]

/-- C14, amended. Let the document be decoded to `val`, let `val'` be `val`
with the keys of its maps in any other order, and `typ'` be `typ` with the
fields of its structs in any other order, the serialized names of the fields
of each reordered struct being distinct. Then the walk of `val'` against
`typ'` panics exactly when the walk of `val` against `typ` does, and when
both return, the entry point returns the serialized report of the first, and
the two serialized reports have the same set of paths. -/
theorem paths_independent_of_order (typ typ' : GoType) (data : String) (val val' : Value)
    (hdoc : Unmarshal data = .ok val) (hs : SchemaReordered typ typ')
    (hv : Reordered val val') :
    (getUnmappedFields typ val "" [] = none ↔ getUnmappedFields typ' val' "" [] = none) ∧
    ∀ r r', getUnmappedFields typ val "" [] = some r →
      getUnmappedFields typ' val' "" [] = some r' →
      UnmappedJSONFields typ data = .report (serialize r) ∧
      ∀ p, p ∈ (serialize r).keys ↔ p ∈ (serialize r').keys := by
  have hsame := getUnmappedWrites_reordered typ typ' val val' "" hs hv
  refine ⟨?_, ?_⟩
  · rw [getUnmappedFields_eq_none_iff, getUnmappedFields_eq_none_iff]
    exact hsame.1
  · intro r r' hr hr'
    refine ⟨UnmappedJSONFields_of_decoded typ data val r hdoc hr, fun p => ?_⟩
    have hn := getUnmappedFields_nodup_keys _ _ _ _ _ hr List.nodup_nil
    have hn' := getUnmappedFields_nodup_keys _ _ _ _ _ hr' List.nodup_nil
    obtain ⟨ws, hws, rfl⟩ := getUnmappedFields_eq_some _ _ _ _ _ hr
    obtain ⟨ws', hws', rfl⟩ := getUnmappedFields_eq_some _ _ _ _ _ hr'
    rw [serialize_mem_keys _ hn, serialize_mem_keys _ hn', applyWrites_mem_keys,
      applyWrites_mem_keys, sameWrites_keys ws ws' (hsame.2 ws ws' hws hws') p]

theorem Unmarshal_twoFieldDocument :
    Unmarshal twoFieldDocument = .ok (.map [("Int", .string "oops"), ("Extra", .bool true)]) := by
  unfold twoFieldDocument
  rfl

theorem getUnmappedFields_twoFieldDocument :
    getUnmappedFields twoFieldSchema
      (.map [("Int", .string "oops"), ("Extra", .bool true)]) "" [] =
      some [("Int", .string "oops"), ("Extra", .bool true)] := by
  simp [twoFieldSchema, getUnmappedFields_eq, processStruct_eq, structStep, knownFields,
    addKnownField, jsonFieldName, splitComma, GoMap.set, GoMap.get?,
    GoType.implementsUnmarshaler, Value.asMap, StructField.Typ, StructField.Name,
    StructField.jsonTag, Value.convertibleTo, childKey]

theorem getUnmappedFields_twoFieldDocument_swapped :
    getUnmappedFields twoFieldSchemaSwapped
      (.map [("Extra", .bool true), ("Int", .string "oops")]) "" [] =
      some [("Extra", .bool true), ("Int", .string "oops")] := by
  simp [twoFieldSchemaSwapped, getUnmappedFields_eq, processStruct_eq, structStep, knownFields,
    addKnownField, jsonFieldName, splitComma, GoMap.set, GoMap.get?,
    GoType.implementsUnmarshaler, Value.asMap, StructField.Typ, StructField.Name,
    StructField.jsonTag, Value.convertibleTo, childKey]

/-- C14, amended, at the struct `{ String string; Int int }` and the document
`{"Int": "oops", "Extra": true}`, both also in the other order: the path `Int`
is in both reports. -/
theorem paths_independent_of_order_witness :
    SchemaReordered twoFieldSchema twoFieldSchemaSwapped ∧
    Reordered (.map [("Int", .string "oops"), ("Extra", .bool true)])
      (.map [("Extra", .bool true), ("Int", .string "oops")]) ∧
    ("Int" ∈ (serialize [("Int", .string "oops"), ("Extra", .bool true)]).keys ↔
      "Int" ∈ (serialize [("Extra", .bool true), ("Int", .string "oops")]).keys) :=
  have hs : SchemaReordered twoFieldSchema twoFieldSchemaSwapped :=
    schemaReordered_swap false _ _ (by decide)
  have hv : Reordered (.map [("Int", .string "oops"), ("Extra", .bool true)])
      (.map [("Extra", .bool true), ("Int", .string "oops")]) :=
    reordered_swap _ _ _ _ (by decide)
  ⟨hs, hv,
    ((paths_independent_of_order twoFieldSchema twoFieldSchemaSwapped twoFieldDocument _ _
      Unmarshal_twoFieldDocument hs hv).2 _ _ getUnmappedFields_twoFieldDocument
      getUnmappedFields_twoFieldDocument_swapped).2 "Int"⟩

/-! ## The content of the report and the order of iteration (C15) -/

theorem Unmarshal_collisionDocumentSwapped :
    Unmarshal collisionDocumentSwapped =
      .ok (.map [("A", .map [("B", .bool false)]), ("A.B", .bool true)]) := by
  unfold collisionDocumentSwapped
  rfl

/-- C15, counterexample. The documents `{"A.B": true, "A": {"B": false}}` and
`{"A": {"B": false}, "A.B": true}` are decoded to the same map with its keys
in two orders; for the schema `struct { A struct{} }` the report of the first
has `false` at the path `A.B` and the report of the second has `true`. -/
theorem colliding_paths_order :
    Unmarshal collisionDocument =
      .ok (.map [("A.B", .bool true), ("A", .map [("B", .bool false)])]) ∧
    Unmarshal collisionDocumentSwapped =
      .ok (.map [("A", .map [("B", .bool false)]), ("A.B", .bool true)]) ∧
    Reordered (.map [("A.B", .bool true), ("A", .map [("B", .bool false)])])
      (.map [("A", .map [("B", .bool false)]), ("A.B", .bool true)]) ∧
    UnmappedJSONFields collisionSchema collisionDocument = .report [("A.B", "false")] ∧
    UnmappedJSONFields collisionSchema collisionDocumentSwapped =
      .report [("A.B", "true")] := by
  refine ⟨Unmarshal_collisionDocument, Unmarshal_collisionDocumentSwapped,
    reordered_swap _ _ _ _ (by decide), ?_, ?_⟩
  · refine UnmappedJSONFields_of_decoded _ _ _ [("A.B", .bool false)]
      Unmarshal_collisionDocument ?_
    rw [getUnmappedFields_eq_applyWrites, getUnmappedWrites_collision]
    rfl
  · refine UnmappedJSONFields_of_decoded _ _ _ [("A.B", .bool true)]
      Unmarshal_collisionDocumentSwapped ?_
    simp [collisionSchema, getUnmappedFields_eq, processStruct_eq, structStep, knownFields,
      addKnownField, jsonFieldName, splitComma, GoMap.set, GoMap.get?,
      GoType.implementsUnmarshaler, Value.asMap, StructField.Typ, StructField.Name,
      StructField.jsonTag, childKey]

/-- C15, amended. For a schema whose field names are not empty, as those of
Go are, and a document that is decoded to `val` and in which no key has a dot
or an opening bracket: for every `val'` that is `val` with the keys of its
maps in another order, the walk of `val'` panics exactly when the walk of
`val` does, and when both return, the entry point returns the serialized
report of the first, and the serialized report of the second holds the same
text at every path. -/
theorem report_independent_of_order (typ : GoType) (data : String) (val val' : Value)
    (hnames : NamedFields typ) (hdoc : Unmarshal data = .ok val) (hplain : PlainKeys val)
    (hv : Reordered val val') :
    (getUnmappedFields typ val "" [] = none ↔ getUnmappedFields typ val' "" [] = none) ∧
    ∀ r r', getUnmappedFields typ val "" [] = some r →
      getUnmappedFields typ val' "" [] = some r' →
      UnmappedJSONFields typ data = .report (serialize r) ∧
      ∀ p, (serialize r').get? p = (serialize r).get? p := by
  have hsame := getUnmappedWrites_reordered typ typ val val' "" (SchemaReordered.refl typ) hv
  refine ⟨?_, ?_⟩
  · rw [getUnmappedFields_eq_none_iff, getUnmappedFields_eq_none_iff]
    exact hsame.1
  · intro r r' hr hr'
    refine ⟨UnmappedJSONFields_of_decoded typ data val r hdoc hr, fun p => ?_⟩
    have hn := getUnmappedFields_nodup_keys _ _ _ _ _ hr List.nodup_nil
    have hn' := getUnmappedFields_nodup_keys _ _ _ _ _ hr' List.nodup_nil
    obtain ⟨ws, hws, rfl⟩ := getUnmappedFields_eq_some _ _ _ _ _ hr
    obtain ⟨ws', hws', rfl⟩ := getUnmappedFields_eq_some _ _ _ _ _ hr'
    have hdist := Unmarshal_distinctKeys data val hdoc
    have hnd := (getUnmappedWrites_nodup typ val "" ws hnames hdist hplain hws).1
    have hnd' := (getUnmappedWrites_nodup typ val' "" ws' hnames
      (Reordered.distinctKeys val val' hv hdist) (Reordered.plainKeys val val' hv hplain)
      hws').1
    have hsw := hsame.2 ws ws' hws hws'
    rw [serialize_get? _ hn, serialize_get? _ hn']
    by_cases hp : p ∈ ws.map Prod.fst
    · obtain ⟨kv, hkv, rfl⟩ := List.mem_map.1 hp
      obtain ⟨kv', hkv', e, hre⟩ := hsw.1 kv hkv
      rw [applyWrites_get?_of_nodup ws [] hnd kv hkv, e,
        applyWrites_get?_of_nodup ws' [] hnd' kv' hkv']
      simp only [Option.map]
      rw [MarshalIndent_reordered _ _ hre]
    · have hp' : p ∉ ws'.map Prod.fst := fun h => hp ((sameWrites_keys ws ws' hsw p).2 h)
      rw [(applyWrites_get? ws [] p).1 (fun kv hkv e => hp (e ▸ List.mem_map_of_mem Prod.fst hkv)),
        (applyWrites_get? ws' [] p).1
          (fun kv hkv e => hp' (e ▸ List.mem_map_of_mem Prod.fst hkv))]

theorem getUnmappedFields_plainDocument :
    getUnmappedFields collisionSchema
      (.map [("A", .map [("B", .bool false)]), ("C", .bool true)]) "" [] =
      some [("A.B", .bool false), ("C", .bool true)] := by
  rw [getUnmappedFields_eq_applyWrites, getUnmappedWrites_plainDocument]
  rfl

theorem getUnmappedFields_plainDocument_swapped :
    getUnmappedFields collisionSchema
      (.map [("C", .bool true), ("A", .map [("B", .bool false)])]) "" [] =
      some [("C", .bool true), ("A.B", .bool false)] := by
  simp [collisionSchema, getUnmappedFields_eq, processStruct_eq, structStep, knownFields,
    addKnownField, jsonFieldName, splitComma, GoMap.set, GoMap.get?,
    GoType.implementsUnmarshaler, Value.asMap, StructField.Typ, StructField.Name,
    StructField.jsonTag, childKey]

/-- C15, amended, at the schema `struct { A struct{} }` and the document
`{"A": {"B": false}, "C": true}`, whose keys are plain: with the keys in the
other order the report holds the same text at the path `A.B`. -/
theorem report_independent_of_order_witness :
    NamedFields collisionSchema ∧
    Unmarshal plainDocument =
      .ok (.map [("A", .map [("B", .bool false)]), ("C", .bool true)]) ∧
    PlainKeys (.map [("A", .map [("B", .bool false)]), ("C", .bool true)]) ∧
    Reordered (.map [("A", .map [("B", .bool false)]), ("C", .bool true)])
      (.map [("C", .bool true), ("A", .map [("B", .bool false)])]) ∧
    (serialize [("C", .bool true), ("A.B", .bool false)]).get? "A.B" =
      (serialize [("A.B", .bool false), ("C", .bool true)]).get? "A.B" :=
  have hv : Reordered (.map [("A", .map [("B", .bool false)]), ("C", .bool true)])
      (.map [("C", .bool true), ("A", .map [("B", .bool false)])]) :=
    reordered_swap _ _ _ _ (by decide)
  ⟨namedFields_collisionSchema, Unmarshal_plainDocument, plainKeys_plainDocument, hv,
    ((report_independent_of_order collisionSchema plainDocument _ _
      namedFields_collisionSchema Unmarshal_plainDocument plainKeys_plainDocument hv).2 _ _
      getUnmappedFields_plainDocument getUnmappedFields_plainDocument_swapped).2 "A.B"⟩

/-! ## Malformed and well-formed documents (C11) -/

/-- The exponent part `e100000` is read as 10000 and `e-123456` as -12345, as
`strconv.ParseFloat` reads them; an exponent part of up to five digits is read
as written. -/
theorem parseExponent_capped :
    parseExponent "e100000".data = some (10000, []) ∧
    parseExponent "e-123456".data = some (-12345, []) ∧
    parseExponent "E+99999".data = some (99999, []) ∧
    parseExponent "e0000000123".data = some (123, []) := by
  refine ⟨?_, ?_, ?_, ?_⟩ <;> decide

mutual
theorem JSON.decode_isSome_iff :
    ∀ (j : JSON), (∃ v, j.decode = some v) ↔ JSON.InRange j
  | .null => by
    rw [JSON.decode]
    exact ⟨fun _ => JSON.InRange.null, fun _ => ⟨_, rfl⟩⟩
  | .bool b => by
    rw [JSON.decode]
    exact ⟨fun _ => JSON.InRange.bool b, fun _ => ⟨_, rfl⟩⟩
  | .number neg digits e10 => by
    rw [JSON.decode]
    cases hf : ParseFloat neg digits e10 with
    | none =>
      constructor
      · rintro ⟨v, hv⟩
        cases hv
      · intro h
        cases h with
        | number _ _ _ hne => exact absurd hf hne
    | some f =>
      exact ⟨fun _ => JSON.InRange.number neg digits e10 (by rw [hf]; exact fun h => by cases h),
        fun _ => ⟨_, rfl⟩⟩
  | .string s => by
    rw [JSON.decode]
    exact ⟨fun _ => JSON.InRange.string s, fun _ => ⟨_, rfl⟩⟩
  | .array elems => by
    rw [JSON.decode]
    have ih := decodeElems_isSome_iff elems
    cases he : decodeElems elems with
    | none =>
      rw [he] at ih
      constructor
      · rintro ⟨v, hv⟩
        cases hv
      · intro h
        cases h with
        | array _ hall =>
          obtain ⟨vs, hvs⟩ := ih.2 hall
          cases hvs
    | some xs =>
      rw [he] at ih
      exact ⟨fun _ => JSON.InRange.array elems (ih.1 ⟨xs, rfl⟩), fun _ => ⟨_, rfl⟩⟩
  | .object members => by
    rw [JSON.decode]
    have ih := decodeMembers_isSome_iff members []
    cases hm : decodeMembers members [] with
    | none =>
      rw [hm] at ih
      constructor
      · rintro ⟨v, hv⟩
        cases hv
      · intro h
        cases h with
        | object _ hall =>
          obtain ⟨m, hm'⟩ := ih.2 hall
          cases hm'
    | some m =>
      rw [hm] at ih
      exact ⟨fun _ => JSON.InRange.object members (ih.1 ⟨m, rfl⟩), fun _ => ⟨_, rfl⟩⟩
theorem decodeElems_isSome_iff :
    ∀ (js : List JSON), (∃ vs, decodeElems js = some vs) ↔ ∀ j ∈ js, JSON.InRange j
  | [] => by
    rw [decodeElems]
    exact ⟨fun _ j hj => (by cases hj), fun _ => ⟨_, rfl⟩⟩
  | j :: rest => by
    rw [decodeElems]
    have ihj := JSON.decode_isSome_iff j
    have ihr := decodeElems_isSome_iff rest
    cases hj : j.decode with
    | none =>
      rw [hj] at ihj
      constructor
      · rintro ⟨v, hv⟩
        cases hv
      · intro h
        obtain ⟨v, hv⟩ := ihj.2 (h j (List.mem_cons_self _ _))
        cases hv
    | some v =>
      cases hr : decodeElems rest with
      | none =>
        rw [hr] at ihr
        constructor
        · rintro ⟨v, hv⟩
          cases hv
        · intro h
          obtain ⟨vs, hvs⟩ := ihr.2 (fun a ha => h a (List.mem_cons_of_mem _ ha))
          cases hvs
      | some vs =>
        rw [hj] at ihj
        rw [hr] at ihr
        refine ⟨fun _ a ha => ?_, fun _ => ⟨_, rfl⟩⟩
        rcases List.mem_cons.1 ha with rfl | ha
        · exact ihj.1 ⟨v, rfl⟩
        · exact ihr.1 ⟨vs, rfl⟩ a ha
theorem decodeMembers_isSome_iff :
    ∀ (ms : List (String × JSON)) (m : GoMap Value),
      (∃ m', decodeMembers ms m = some m') ↔ ∀ kv ∈ ms, JSON.InRange kv.2
  | [], m => by
    rw [decodeMembers]
    exact ⟨fun _ kv hkv => (by cases hkv), fun _ => ⟨_, rfl⟩⟩
  | (k, j) :: rest, m => by
    rw [decodeMembers]
    have ihj := JSON.decode_isSome_iff j
    cases hj : j.decode with
    | none =>
      rw [hj] at ihj
      constructor
      · rintro ⟨v, hv⟩
        cases hv
      · intro h
        obtain ⟨v, hv⟩ := ihj.2 (h (k, j) (List.mem_cons_self _ _))
        cases hv
    | some v =>
      rw [hj] at ihj
      simp only
      have ihr := decodeMembers_isSome_iff rest (m.set k v)
      rw [ihr]
      constructor
      · intro h a ha
        rcases List.mem_cons.1 ha with rfl | ha
        · exact ihj.1 ⟨v, rfl⟩
        · exact h a ha
      · intro h a ha
        exact h a (List.mem_cons_of_mem _ ha)
end

/-- The decoder accepts exactly the text `null` and the objects whose number
literals are all accepted by `strconv.ParseFloat`. -/
theorem Unmarshal_ok_iff (data : String) :
    (∃ val, Unmarshal data = .ok val) ↔
      parseJSON data = some .null ∨
      ∃ members, parseJSON data = some (.object members) ∧
        ∀ kv ∈ members, JSON.InRange kv.2 := by
  unfold Unmarshal
  cases hp : parseJSON data with
  | none => simp
  | some j =>
    cases j with
    | null => simp
    | bool b => simp
    | number n d e => simp
    | string s => simp
    | array xs => simp
    | object members =>
      simp only
      have ih := decodeMembers_isSome_iff members []
      cases hm : decodeMembers members [] with
      | none =>
        rw [hm] at ih
        simp only [Option.some.injEq, JSON.object.injEq, false_or, reduceCtorEq,
          exists_false, false_iff]
        rintro ⟨ms, rfl, hall⟩
        obtain ⟨m, hm'⟩ := ih.2 hall
        cases hm'
      | some m =>
        rw [hm] at ih
        simp only [Option.some.injEq, JSON.object.injEq, false_or, reduceCtorEq]
        exact ⟨fun _ => ⟨members, rfl, ih.1 ⟨m, rfl⟩⟩, fun _ => ⟨_, rfl⟩⟩

/-- C11, amended. The entry point returns an error exactly when
`json.Unmarshal` into the `map[string]interface{}` does, and it is that error:
a text that is not well-formed JSON gives the syntax error; a well-formed text
gives the type error exactly when it is neither `null` nor an object all of
whose number literals `strconv.ParseFloat` accepts, so a well-formed array,
string, number or boolean at the top level is an error, and so is an object
with a number that `strconv.ParseFloat` reads as out of the float64 range; an
error comes with no report and no walk; and a document that is decoded gives
the report of the walk whenever the walk returns. -/
theorem UnmappedJSONFields_error (typ : GoType) (data : String) :
    (∀ err, UnmappedJSONFields typ data = .error err ↔ Unmarshal data = .error err) ∧
    (UnmappedJSONFields typ data = .error .SyntaxError ↔ parseJSON data = none) ∧
    (∀ j, parseJSON data = some j →
      (UnmappedJSONFields typ data = .error .UnmarshalTypeError ↔
        ¬ (j = .null ∨ ∃ members, j = .object members ∧ ∀ kv ∈ members, JSON.InRange kv.2))) ∧
    (∀ val unknown, Unmarshal data = .ok val →
      getUnmappedFields typ val "" [] = some unknown →
      UnmappedJSONFields typ data = .report (serialize unknown)) := by
  have herr : ∀ err, UnmappedJSONFields typ data = .error err ↔ Unmarshal data = .error err := by
    intro err
    constructor
    · intro h
      unfold UnmappedJSONFields at h
      cases hval : Unmarshal data with
      | error e =>
        rw [hval] at h
        simp only at h
        cases h
        rfl
      | ok val =>
        rw [hval] at h
        simp only at h
        cases hw : getUnmappedFields typ val "" [] with
        | none => rw [hw] at h; cases h
        | some u => rw [hw] at h; cases h
    · intro h
      exact UnmappedJSONFields_of_error typ data err h
  have hok := Unmarshal_ok_iff data
  refine ⟨herr, ?_, ?_, ?_⟩
  · rw [herr]
    unfold Unmarshal
    cases hp : parseJSON data with
    | none => simp
    | some j =>
      cases j with
      | null => simp
      | bool b => simp
      | number n d e => simp
      | string s => simp
      | array xs => simp
      | object members =>
        simp only
        cases hm : decodeMembers members [] <;> simp
  · intro j hj
    rw [herr]
    rw [hj] at hok
    simp only [Option.some.injEq] at hok
    rw [← hok]
    unfold Unmarshal
    rw [hj]
    cases j with
    | null => simp
    | bool b => simp
    | number n d e => simp
    | string s => simp
    | array xs => simp
    | object members =>
      simp only
      cases hm : decodeMembers members [] <;> simp
  · intro val unknown hval hwalk
    exact UnmappedJSONFields_of_decoded typ data val unknown hval hwalk

set_option maxRecDepth 100000 in
set_option exponentiation.threshold 4000 in
/-- C11, amended, at three documents and the schema `struct { String string;
Int int }`: the document `{"Int": "oops", "Extra": true}` is decoded, the walk
returns two entries and the entry point returns their report; the text
`{"Int": ` is not well-formed and gives the syntax error; the document
`{"Int": 1e999}` is well-formed and gives the type error, its number being out
of the float64 range. -/
theorem UnmappedJSONFields_error_witness :
    UnmappedJSONFields twoFieldSchema twoFieldDocument =
      .report (serialize [("Int", .string "oops"), ("Extra", .bool true)]) ∧
    serialize [("Int", .string "oops"), ("Extra", .bool true)] =
      [("Int", "\"oops\""), ("Extra", "true")] ∧
    UnmappedJSONFields twoFieldSchema "\x7b\"Int\": " = .error .SyntaxError ∧
    UnmappedJSONFields twoFieldSchema "\x7b\"Int\": 1e999\x7d" = .error .UnmarshalTypeError :=
  ⟨(UnmappedJSONFields_error twoFieldSchema twoFieldDocument).2.2.2 _ _
      (by unfold twoFieldDocument; rfl)
      (by simp [twoFieldSchema, getUnmappedFields_eq, processStruct_eq, structStep, knownFields,
        addKnownField, jsonFieldName, splitComma, GoMap.set, GoMap.get?,
        GoType.implementsUnmarshaler, Value.asMap, StructField.Typ, StructField.Name,
        StructField.jsonTag, Value.convertibleTo, childKey]),
    rfl,
    (UnmappedJSONFields_error twoFieldSchema "\x7b\"Int\": ").2.1.2 rfl,
    ((UnmappedJSONFields_error twoFieldSchema "\x7b\"Int\": 1e999\x7d").2.2.1
      (.object [("Int", .number false 1 999)]) rfl).2 (by
        rintro (h | ⟨members, h, hall⟩)
        · cases h
        · cases h
          have := hall ("Int", .number false 1 999) (List.mem_cons_self _ _)
          cases this with
          | number _ _ _ hne => exact hne rfl)⟩

/-! ## Binary digits -/

end Schemadiff
